import Mathlib

/-!
Poker probability: card encoding, deck and hand classifier.

A shallow embedding of `card.hpp`, `deck.cpp` and `hand.cpp`.

* `uint8_t` values are natural numbers; a conversion to `uint8_t` is `% 256`.
* The scoped enumerations `Card::Rank` and `Card::Suit` have underlying type `int`;
  a value of the enumeration is held as that integer (the source casts integers
  outside `0..12` to `Rank` in `Deck::Deck`), with the enumerators as named constants.
* `std::vector` is a list whose last element is `back()`.
* The local arrays `int ranks[13]` are maps from index to entry. The source indexes
  them with `card >> 2`, which is in bounds exactly when the packed card is at most 51;
  the statements about the classifier all assume that bound.
-/

/-! ## Card -/

/-- Conversion of a non-negative `int` to `uint8_t`. -/
def toUInt8 (n : Nat) : Nat := n % 256

/-- Source `class Card`: the private member `uint8_t value`, built by `Card(uint8_t packed)`. -/
structure Card where
  ofPacked ::
  value : Nat
deriving DecidableEq, Repr

namespace Card

/-- Source `enum class Rank`, held as its underlying integer. -/
abbrev Rank := Nat

/-- Source `enum class Suit`, held as its underlying integer. -/
abbrev Suit := Nat

def Rank.Two : Rank := 0
def Rank.Three : Rank := 1
def Rank.Four : Rank := 2
def Rank.Five : Rank := 3
def Rank.Six : Rank := 4
def Rank.Seven : Rank := 5
def Rank.Eight : Rank := 6
def Rank.Nine : Rank := 7
def Rank.Ten : Rank := 8
def Rank.Jack : Rank := 9
def Rank.Queen : Rank := 10
def Rank.King : Rank := 11
def Rank.Ace : Rank := 12

def Suit.Hearts : Suit := 0
def Suit.Diamonds : Suit := 1
def Suit.Clubs : Suit := 2
def Suit.Spades : Suit := 3

/-- Source `Card(Rank rank, Suit suit)`:
`value((static_cast<uint8_t>(rank) << 2) | static_cast<uint8_t>(suit))`.
The operands are promoted to `int`, the result is converted back to `uint8_t`. -/
def mk (rank : Rank) (suit : Suit) : Card :=
  ofPacked (toUInt8 ((toUInt8 rank <<< 2) ||| toUInt8 suit))

/-- Source `Card()`. -/
def default : Card := ofPacked 0

/-- Source `Card::getRank`: `static_cast<Rank>(value >> 2)`. -/
def getRank (c : Card) : Rank := c.value >>> 2

/-- Source `Card::getSuit`: `static_cast<Suit>(value & 0x3)`. -/
def getSuit (c : Card) : Suit := c.value &&& 0x3

/-- Source `Card::getValue`. -/
def getValue (c : Card) : Nat := c.value

end Card

/-! ## Deck -/

/-- Source `class Deck`: the vector `cards`. The member `currentCard` is never written or
read by any method and is left out. -/
structure Deck where
  cards : List Card
deriving DecidableEq, Repr

namespace Deck

/-- Source `Deck::Deck()`: `for s in 0..3, for r in 2..14, cards.emplace_back(Rank(r), Suit(s))`. -/
def new : Deck :=
  ⟨(List.range 4).foldl
    (fun cards s =>
      (List.range' 2 13).foldl (fun cards r => cards ++ [Card.mk r s]) cards)
    []⟩

/-- Source `Deck::reset`: `cards.clear()`, then
`for s in 0..3, for r in 0..12, cards.emplace_back(Rank(r), Suit(s))`. -/
def reset (_d : Deck) : Deck :=
  let cleared : List Card := []
  ⟨(List.range 4).foldl
    (fun cards s =>
      (List.range 13).foldl (fun cards r => cards ++ [Card.mk r s]) cards)
    cleared⟩

/-- Source `Deck::dealCard`: `cards.back()` then `cards.pop_back()`. On an empty vector both
calls are undefined; that outcome is `none`. -/
def dealCard (d : Deck) : Option (Card × Deck) :=
  match d.cards.getLast? with
  | none => none
  | some dealtCard => some (dealtCard, ⟨d.cards.dropLast⟩)

/-- The loop of `Deck::dealHand` with `k` iterations left. -/
def dealHandLoop : Nat → Deck → List Card → Option (List Card × Deck)
  | 0, d, hand => some (hand, d)
  | k + 1, d, hand =>
    match d.dealCard with
    | none => none
    | some (c, d1) => dealHandLoop k d1 (hand ++ [c])

/-- Source `Deck::dealHand(int handSize)`: `for (i = 0; i < handSize; ++i) hand.push_back(dealCard())`.
The loop body runs `max handSize 0` times. -/
def dealHand (d : Deck) (handSize : Int) : Option (List Card × Deck) :=
  dealHandLoop handSize.toNat d []

/-- Source `Deck::isEmpty`. -/
def isEmpty (d : Deck) : Bool := d.cards.isEmpty

/-- Source `Deck::remainingCards`. -/
def remainingCards (d : Deck) : Nat := d.cards.length

end Deck

/-! ## Hand -/

/-- Source `enum class HandType` (the enumerator `Count`, used only as an array size, is
`HandType.count`). -/
inductive HandType where
  | RoyalFlush
  | StraightFlush
  | FourOfAKind
  | FullHouse
  | Flush
  | Straight
  | ThreeOfAKind
  | TwoPair
  | OnePair
  | HighCard
deriving DecidableEq, Repr

/-- Source `static_cast<size_t>(type)`. -/
def HandType.toNat : HandType → Nat
  | .RoyalFlush => 0
  | .StraightFlush => 1
  | .FourOfAKind => 2
  | .FullHouse => 3
  | .Flush => 4
  | .Straight => 5
  | .ThreeOfAKind => 6
  | .TwoPair => 7
  | .OnePair => 8
  | .HighCard => 9

/-- Source `HandType::Count`. -/
def HandType.count : Nat := 10

/-- Source `class Hand`: the vector `cards` of packed `uint8_t` values. -/
structure Hand where
  cards : List Nat
deriving DecidableEq, Repr

/-- The assignment `a[i] = v` on an `int` array held as a map from index to entry. -/
def arrSet (a : Nat → Nat) (i v : Nat) : Nat → Nat :=
  fun j => if j = i then v else a j

/-- The array `int ranks[13] = {0}`. -/
def zeroRanks : Nat → Nat := fun _ => 0

namespace Hand

/-- Source `Hand(const std::vector<Card>& cards)`: pushes `card.getValue()` for each card. -/
def ofCards (cards : List Card) : Hand :=
  ⟨cards.foldl (fun acc card => acc ++ [card.getValue]) []⟩

/-- Source `Hand::addCard`. -/
def addCard (h : Hand) (card : Card) : Hand := ⟨h.cards ++ [card.getValue]⟩

/-- Source `Hand::getCards`. -/
def getCards (h : Hand) : List Card :=
  h.cards.foldl (fun result packed => result ++ [Card.ofPacked packed]) []

/-- The loop of `hasThreeOfAKind`:
`for card : cards { if (++ranks[card >> 2] >= 3) return true; } return false`. -/
def hasThreeOfAKindLoop (ranks : Nat → Nat) : List Nat → Bool
  | [] => false
  | card :: rest =>
    let ranks1 := arrSet ranks (card >>> 2) (ranks (card >>> 2) + 1)
    if ranks1 (card >>> 2) ≥ 3 then true else hasThreeOfAKindLoop ranks1 rest

/-- Source `Hand::hasThreeOfAKind`. -/
def hasThreeOfAKind (h : Hand) : Bool := hasThreeOfAKindLoop zeroRanks h.cards

/-- The loop shared word for word by `hasOnePair` and `hasTwoPair`:
`if (++ranks[card >> 2] == 2) pairs++; if (ranks[card >> 2] > 2) return false;`.
The result is `none` for the early `return false`, else the final `pairs`. -/
def pairsLoop (ranks : Nat → Nat) (pairs : Nat) : List Nat → Option Nat
  | [] => some pairs
  | card :: rest =>
    let ranks1 := arrSet ranks (card >>> 2) (ranks (card >>> 2) + 1)
    let pairs1 := if ranks1 (card >>> 2) = 2 then pairs + 1 else pairs
    if ranks1 (card >>> 2) > 2 then none else pairsLoop ranks1 pairs1 rest

/-- Source `Hand::hasOnePair`: the loop, then `return pairs == 1`. -/
def hasOnePair (h : Hand) : Bool :=
  match pairsLoop zeroRanks 0 h.cards with
  | none => false
  | some pairs => pairs == 1

/-- Source `Hand::hasTwoPair`: the loop, then `return pairs == 2`. -/
def hasTwoPair (h : Hand) : Bool :=
  match pairsLoop zeroRanks 0 h.cards with
  | none => false
  | some pairs => pairs == 2

/-- The loop `for card : cards { ranks[card >> 2] = 1; }` of `hasStraight` and
`hasRoyalFlush`. -/
def markRanks (ranks : Nat → Nat) : List Nat → Nat → Nat
  | [] => ranks
  | card :: rest => markRanks (arrSet ranks (card >>> 2) 1) rest

/-- The loop `for i in 0..12 { if (ranks[i]) { min_rank = min(min_rank, i);
max_rank = max(max_rank, i); } }` of `hasStraight`, over the indices still to visit. -/
def minMaxRanks (ranks : Nat → Nat) : List Nat → Nat × Nat → Nat × Nat
  | [], mm => mm
  | i :: is, (min_rank, max_rank) =>
    if ranks i ≠ 0 then minMaxRanks ranks is (min min_rank i, max max_rank i)
    else minMaxRanks ranks is (min_rank, max_rank)

/-- The loop `for i in min_rank..max_rank { if (!ranks[i]) return false; }` of
`hasStraight`, over the indices still to visit: `false` for the early return. -/
def runPresent (ranks : Nat → Nat) : List Nat → Bool
  | [] => true
  | i :: is => if ranks i = 0 then false else runPresent ranks is

/-- The loop of `hasFlush`: `for card : cards { if ((card & 0x3) != suit) return false; }`,
`false` for the early return. -/
def sameSuitLoop (suit : Nat) : List Nat → Bool
  | [] => true
  | card :: rest => if (card &&& 0x3) ≠ suit then false else sameSuitLoop suit rest

mutual

/-- Source `Hand::hasStraight(bool exclusive)`. The expression `!exclusive || !hasFlush(false)`
calls `hasFlush` only when `exclusive` holds. -/
def hasStraight (h : Hand) (exclusive : Bool) : Bool :=
  let ranks := markRanks zeroRanks h.cards
  if ranks 12 ≠ 0 ∧ ranks 0 ≠ 0 ∧ ranks 1 ≠ 0 ∧ ranks 2 ≠ 0 ∧ ranks 3 ≠ 0 then
    if _hx : exclusive = true then !(hasFlush h false) else true
  else
    let mm := minMaxRanks ranks (List.range 13) (12, 0)
    let min_rank := mm.1
    let max_rank := mm.2
    if (max_rank : Int) - (min_rank : Int) = 4 then
      if runPresent ranks (List.range' min_rank (max_rank + 1 - min_rank)) = false then false
      else if _hx : exclusive = true then !(hasFlush h false) else true
    else false
termination_by (if exclusive = true then 1 else 0 : Nat)
decreasing_by all_goals simp_all

/-- Source `Hand::hasFlush(bool exclusive)`. `cards[0]` of an empty hand is read out of bounds
in the source; here it reads 0. -/
def hasFlush (h : Hand) (exclusive : Bool) : Bool :=
  let suit := (h.cards.getD 0 0) &&& 0x3
  if sameSuitLoop suit h.cards = false then false
  else if _hx : exclusive = true then !(hasStraight h false) else true
termination_by (if exclusive = true then 1 else 0 : Nat)
decreasing_by all_goals simp_all

end

/-- The first loop of `hasFullHouse`: `for card : cards { ranks[card >> 2]++; }`. -/
def countRanks (ranks : Nat → Nat) : List Nat → Nat → Nat
  | [] => ranks
  | card :: rest => countRanks (arrSet ranks (card >>> 2) (ranks (card >>> 2) + 1)) rest

/-- The second loop of `hasFullHouse`, over the entries `count` of `ranks` still to
visit, with the flags `hasThree` and `hasTwo`; `none` for an early `return false`. -/
def fullHouseScan : List Nat → Bool → Bool → Option (Bool × Bool)
  | [], hasThree, hasTwo => some (hasThree, hasTwo)
  | count :: rest, hasThree, hasTwo =>
    if count = 3 then
      if hasThree then none else fullHouseScan rest true hasTwo
    else if count = 2 then
      if hasTwo then none else fullHouseScan rest hasThree true
    else if count > 3 then none
    else fullHouseScan rest hasThree hasTwo

/-- Source `Hand::hasFullHouse`. -/
def hasFullHouse (h : Hand) : Bool :=
  let ranks := countRanks zeroRanks h.cards
  match fullHouseScan ((List.range 13).map ranks) false false with
  | none => false
  | some (hasThree, hasTwo) => hasThree && hasTwo

/-- The loop of `hasFourOfAKind`:
`for card : cards { if (++ranks[card >> 2] == 4) return true; } return false`. -/
def hasFourOfAKindLoop (ranks : Nat → Nat) : List Nat → Bool
  | [] => false
  | card :: rest =>
    let ranks1 := arrSet ranks (card >>> 2) (ranks (card >>> 2) + 1)
    if ranks1 (card >>> 2) = 4 then true else hasFourOfAKindLoop ranks1 rest

/-- Source `Hand::hasFourOfAKind`. -/
def hasFourOfAKind (h : Hand) : Bool := hasFourOfAKindLoop zeroRanks h.cards

/-- Source `Hand::hasStraightFlush(bool exclusive)`: the parameter is not used by the body. -/
def hasStraightFlush (h : Hand) (_exclusive : Bool) : Bool :=
  h.hasFlush false && h.hasStraight false

/-- Source `Hand::hasRoyalFlush(bool exclusive)`: the parameter is not used by the body. -/
def hasRoyalFlush (h : Hand) (_exclusive : Bool) : Bool :=
  if h.hasFlush false = false then false
  else
    let ranks := markRanks zeroRanks h.cards
    decide (ranks 8 ≠ 0 ∧ ranks 9 ≠ 0 ∧ ranks 10 ≠ 0 ∧ ranks 11 ≠ 0 ∧ ranks 12 ≠ 0)

/-- Source `Hand::getHandType`; every predicate is called with its default argument
`exclusive = true`. -/
def getHandType (h : Hand) : HandType :=
  if h.hasRoyalFlush true then HandType.RoyalFlush
  else if h.hasStraightFlush true then HandType.StraightFlush
  else if h.hasFourOfAKind then HandType.FourOfAKind
  else if h.hasFullHouse then HandType.FullHouse
  else if h.hasFlush true then HandType.Flush
  else if h.hasStraight true then HandType.Straight
  else if h.hasThreeOfAKind then HandType.ThreeOfAKind
  else if h.hasTwoPair then HandType.TwoPair
  else if h.hasOnePair then HandType.OnePair
  else HandType.HighCard

/-- Source `Hand::sortHand`: `std::sort` by `(a >> 2) < (b >> 2)`. The standard fixes the result
only up to the order of cards of equal rank; this is the insertion sort, one of the
orders allowed. -/
def sortHand (h : Hand) : Hand :=
  ⟨h.cards.insertionSort (fun a b => a >>> 2 ≤ b >>> 2)⟩

end Hand

/-! ## Derived quantities used to state and prove the properties -/

namespace Hand

/-- The ranks of the cards in hand order: `card >> 2` for each card. -/
def rankList (cards : List Nat) : List Nat := cards.map (fun card => card >>> 2)

/-- The value of `hasFlush(false)` as a function of the cards. -/
def flushRaw (cards : List Nat) : Bool :=
  sameSuitLoop ((cards.getD 0 0) &&& 0x3) cards

/-- The value of `hasStraight(false)` as a function of the cards. -/
def straightRaw (cards : List Nat) : Bool :=
  let ranks := markRanks zeroRanks cards
  if ranks 12 ≠ 0 ∧ ranks 0 ≠ 0 ∧ ranks 1 ≠ 0 ∧ ranks 2 ≠ 0 ∧ ranks 3 ≠ 0 then true
  else
    let mm := minMaxRanks ranks (List.range 13) (12, 0)
    if (mm.2 : Int) - (mm.1 : Int) = 4 then
      runPresent ranks (List.range' mm.1 (mm.2 + 1 - mm.1))
    else false

/-- The number of the ranks `0..12` whose entry in `f` equals `k`. -/
def numEntries (f : Nat → Nat) (k : Nat) : Nat :=
  (List.range 13).countP (fun r => f r = k)

/-- The number of the ranks `0..12` that occur exactly `n` times in a rank list. -/
def numRanks (rs : List Nat) (n : Nat) : Nat :=
  (List.range 13).countP (fun r => rs.count r = n)

end Hand

/-! ### The categories in the words of the specification -/

namespace HandSpec

/-- Phrase "All five cards share a suit": one of the four suits is the suit of every card. -/
def shareSuit (cards : List Nat) : Prop :=
  ∃ s, s < 4 ∧ ∀ c ∈ cards, c &&& 0x3 = s

/-- Phrase "The ranks are `rs`": the ranks of the cards, with repetitions, are those listed. -/
def ranksAre (cards : List Nat) (rs : List Nat) : Prop :=
  (Hand.rankList cards).Perm rs

/-- Phrase "The ranks are five consecutive values or A-2-3-4-5": the run starts at one of
Two..Ten. -/
def ranksRun (cards : List Nat) : Prop :=
  (∃ lo, lo < 9 ∧ ranksAre cards [lo, lo + 1, lo + 2, lo + 3, lo + 4]) ∨
    ranksAre cards [12, 0, 1, 2, 3]

/-- Phrase "Some rank occurs `n` times". -/
def rankOccurs (cards : List Nat) (n : Nat) : Prop :=
  ∃ r, r < 13 ∧ (Hand.rankList cards).count r = n

/-- Phrase "The rank counts are {3,2}". -/
def countsThreeTwo (cards : List Nat) : Prop :=
  ∃ r3, r3 < 13 ∧ ∃ r2, r2 < 13 ∧
    (Hand.rankList cards).count r3 = 3 ∧ (Hand.rankList cards).count r2 = 2

/-- Phrase "Two ranks occur twice each". -/
def twoRanksTwice (cards : List Nat) : Prop :=
  ∃ r1, r1 < 13 ∧ ∃ r2, r2 < 13 ∧ r1 ≠ r2 ∧
    (Hand.rankList cards).count r1 = 2 ∧ (Hand.rankList cards).count r2 = 2

instance (cards : List Nat) : Decidable (shareSuit cards) := by
  unfold shareSuit; infer_instance

instance (cards rs : List Nat) : Decidable (ranksAre cards rs) := by
  unfold ranksAre; infer_instance

instance (cards : List Nat) : Decidable (ranksRun cards) := by
  unfold ranksRun; infer_instance

instance (cards : List Nat) (n : Nat) : Decidable (rankOccurs cards n) := by
  unfold rankOccurs; infer_instance

instance (cards : List Nat) : Decidable (countsThreeTwo cards) := by
  unfold countsThreeTwo; infer_instance

instance (cards : List Nat) : Decidable (twoRanksTwice cards) := by
  unfold twoRanksTwice; infer_instance

/-- The cascade of the specification: the first category that matches. -/
def cascade (cards : List Nat) : HandType :=
  if shareSuit cards ∧ ranksAre cards [8, 9, 10, 11, 12] then HandType.RoyalFlush
  else if shareSuit cards ∧ ranksRun cards then HandType.StraightFlush
  else if rankOccurs cards 4 then HandType.FourOfAKind
  else if countsThreeTwo cards then HandType.FullHouse
  else if shareSuit cards then HandType.Flush
  else if ranksRun cards then HandType.Straight
  else if rankOccurs cards 3 then HandType.ThreeOfAKind
  else if twoRanksTwice cards then HandType.TwoPair
  else if rankOccurs cards 2 then HandType.OnePair
  else HandType.HighCard

end HandSpec


/-! ## Sampler -/

/-- Conversion of an `int` to `unsigned int`, 32 bits wide. -/
def toUInt32 (x : Int) : Nat := (x % 4294967296).toNat

/-- Conversion of an `unsigned int` to `int`, 32 bits wide, two's complement. -/
def toInt32 (n : Nat) : Int :=
  if n % 4294967296 < 2147483648 then ((n % 4294967296 : Nat) : Int)
  else ((n % 4294967296 : Nat) : Int) - 4294967296

/-- Conversion of a non-negative value to `unsigned long long`. -/
def toUInt64 (n : Nat) : Nat := n % 18446744073709551616

namespace Deck

/-- Source `Deck::shuffle`: `std::shuffle(cards.begin(), cards.end(), g)` with the static
generator `g`. The outcome of one call, fixed by the state of the generator, is a map from
the order before the call to the order after it. -/
def shuffle (d : Deck) (outcome : List Card → List Card) : Deck :=
  ⟨outcome d.cards⟩

/-- What `std::shuffle` guarantees of an outcome: the new order is a permutation of the
old one. -/
def IsShuffle (outcome : List Card → List Card) : Prop :=
  ∀ cards, (outcome cards).Perm cards

/-- The deck states reachable from a newly constructed deck by calls of `reset`,
`shuffle`, `dealCard` and `dealHand`. -/
inductive Reachable : Deck → Prop
  | new : Reachable Deck.new
  | reset {d : Deck} : Reachable d → Reachable d.reset
  | shuffle {d : Deck} (outcome : List Card → List Card) :
      IsShuffle outcome → Reachable d → Reachable (d.shuffle outcome)
  | dealCard {d d1 : Deck} {c : Card} :
      Reachable d → d.dealCard = some (c, d1) → Reachable d1
  | dealHand {d d1 : Deck} (handSize : Int) {hand : List Card} :
      Reachable d → d.dealHand handSize = some (hand, d1) → Reachable d1

end Deck

/-- Source `struct HandTypeCounts`: the array `counts` of `HandType::Count` entries of type
`unsigned long long`, held as a map from index to entry. -/
structure HandTypeCounts where
  counts : Nat → Nat

namespace HandTypeCounts

/-- The value-initialised table `counts{}`. -/
def zero : HandTypeCounts := ⟨fun _ => 0⟩

/-- Source `HandTypeCounts::addHand`: `counts[static_cast<size_t>(type)]++`. -/
def addHand (c : HandTypeCounts) (type : HandType) : HandTypeCounts :=
  ⟨arrSet c.counts type.toNat (toUInt64 (c.counts type.toNat + 1))⟩

/-- The loop `for (count : counts) total += count` of `getProbability`. -/
def sumCounts (c : HandTypeCounts) : Nat :=
  (List.range HandType.count).foldl (fun total i => toUInt64 (total + c.counts i)) 0

/-- Source `HandTypeCounts::getProbability`:
`total > 0 ? static_cast<double>(counts[type]) / total : 0.0`. The quotient is held as
the exact rational that the `double` division rounds. -/
def getProbability (c : HandTypeCounts) (type : HandType) : Rat :=
  let total := c.sumCounts
  if total > 0 then (c.counts type.toNat : Rat) / (total : Rat) else 0

/-- The sum of the ten counts as a natural number, without wrap-around. -/
def total (c : HandTypeCounts) : Nat :=
  ((List.range HandType.count).map c.counts).sum

end HandTypeCounts

/-- The head of the loop body of `simulateHands` and `simulateHandsAllTypes` in iteration
`i`: `if (i % 10 == 0) { deck.reset(); deck.shuffle(); }`; `outcome i` is the outcome of
the shuffle of that iteration. -/
def refreshDeck (outcome : Nat → List Card → List Card) (i : Nat) (deck : Deck) : Deck :=
  if i % 10 = 0 then (deck.reset).shuffle (outcome i) else deck

/-- The loop of `simulateHands` with `k` iterations left, at iteration `i`:
deal 5 cards, classify, `if (type == targetType) localCount++`. The progress output
(`printProgress`, for `threadId == 0`) does not touch the state and is left out. The
result is `none` when a deal fails. -/
def simulateHandsLoop (targetType : HandType) (outcome : Nat → List Card → List Card) :
    Nat → Nat → Deck → Nat → Option (Deck × Nat)
  | 0, _, deck, localCount => some (deck, localCount)
  | k + 1, i, deck, localCount =>
    match (refreshDeck outcome i deck).dealHand 5 with
    | none => none
    | some (cards, deck1) =>
      let hand := Hand.ofCards cards
      let localCount1 :=
        if hand.getHandType = targetType then toUInt64 (localCount + 1) else localCount
      simulateHandsLoop targetType outcome k (i + 1) deck1 localCount1

/-- Source `simulateHands(targetType, numHands, threadId, totalThreads)`: the loop from a
newly constructed deck, then `handTypeCount += localCount` on the global counter, whose
new value is returned. -/
def simulateHands (targetType : HandType) (outcome : Nat → List Card → List Card)
    (numHands : Int) (handTypeCount : Nat) : Option Nat :=
  match simulateHandsLoop targetType outcome numHands.toNat 0 Deck.new 0 with
  | none => none
  | some (_, localCount) => some (toUInt64 (handTypeCount + localCount))

/-- The loop of `simulateHandsAllTypes` with `k` iterations left, at iteration `i`:
deal 5 cards, classify, `localCounts->counts[type]++`. The result is `none` when a deal
fails. -/
def simulateHandsAllTypesLoop (outcome : Nat → List Card → List Card) :
    Nat → Nat → Deck → HandTypeCounts → Option (Deck × HandTypeCounts)
  | 0, _, deck, localCounts => some (deck, localCounts)
  | k + 1, i, deck, localCounts =>
    match (refreshDeck outcome i deck).dealHand 5 with
    | none => none
    | some (cards, deck1) =>
      let hand := Hand.ofCards cards
      let type := hand.getHandType
      simulateHandsAllTypesLoop outcome k (i + 1) deck1 (localCounts.addHand type)

/-- The merge at the end of `simulateHandsAllTypes`, once its compare-and-swap succeeds:
`updated = copy of current; for i in 0..9: updated->counts[i] += localCounts->counts[i]`. -/
def mergeCounts (current localCounts : HandTypeCounts) : HandTypeCounts :=
  ⟨(List.range HandType.count).foldl
    (fun updated i => arrSet updated i (toUInt64 (updated i + localCounts.counts i)))
    current.counts⟩

/-- Source `simulateHandsAllTypes(numHands, threadId, totalThreads)`: the loop from a newly
constructed deck and a zero table, then the merge into the global table `current`, whose
new value is returned. -/
def simulateHandsAllTypes (outcome : Nat → List Card → List Card) (numHands : Int)
    (current : HandTypeCounts) : Option HandTypeCounts :=
  match simulateHandsAllTypesLoop outcome numHands.toNat 0 Deck.new HandTypeCounts.zero with
  | none => none
  | some (_, localCounts) => some (mergeCounts current localCounts)

/-- The number of threads of `calculateAllProbabilities`:
`numThreads = hardware_concurrency(); if (numThreads == 0) numThreads = 4`. -/
def numThreadsOf (hardware_concurrency : Nat) : Nat :=
  if hardware_concurrency = 0 then 4 else hardware_concurrency

/-- The chunk of the first `numThreads - 1` workers:
`int handsPerThread = totalHands / numThreads`, an `unsigned` division. -/
def handsPerThreadOf (totalHands : Int) (numThreads : Nat) : Int :=
  toInt32 (toUInt32 totalHands / numThreads)

/-- The chunk of the last worker: `totalHands - (handsPerThread * (numThreads - 1))`
in `unsigned` arithmetic, passed as `int`. -/
def lastHandsOf (totalHands : Int) (numThreads : Nat) : Int :=
  toInt32 ((toUInt32 totalHands + 4294967296 -
    (toUInt32 (handsPerThreadOf totalHands numThreads) * (numThreads - 1)) % 4294967296)
      % 4294967296)

/-- One pass of the loop `for (i = 0; i < numThreads - 1; ++i)
threads.emplace_back(simulateHandsAllTypes, handsPerThread, i, numThreads)` of
`calculateAllProbabilities`, the thread being run to its end where it is created;
`outcome i` gives the shuffles of worker `i`. -/
def runThread (outcome : Nat → Nat → List Card → List Card) (handsPerThread : Int)
    (globalCounts : Option HandTypeCounts) (i : Nat) : Option HandTypeCounts :=
  match globalCounts with
  | none => none
  | some current => simulateHandsAllTypes (outcome i) handsPerThread current

/-- Source `calculateAllProbabilities(totalHands)`. The worker threads are run one after
the other, in the order of their indices, each merging its tally once; `outcome w` gives
the shuffles of worker `w`, and `hardware_concurrency` is the value the library call
returns. -/
def calculateAllProbabilities (hardware_concurrency : Nat)
    (outcome : Nat → Nat → List Card → List Card) (totalHands : Int) :
    Option HandTypeCounts :=
  let initial := HandTypeCounts.zero
  let numThreads := numThreadsOf hardware_concurrency
  let handsPerThread := handsPerThreadOf totalHands numThreads
  let threads := (List.range (numThreads - 1)).foldl (runThread outcome handsPerThread)
    (some initial)
  runThread outcome (lastHandsOf totalHands numThreads) threads (numThreads - 1)

/-- Source `calculateHandTypeProbability(type, totalHands)`. -/
def calculateHandTypeProbability (hardware_concurrency : Nat)
    (outcome : Nat → Nat → List Card → List Card) (type : HandType) (totalHands : Int) :
    Option Rat :=
  match calculateAllProbabilities hardware_concurrency outcome totalHands with
  | none => none
  | some results => some (results.getProbability type)

/-- The handling of `-n` in `main`: `totalHands = std::stoi(...)`, then
`if (totalHands <= 0) { print an error; return 1; }`; the result is `none` when `main`
returns before any sampling. -/
def mainTotalHands (parsed : Int) : Option Int :=
  if parsed ≤ 0 then none else some parsed

namespace Hand

mutual

/-- Source `Hand::hasStraight(bool exclusive)` run with a budget of `fuel` nested calls of
`hasStraight` and `hasFlush`, this call included; `none` when the budget runs out. -/
def hasStraightFuel : Nat → Hand → Bool → Option Bool
  | 0, _, _ => none
  | fuel + 1, h, exclusive =>
    let ranks := markRanks zeroRanks h.cards
    if ranks 12 ≠ 0 ∧ ranks 0 ≠ 0 ∧ ranks 1 ≠ 0 ∧ ranks 2 ≠ 0 ∧ ranks 3 ≠ 0 then
      if exclusive = true then (hasFlushFuel fuel h false).map (fun b => !b) else some true
    else
      let mm := minMaxRanks ranks (List.range 13) (12, 0)
      let min_rank := mm.1
      let max_rank := mm.2
      if (max_rank : Int) - (min_rank : Int) = 4 then
        if runPresent ranks (List.range' min_rank (max_rank + 1 - min_rank)) = false then
          some false
        else if exclusive = true then (hasFlushFuel fuel h false).map (fun b => !b)
        else some true
      else some false

/-- Source `Hand::hasFlush(bool exclusive)` run with a budget of `fuel` nested calls of
`hasStraight` and `hasFlush`, this call included; `none` when the budget runs out. -/
def hasFlushFuel : Nat → Hand → Bool → Option Bool
  | 0, _, _ => none
  | fuel + 1, h, exclusive =>
    let suit := (h.cards.getD 0 0) &&& 0x3
    if sameSuitLoop suit h.cards = false then some false
    else if exclusive = true then (hasStraightFuel fuel h false).map (fun b => !b)
    else some true

end

end Hand


/-! ## Definitions for the properties of the sampler and of the table of constants -/

namespace Hand

/-- The packed card of the same rank whose suit is `p` of the suit of `card`:
`Card(c.getRank(), p(c.getSuit())).getValue()` for `c = Card(card)`. -/
def mapSuit (p : Nat → Nat) (card : Nat) : Nat :=
  (Card.mk (Card.ofPacked card).getRank (p (Card.ofPacked card).getSuit)).getValue

/-- The hand with the suit of every card replaced through `p`. -/
def mapSuits (p : Nat → Nat) (h : Hand) : Hand :=
  ⟨h.cards.map (mapSuit p)⟩

end Hand

/-- The cards that `deck.dealHand(5)` returns in iteration `i` of the loop of
`simulateHandsAllTypes`, from which the hand given to `getHandType` is built: the loop is
run up to iteration `i`, then the head of the body and the deal. -/
def dealtAt (outcome : Nat → List Card → List Card) (i : Nat) : Option (List Card) :=
  match simulateHandsAllTypesLoop outcome i 0 Deck.new HandTypeCounts.zero with
  | none => none
  | some (deck, _) =>
    match (refreshDeck outcome i deck).dealHand 5 with
    | none => none
    | some (cards, _) => some cards

/-- The state of the deck at the start of iteration `i`, inside a block of ten. -/
def DeckInv (i : Nat) (deck : Deck) : Prop :=
  i % 10 ≠ 0 → deck.cards.length = 52 - 5 * (i % 10) ∧ deck.cards.Nodup ∧
    ∀ c ∈ deck.cards, c.value ≤ 51

/-- The five-card subsets of the 52 packed cards `0..51`, each listed once, in increasing
order of its cards. -/
def fiveCardSubsets : List (List Nat) :=
  List.sublistsLen 5 (List.range 52)

/-- Source `getTheoreticalProbability`: the table of constants, each held as the exact value
of its decimal literal (the `double` returned is the nearest representable number). The
`default` branch of the `switch` is not reachable for the ten categories. -/
def getTheoreticalProbability : HandType → Rat
  | HandType.RoyalFlush => 0.000154
  | HandType.StraightFlush => 0.00139
  | HandType.FourOfAKind => 0.02401
  | HandType.FullHouse => 0.1441
  | HandType.Flush => 0.1965
  | HandType.Straight => 0.3925
  | HandType.ThreeOfAKind => 2.1128
  | HandType.TwoPair => 4.7539
  | HandType.OnePair => 42.2569
  | HandType.HighCard => 50.1177

/-- The hand of suit `s` with the ranks `ranks`: the packed cards `4 * r + s`. -/
def suitedHand (ranks : List Nat) (s : Nat) : List Nat :=
  ranks.map (fun r => 4 * r + s)

/-- The rank sets of the straight flushes below the royal flush, each in increasing order:
the runs starting at Two..Nine and the wheel A-2-3-4-5. -/
def straightFlushRanks : List (List Nat) :=
  (List.range 8).map (fun lo => [lo, lo + 1, lo + 2, lo + 3, lo + 4]) ++ [[0, 1, 2, 3, 12]]

/-- The four royal flushes. -/
def royalFlushHands : List (List Nat) :=
  (List.range 4).map (fun s => suitedHand [8, 9, 10, 11, 12] s)

/-- The 36 straight flushes that are not royal. -/
def straightFlushHands : List (List Nat) :=
  (List.range 4).flatMap (fun s => straightFlushRanks.map (fun ranks => suitedHand ranks s))

/-! ### The merge loop of the workers, step by step -/

namespace Merge

/-- The position of a worker in the merge loop at the end of `simulateHandsAllTypes`:
before `current = globalCounts.load(...)`, before `updated = new HandTypeCounts(*current)`
with its adding loop, before `globalCounts.compare_exchange_weak(current, updated, ...)`,
before `delete current`, and after it. -/
inductive Pc
  | load
  | copy
  | cas
  | del
  | done
deriving DecidableEq, Repr

/-- Whether the worker has returned from `simulateHandsAllTypes`. -/
def Pc.isDone : Pc → Bool
  | Pc.done => true
  | _ => false

/-- The locals of one worker: its tally `localCounts`, its position, and the pointers
`current` and `updated`, held as heap addresses. -/
structure Worker where
  localCounts : HandTypeCounts
  pc : Pc
  current : Nat
  updated : Nat

/-- The shared state: the heap of `HandTypeCounts` objects (`none` at an address that
holds no live object), the atomic pointer `globalCounts`, and the workers. -/
structure State where
  heap : Nat → Option HandTypeCounts
  globalCounts : Nat
  workers : List Worker

/-- One scheduling decision: the worker that takes its next step; the address that `new`
returns if this step allocates; whether `compare_exchange_weak` fails spuriously if this
step is the compare-and-swap. -/
structure Choice where
  worker : Nat
  addr : Nat
  spurious : Bool

/-- The heap with the cell at `addr` replaced. -/
def heapSet (heap : Nat → Option HandTypeCounts) (addr : Nat) (v : Option HandTypeCounts) :
    Nat → Option HandTypeCounts :=
  fun a => if a = addr then v else heap a

/-- The step `updated = new HandTypeCounts(*current)` followed by the adding loop. `none`
when `current` holds no live object (a read of freed storage) or when `addr` is not free
(no allocator returns it). -/
def copyStep (s : State) (w : Worker) (c : Choice) : Option State :=
  match s.heap w.current, s.heap c.addr with
  | some cur, none =>
    some ⟨heapSet s.heap c.addr (some (mergeCounts cur w.localCounts)), s.globalCounts,
      s.workers.set c.worker ⟨w.localCounts, Pc.cas, w.current, c.addr⟩⟩
  | _, _ => none

/-- The step `globalCounts.compare_exchange_weak(current, updated, ...)`: on success the
pointer is replaced and the loop is left; on failure `current` receives the pointer read
and the loop body runs again (the object at `updated` stays allocated). -/
def casStep (s : State) (w : Worker) (c : Choice) : State :=
  if s.globalCounts = w.current ∧ c.spurious = false then
    ⟨s.heap, w.updated, s.workers.set c.worker ⟨w.localCounts, Pc.del, w.current, w.updated⟩⟩
  else
    ⟨s.heap, s.globalCounts,
      s.workers.set c.worker ⟨w.localCounts, Pc.load, s.globalCounts, w.updated⟩⟩

/-- The step `delete current`; `none` when `current` holds no live object. -/
def delStep (s : State) (w : Worker) (c : Choice) : Option State :=
  match s.heap w.current with
  | some _ =>
    some ⟨heapSet s.heap w.current none, s.globalCounts,
      s.workers.set c.worker ⟨w.localCounts, Pc.done, w.current, w.updated⟩⟩
  | none => none

/-- The next step of the worker chosen by `c`; `none` when there is no such worker, when
it has returned, or when the step has no defined behaviour. -/
def step (s : State) (c : Choice) : Option State :=
  match s.workers.get? c.worker with
  | none => none
  | some w =>
    match w.pc with
    | Pc.load =>
      some ⟨s.heap, s.globalCounts,
        s.workers.set c.worker ⟨w.localCounts, Pc.copy, s.globalCounts, w.updated⟩⟩
    | Pc.copy => copyStep s w c
    | Pc.cas => some (casStep s w c)
    | Pc.del => delStep s w c
    | Pc.done => none

/-- The steps of a schedule, one after the other. -/
def run (s : State) : List Choice → Option State
  | [] => some s
  | c :: cs => (step s c).bind (fun s1 => run s1 cs)

/-- The state that `calculateAllProbabilities` sets up: `initial = new HandTypeCounts()`
at address 0, `globalCounts.store(initial)`, and one worker per tally, each about to
enter its merge loop. -/
def init (tallies : List HandTypeCounts) : State :=
  ⟨fun a => if a = 0 then some HandTypeCounts.zero else none, 0,
    tallies.map (fun t => ⟨t, Pc.load, 0, 0⟩)⟩

/-- The read `HandTypeCounts result = *globalCounts.load()` of `calculateAllProbabilities`
after all workers have joined; `none` before that, or when the pointer holds no live
object. -/
def aggregate (s : State) : Option HandTypeCounts :=
  if s.workers.all (fun w => w.pc.isDone) then s.heap s.globalCounts else none

/-- The component-wise sum of the tallies, each added once. -/
def sumTallies (tallies : List HandTypeCounts) : HandTypeCounts :=
  tallies.foldl mergeCounts HandTypeCounts.zero

/-- The tally of a worker that saw one hand, of category `type`. -/
def oneHand (type : HandType) : HandTypeCounts :=
  HandTypeCounts.zero.addHand type

/-- A schedule of three workers 0, 1, 2 in which the allocator hands the address freed by
worker 1 to worker 2: worker 0 loads and copies (to address 1); worker 1 loads, copies (to
address 2), swaps and deletes the object at address 0; worker 2 loads, copies (to the
freed address 0), swaps and deletes the object at address 2; worker 0 then swaps with its
old `current`, address 0, and deletes. No step fails spuriously. -/
def reuseSchedule : List Choice :=
  [⟨0, 0, false⟩, ⟨0, 1, false⟩,
   ⟨1, 0, false⟩, ⟨1, 2, false⟩, ⟨1, 0, false⟩, ⟨1, 0, false⟩,
   ⟨2, 0, false⟩, ⟨2, 0, false⟩, ⟨2, 0, false⟩, ⟨2, 0, false⟩,
   ⟨0, 0, false⟩, ⟨0, 0, false⟩]

/-- The same three workers run one after the other, every `new` returning an address
never used before. -/
def sequentialSchedule : List Choice :=
  [⟨0, 0, false⟩, ⟨0, 1, false⟩, ⟨0, 0, false⟩, ⟨0, 0, false⟩,
   ⟨1, 0, false⟩, ⟨1, 2, false⟩, ⟨1, 0, false⟩, ⟨1, 0, false⟩,
   ⟨2, 0, false⟩, ⟨2, 3, false⟩, ⟨2, 0, false⟩, ⟨2, 0, false⟩]

/-- Two workers 0 and 1: worker 0 loads; worker 1 loads, copies (to address 1), swaps and
deletes the object at address 0, to which `current` of worker 0 still points. -/
def freedReadSchedule : List Choice :=
  [⟨0, 0, false⟩,
   ⟨1, 0, false⟩, ⟨1, 1, false⟩, ⟨1, 0, false⟩, ⟨1, 0, false⟩]

end Merge

/-! ## Lemmas on the loops of the classifier -/

namespace Hand

theorem hasFlush_false (h : Hand) : h.hasFlush false = flushRaw h.cards := by
  unfold hasFlush flushRaw
  dsimp only
  generalize sameSuitLoop _ h.cards = b
  cases b <;> simp

theorem hasStraight_false (h : Hand) : h.hasStraight false = straightRaw h.cards := by
  unfold hasStraight straightRaw
  simp only [Bool.false_eq_true, dite_false]
  split
  · rfl
  · split
    · cases runPresent _ _ <;> simp
    · rfl

theorem hasFlush_true (h : Hand) :
    h.hasFlush true = (flushRaw h.cards && !straightRaw h.cards) := by
  unfold hasFlush
  rw [hasStraight_false]
  unfold flushRaw
  dsimp only
  generalize sameSuitLoop _ h.cards = b
  cases b <;> simp

theorem hasStraight_true (h : Hand) :
    h.hasStraight true = (straightRaw h.cards && !flushRaw h.cards) := by
  unfold hasStraight
  rw [hasFlush_false]
  unfold straightRaw
  simp only [dite_true]
  split
  · simp
  · split
    · cases runPresent _ _ <;> simp
    · simp

@[simp] theorem rankList_nil : rankList [] = [] := rfl

@[simp] theorem rankList_cons (c : Nat) (cs : List Nat) :
    rankList (c :: cs) = (c >>> 2) :: rankList cs := rfl

theorem arrSet_add_count (ranks : Nat → Nat) (r0 r : Nat) (l : List Nat) :
    arrSet ranks r0 (ranks r0 + 1) r + l.count r = ranks r + (r0 :: l).count r := by
  unfold arrSet
  by_cases hr : r = r0
  · subst hr
    simp [List.count_cons_self]
    omega
  · have h2 : r0 ≠ r := fun h => hr h.symm
    simp [hr, List.count_cons_of_ne h2]

theorem hasThreeOfAKindLoop_iff (cards : List Nat) :
    ∀ ranks : Nat → Nat, (∀ r, ranks r < 3) →
      (hasThreeOfAKindLoop ranks cards = true ↔
        ∃ r, 3 ≤ ranks r + (rankList cards).count r) := by
  induction cards with
  | nil =>
    intro ranks h
    simp only [hasThreeOfAKindLoop, rankList_nil, List.count_nil, Nat.add_zero]
    constructor
    · intro hf; cases hf
    · rintro ⟨r, hr⟩; have := h r; omega
  | cons c cs ih =>
    intro ranks h
    simp only [hasThreeOfAKindLoop, rankList_cons]
    have hself : arrSet ranks (c >>> 2) (ranks (c >>> 2) + 1) (c >>> 2) = ranks (c >>> 2) + 1 := by
      simp [arrSet]
    rw [hself]
    by_cases h3 : ranks (c >>> 2) + 1 ≥ 3
    · rw [if_pos h3]
      refine ⟨fun _ => ⟨c >>> 2, ?_⟩, fun _ => rfl⟩
      rw [List.count_cons_self]; omega
    · rw [if_neg h3]
      have inv : ∀ r, arrSet ranks (c >>> 2) (ranks (c >>> 2) + 1) r < 3 := by
        intro r
        unfold arrSet
        split
        · omega
        · exact h r
      rw [ih _ inv]
      refine exists_congr fun r => ?_
      rw [arrSet_add_count]

theorem hasFourOfAKindLoop_iff (cards : List Nat) :
    ∀ ranks : Nat → Nat, (∀ r, ranks r < 4) →
      (hasFourOfAKindLoop ranks cards = true ↔
        ∃ r, 4 ≤ ranks r + (rankList cards).count r) := by
  induction cards with
  | nil =>
    intro ranks h
    simp only [hasFourOfAKindLoop, rankList_nil, List.count_nil, Nat.add_zero]
    constructor
    · intro hf; cases hf
    · rintro ⟨r, hr⟩; have := h r; omega
  | cons c cs ih =>
    intro ranks h
    simp only [hasFourOfAKindLoop, rankList_cons]
    have hself : arrSet ranks (c >>> 2) (ranks (c >>> 2) + 1) (c >>> 2) = ranks (c >>> 2) + 1 := by
      simp [arrSet]
    rw [hself]
    by_cases h4 : ranks (c >>> 2) + 1 = 4
    · rw [if_pos h4]
      refine ⟨fun _ => ⟨c >>> 2, ?_⟩, fun _ => rfl⟩
      rw [List.count_cons_self]; omega
    · rw [if_neg h4]
      have h0 := h (c >>> 2)
      have inv : ∀ r, arrSet ranks (c >>> 2) (ranks (c >>> 2) + 1) r < 4 := by
        intro r
        unfold arrSet
        split
        · omega
        · exact h r
      rw [ih _ inv]
      refine exists_congr fun r => ?_
      rw [arrSet_add_count]

theorem countP_arrSet_of_not_mem (f : Nat → Nat) (i v k : Nat) (L : List Nat) (hi : i ∉ L) :
    L.countP (fun r => arrSet f i v r = k) = L.countP (fun r => f r = k) := by
  apply List.countP_congr
  intro x hx
  have hxi : x ≠ i := fun h => hi (h ▸ hx)
  simp [arrSet, hxi]

theorem countP_arrSet (f : Nat → Nat) (i v k : Nat) (L : List Nat) (hL : L.Nodup) (hi : i ∈ L) :
    L.countP (fun r => arrSet f i v r = k) + (if f i = k then 1 else 0) =
      L.countP (fun r => f r = k) + (if v = k then 1 else 0) := by
  induction L with
  | nil => cases hi
  | cons x xs ih =>
    rw [List.nodup_cons] at hL
    by_cases hx : x = i
    · subst hx
      rw [List.countP_cons, List.countP_cons, countP_arrSet_of_not_mem f x v k xs hL.1]
      simp only [arrSet, if_true, decide_eq_true_eq]
      omega
    · have hi2 : i ∈ xs := by
        rcases List.mem_cons.1 hi with h | h
        · exact absurd h.symm hx
        · exact h
      have := ih hL.2 hi2
      rw [List.countP_cons, List.countP_cons]
      simp only [arrSet, if_neg hx, decide_eq_true_eq]
      simp only [arrSet] at this
      omega

theorem numEntries_arrSet (f : Nat → Nat) (i v k : Nat) (hi : i < 13) :
    numEntries (arrSet f i v) k + (if f i = k then 1 else 0) =
      numEntries f k + (if v = k then 1 else 0) :=
  countP_arrSet f i v k (List.range 13) (List.nodup_range 13) (List.mem_range.2 hi)

theorem pairsLoop_spec (cards : List Nat) :
    ∀ (ranks : Nat → Nat) (pairs : Nat), (∀ c ∈ cards, c >>> 2 < 13) →
      (∀ r, ranks r ≤ 2) → pairs = numEntries ranks 2 →
      ((∀ r, ranks r + (rankList cards).count r ≤ 2) →
        pairsLoop ranks pairs cards =
          some (numEntries (fun r => ranks r + (rankList cards).count r) 2)) ∧
      ((∃ r, 2 < ranks r + (rankList cards).count r) → pairsLoop ranks pairs cards = none) := by
  induction cards with
  | nil =>
    intro ranks pairs _ h hp
    simp only [pairsLoop, rankList_nil, List.count_nil, Nat.add_zero]
    refine ⟨fun _ => by rw [hp], ?_⟩
    rintro ⟨r, hr⟩; have := h r; omega
  | cons c cs ih =>
    intro ranks pairs hc h hp
    have hc0 : c >>> 2 < 13 := hc c (List.mem_cons_self _ _)
    have hcs : ∀ c1 ∈ cs, c1 >>> 2 < 13 := fun c1 h1 => hc c1 (List.mem_cons_of_mem _ h1)
    simp only [pairsLoop, rankList_cons]
    have hself : arrSet ranks (c >>> 2) (ranks (c >>> 2) + 1) (c >>> 2) = ranks (c >>> 2) + 1 := by
      simp [arrSet]
    rw [hself]
    by_cases h3 : ranks (c >>> 2) + 1 > 2
    · rw [if_pos h3]
      refine ⟨fun hall => ?_, fun _ => rfl⟩
      have := hall (c >>> 2)
      rw [List.count_cons_self] at this
      omega
    · rw [if_neg h3]
      have inv : ∀ r, arrSet ranks (c >>> 2) (ranks (c >>> 2) + 1) r ≤ 2 := by
        intro r
        unfold arrSet
        split
        · omega
        · exact h r
      have hp1 : (if ranks (c >>> 2) + 1 = 2 then pairs + 1 else pairs) =
          numEntries (arrSet ranks (c >>> 2) (ranks (c >>> 2) + 1)) 2 := by
        have := numEntries_arrSet ranks (c >>> 2) (ranks (c >>> 2) + 1) 2 hc0
        have hne : ranks (c >>> 2) ≠ 2 := by omega
        rw [if_neg hne] at this
        split <;> simp_all
      have key := ih _ _ hcs inv hp1
      have hfun : (fun r => arrSet ranks (c >>> 2) (ranks (c >>> 2) + 1) r + (rankList cs).count r) =
          (fun r => ranks r + ((c >>> 2) :: rankList cs).count r) := by
        funext r; exact arrSet_add_count _ _ _ _
      constructor
      · intro hall
        rw [key.1 (fun r => by rw [arrSet_add_count]; exact hall r), hfun]
      · rintro ⟨r, hr⟩
        exact key.2 ⟨r, by rw [arrSet_add_count]; exact hr⟩

theorem numEntries_count (rs : List Nat) (n : Nat) :
    numEntries (fun r => zeroRanks r + rs.count r) n = numRanks rs n := by
  simp [numEntries, numRanks, zeroRanks]

theorem numEntries_zeroRanks : numEntries zeroRanks 2 = 0 := by
  simp [numEntries, zeroRanks]

theorem pairsLoop_zero (cards : List Nat) (hc : ∀ c ∈ cards, c >>> 2 < 13) :
    ((∀ r, (rankList cards).count r ≤ 2) →
      pairsLoop zeroRanks 0 cards = some (numRanks (rankList cards) 2)) ∧
    ((∃ r, 2 < (rankList cards).count r) → pairsLoop zeroRanks 0 cards = none) := by
  have key := pairsLoop_spec cards zeroRanks 0 hc (fun r => by simp [zeroRanks])
    numEntries_zeroRanks.symm
  rw [numEntries_count] at key
  simpa [zeroRanks] using key

theorem hasTwoPair_iff (cards : List Nat) (hc : ∀ c ∈ cards, c >>> 2 < 13) :
    hasTwoPair ⟨cards⟩ = true ↔
      (∀ r, (rankList cards).count r ≤ 2) ∧ numRanks (rankList cards) 2 = 2 := by
  have key := pairsLoop_zero cards hc
  unfold hasTwoPair
  by_cases hall : ∀ r, (rankList cards).count r ≤ 2
  · simp only [key.1 hall]
    simp [hall]
  · have hex : ∃ r, 2 < (rankList cards).count r := by
      by_contra hne
      exact hall fun r => Nat.le_of_not_lt fun hr => hne ⟨r, hr⟩
    simp only [key.2 hex]
    simp [hall]

theorem hasOnePair_iff (cards : List Nat) (hc : ∀ c ∈ cards, c >>> 2 < 13) :
    hasOnePair ⟨cards⟩ = true ↔
      (∀ r, (rankList cards).count r ≤ 2) ∧ numRanks (rankList cards) 2 = 1 := by
  have key := pairsLoop_zero cards hc
  unfold hasOnePair
  by_cases hall : ∀ r, (rankList cards).count r ≤ 2
  · simp only [key.1 hall]
    simp [hall]
  · have hex : ∃ r, 2 < (rankList cards).count r := by
      by_contra hne
      exact hall fun r => Nat.le_of_not_lt fun hr => hne ⟨r, hr⟩
    simp only [key.2 hex]
    simp [hall]

theorem countRanks_apply (cards : List Nat) :
    ∀ (ranks : Nat → Nat) (r : Nat),
      countRanks ranks cards r = ranks r + (rankList cards).count r := by
  induction cards with
  | nil => intro ranks r; simp [countRanks]
  | cons c cs ih =>
    intro ranks r
    simp only [countRanks, rankList_cons]
    rw [ih, arrSet_add_count]

theorem fullHouseScan_iff (L : List Nat) :
    ∀ hasThree hasTwo : Bool,
      ((match fullHouseScan L hasThree hasTwo with
        | none => false
        | some (t, w) => t && w) = true ↔
        (∀ x ∈ L, x ≤ 3) ∧ L.countP (fun x => x = 3) + hasThree.toNat = 1 ∧
          L.countP (fun x => x = 2) + hasTwo.toNat = 1) := by
  induction L with
  | nil =>
    intro t w
    cases t <;> cases w <;> simp [fullHouseScan]
  | cons x xs ih =>
    intro t w
    unfold fullHouseScan
    by_cases h3 : x = 3
    · subst h3
      cases t
      · simp only [if_true, Bool.false_eq_true, if_false]
        rw [ih]
        simp
      · simp
    · by_cases h2 : x = 2
      · subst h2
        cases w
        · simp only [if_true, Bool.false_eq_true, if_false, if_neg h3]
          rw [ih]
          simp
        · simp
      · by_cases h4 : x > 3
        · simp only [if_neg h3, if_neg h2, if_pos h4]
          simp
          omega
        · simp only [if_neg h3, if_neg h2, if_neg h4]
          rw [ih]
          simp [h3, h2]
          omega

theorem hasFullHouse_iff (cards : List Nat) :
    hasFullHouse ⟨cards⟩ = true ↔
      (∀ r, r < 13 → (rankList cards).count r ≤ 3) ∧
        numRanks (rankList cards) 3 = 1 ∧ numRanks (rankList cards) 2 = 1 := by
  unfold hasFullHouse
  dsimp only
  rw [fullHouseScan_iff]
  have hfun : countRanks zeroRanks cards = fun r => (rankList cards).count r := by
    funext r; rw [countRanks_apply]; simp [zeroRanks]
  rw [hfun]
  simp [numRanks, List.countP_map, Function.comp_def]

theorem sameSuitLoop_iff (suit : Nat) (cards : List Nat) :
    sameSuitLoop suit cards = true ↔ ∀ c ∈ cards, c &&& 0x3 = suit := by
  induction cards with
  | nil => simp [sameSuitLoop]
  | cons c cs ih =>
    unfold sameSuitLoop
    by_cases hc : c &&& 0x3 = suit
    · simp [hc, ih]
    · simp [hc]

theorem flushRaw_iff (cards : List Nat) :
    flushRaw cards = true ↔ ∀ c ∈ cards, ∀ c1 ∈ cards, c &&& 0x3 = c1 &&& 0x3 := by
  unfold flushRaw
  rw [sameSuitLoop_iff]
  cases cards with
  | nil => simp
  | cons c0 cs =>
    simp only [List.getD_cons_zero]
    constructor
    · intro h c hc c1 hc1
      rw [h c hc, h c1 hc1]
    · intro h c hc
      exact h c hc c0 (List.mem_cons_self _ _)

theorem markRanks_ne_zero (cards : List Nat) :
    ∀ (ranks : Nat → Nat) (r : Nat),
      markRanks ranks cards r ≠ 0 ↔ ranks r ≠ 0 ∨ r ∈ rankList cards := by
  induction cards with
  | nil => intro ranks r; simp [markRanks]
  | cons c cs ih =>
    intro ranks r
    simp only [markRanks, rankList_cons, List.mem_cons]
    rw [ih]
    unfold arrSet
    by_cases hr : r = c >>> 2
    · simp [hr]
    · simp [hr]

theorem markRanks_zero (cards : List Nat) (r : Nat) :
    markRanks zeroRanks cards r ≠ 0 ↔ r ∈ rankList cards := by
  rw [markRanks_ne_zero]
  simp [zeroRanks]

theorem runPresent_iff (ranks : Nat → Nat) (L : List Nat) :
    runPresent ranks L = true ↔ ∀ i ∈ L, ranks i ≠ 0 := by
  induction L with
  | nil => simp [runPresent]
  | cons i is ih =>
    unfold runPresent
    by_cases hi : ranks i = 0
    · simp [hi]
    · simp [hi, ih]

theorem minMaxRanks_spec (ranks : Nat → Nat) (L : List Nat) :
    ∀ mn mx : Nat,
      ((minMaxRanks ranks L (mn, mx)).1 ≤ mn ∧
        (∀ i ∈ L, ranks i ≠ 0 → (minMaxRanks ranks L (mn, mx)).1 ≤ i) ∧
        ((minMaxRanks ranks L (mn, mx)).1 = mn ∨
          ((minMaxRanks ranks L (mn, mx)).1 ∈ L ∧
            ranks (minMaxRanks ranks L (mn, mx)).1 ≠ 0))) ∧
      (mx ≤ (minMaxRanks ranks L (mn, mx)).2 ∧
        (∀ i ∈ L, ranks i ≠ 0 → i ≤ (minMaxRanks ranks L (mn, mx)).2) ∧
        ((minMaxRanks ranks L (mn, mx)).2 = mx ∨
          ((minMaxRanks ranks L (mn, mx)).2 ∈ L ∧
            ranks (minMaxRanks ranks L (mn, mx)).2 ≠ 0))) := by
  induction L with
  | nil => intro mn mx; simp [minMaxRanks]
  | cons i is ih =>
    intro mn mx
    unfold minMaxRanks
    by_cases hi : ranks i ≠ 0
    · rw [if_pos hi]
      obtain ⟨⟨a1, a2, a3⟩, b1, b2, b3⟩ := ih (min mn i) (max mx i)
      refine ⟨⟨?_, ?_, ?_⟩, ?_, ?_, ?_⟩
      · exact le_trans a1 (min_le_left _ _)
      · intro j hj hjr
        rcases List.mem_cons.1 hj with h | h
        · subst h; exact le_trans a1 (min_le_right _ _)
        · exact a2 j h hjr
      · rcases a3 with h | ⟨h1, h2⟩
        · rcases min_choice mn i with hm | hm
          · left; rw [h, hm]
          · right; rw [h, hm]; exact ⟨List.mem_cons_self _ _, hi⟩
        · right; exact ⟨List.mem_cons_of_mem _ h1, h2⟩
      · exact le_trans (le_max_left _ _) b1
      · intro j hj hjr
        rcases List.mem_cons.1 hj with h | h
        · subst h; exact le_trans (le_max_right _ _) b1
        · exact b2 j h hjr
      · rcases b3 with h | ⟨h1, h2⟩
        · rcases max_choice mx i with hm | hm
          · left; rw [h, hm]
          · right; rw [h, hm]; exact ⟨List.mem_cons_self _ _, hi⟩
        · right; exact ⟨List.mem_cons_of_mem _ h1, h2⟩
    · rw [if_neg hi]
      obtain ⟨⟨a1, a2, a3⟩, b1, b2, b3⟩ := ih mn mx
      refine ⟨⟨a1, ?_, ?_⟩, b1, ?_, ?_⟩
      · intro j hj hjr
        rcases List.mem_cons.1 hj with h | h
        · subst h; exact absurd hjr hi
        · exact a2 j h hjr
      · rcases a3 with h | ⟨h1, h2⟩
        · left; exact h
        · right; exact ⟨List.mem_cons_of_mem _ h1, h2⟩
      · intro j hj hjr
        rcases List.mem_cons.1 hj with h | h
        · subst h; exact absurd hjr hi
        · exact b2 j h hjr
      · rcases b3 with h | ⟨h1, h2⟩
        · left; exact h
        · right; exact ⟨List.mem_cons_of_mem _ h1, h2⟩


theorem straightRaw_iff (cards : List Nat) (hc : ∀ c ∈ cards, c >>> 2 < 13) :
    straightRaw cards = true ↔
      (12 ∈ rankList cards ∧ 0 ∈ rankList cards ∧ 1 ∈ rankList cards ∧
        2 ∈ rankList cards ∧ 3 ∈ rankList cards) ∨
      ∃ lo, ∀ r, r ∈ rankList cards ↔ lo ≤ r ∧ r ≤ lo + 4 := by
  have hlt : ∀ r, r ∈ rankList cards → r < 13 := by
    intro r hr
    obtain ⟨c, hc1, hc2⟩ := List.mem_map.1 hr
    rw [← hc2]; exact hc c hc1
  unfold straightRaw
  simp only [markRanks_zero]
  by_cases hw : 12 ∈ rankList cards ∧ 0 ∈ rankList cards ∧ 1 ∈ rankList cards ∧
      2 ∈ rankList cards ∧ 3 ∈ rankList cards
  · simp [hw]
  · rw [if_neg hw]
    obtain ⟨⟨a1, a2, a3⟩, b1, b2, b3⟩ :=
      minMaxRanks_spec (markRanks zeroRanks cards) (List.range 13) 12 0
    generalize minMaxRanks (markRanks zeroRanks cards) (List.range 13) (12, 0) = mm at *
    obtain ⟨mn, mx⟩ := mm
    simp only [markRanks_zero, List.mem_range] at a1 a2 a3 b1 b2 b3
    simp only [hw, false_or]
    constructor
    · intro h
      split at h
      · rename_i h4
        have h5 : mx = mn + 4 := by omega
        rw [runPresent_iff] at h
        simp only [markRanks_zero, List.mem_range'_1] at h
        refine ⟨mn, fun r => ⟨fun hr => ?_, fun hr => ?_⟩⟩
        · have := a2 r (hlt r hr) hr
          have := b2 r (hlt r hr) hr
          omega
        · exact h r (by omega)
      · cases h
    · rintro ⟨lo, hlo⟩
      have hl1 : lo ∈ rankList cards := (hlo lo).2 (by omega)
      have hl2 : lo + 4 ∈ rankList cards := (hlo (lo + 4)).2 (by omega)
      have h13 := hlt _ hl2
      have hmn1 := a2 lo (hlt _ hl1) hl1
      have hmx1 := b2 (lo + 4) h13 hl2
      have hmn : mn = lo := by
        rcases a3 with h | ⟨_, h⟩
        · omega
        · have := (hlo mn).1 h; omega
      have hmx : mx = lo + 4 := by
        rcases b3 with h | ⟨_, h⟩
        · omega
        · have := (hlo mx).1 h; omega
      subst hmn hmx
      have h4 : ((mn + 4 : Nat) : Int) - (mn : Int) = 4 := by omega
      rw [if_pos h4, runPresent_iff]
      simp only [markRanks_zero, List.mem_range'_1]
      intro i hi
      exact (hlo i).2 (by omega)

end Hand

/-! ### Counting lemmas on lists -/

theorem perm_of_mem_of_length {T rs : List Nat} (hT : T.Nodup) (hlen : rs.length ≤ T.length)
    (hmem : ∀ t ∈ T, t ∈ rs) : rs.Perm T :=
  ((List.subperm_of_subset hT hmem).perm_of_length_le hlen).symm

theorem count_add_count_le (l : List Nat) (a b : Nat) (hab : a ≠ b) :
    l.count a + l.count b ≤ l.length := by
  induction l with
  | nil => simp
  | cons x xs ih =>
    simp only [List.count_cons, List.length_cons]
    by_cases h1 : x = a
    · subst h1
      simp [hab]
      omega
    · by_cases h2 : x = b
      · subst h2
        simp [h1]
        omega
      · simp [h1, h2]
        omega

theorem count_add_count_add_count_le (l : List Nat) (a b c : Nat)
    (hab : a ≠ b) (hac : a ≠ c) (hbc : b ≠ c) :
    l.count a + l.count b + l.count c ≤ l.length := by
  induction l with
  | nil => simp
  | cons x xs ih =>
    simp only [List.count_cons, List.length_cons]
    by_cases h1 : x = a
    · subst h1
      simp [hab, hac]
      omega
    · by_cases h2 : x = b
      · subst h2
        simp [h1, hbc]
        omega
      · by_cases h3 : x = c
        · subst h3
          simp [h1, h2]
          omega
        · simp [h1, h2, h3]
          omega

theorem two_le_countP_iff (p : Nat → Bool) (L : List Nat) (hL : L.Nodup) :
    2 ≤ L.countP p ↔ ∃ x ∈ L, ∃ y ∈ L, x ≠ y ∧ p x = true ∧ p y = true := by
  rw [List.countP_eq_length_filter]
  have hF : (L.filter p).Nodup := hL.filter p
  constructor
  · intro h
    match hf : L.filter p, h, hF with
    | x :: y :: t, _, hnd =>
      have hx : x ∈ L.filter p := by rw [hf]; simp
      have hy : y ∈ L.filter p := by rw [hf]; simp
      rw [List.mem_filter] at hx hy
      refine ⟨x, hx.1, y, hy.1, ?_, hx.2, hy.2⟩
      intro hxy
      rw [List.nodup_cons] at hnd
      exact hnd.1 (by rw [hxy]; simp)
  · rintro ⟨x, hx, y, hy, hxy, hpx, hpy⟩
    have hsub : [x, y] ⊆ L.filter p := by
      intro z hz
      simp only [List.mem_cons, List.mem_singleton, List.not_mem_nil, or_false] at hz
      rcases hz with h | h
      · rw [h]; exact List.mem_filter.2 ⟨hx, hpx⟩
      · rw [h]; exact List.mem_filter.2 ⟨hy, hpy⟩
    have hnd : [x, y].Nodup := by simp [hxy]
    exact (List.subperm_of_subset hnd hsub).length_le

theorem three_le_countP (p : Nat → Bool) (L : List Nat) (hL : L.Nodup) (h : 3 ≤ L.countP p) :
    ∃ x ∈ L, ∃ y ∈ L, ∃ z ∈ L, x ≠ y ∧ x ≠ z ∧ y ≠ z ∧ p x = true ∧ p y = true ∧ p z = true := by
  rw [List.countP_eq_length_filter] at h
  have hF : (L.filter p).Nodup := hL.filter p
  match hf : L.filter p, h, hF with
  | x :: y :: z :: t, _, hnd =>
    have hx : x ∈ L.filter p := by rw [hf]; simp
    have hy : y ∈ L.filter p := by rw [hf]; simp
    have hz : z ∈ L.filter p := by rw [hf]; simp
    rw [List.mem_filter] at hx hy hz
    simp only [List.nodup_cons, List.mem_cons, not_or] at hnd
    exact ⟨x, hx.1, y, hy.1, z, hz.1, hnd.1.1, hnd.1.2.1, hnd.2.1.1, hx.2, hy.2, hz.2⟩

namespace Hand

theorem rank_lt_of_le {c : Nat} (h : c ≤ 51) : c >>> 2 < 13 := by
  rw [Nat.shiftRight_eq_div_pow]; omega

theorem rankList_lt {cards : List Nat} (hr : ∀ c ∈ cards, c ≤ 51) :
    ∀ r ∈ rankList cards, r < 13 := by
  intro r hr1
  obtain ⟨c, hc1, hc2⟩ := List.mem_map.1 hr1
  rw [← hc2]; exact rank_lt_of_le (hr c hc1)

theorem rank_lt_of_count_pos {cards : List Nat} (hr : ∀ c ∈ cards, c ≤ 51) {r : Nat}
    (h : 0 < (rankList cards).count r) : r < 13 :=
  rankList_lt hr r (List.count_pos_iff.1 h)

theorem rankList_length (cards : List Nat) : (rankList cards).length = cards.length := by
  simp [rankList]

theorem suit_eq_mod (c : Nat) : c &&& 0x3 = c % 4 :=
  Nat.and_pow_two_sub_one_eq_mod c 2

/-- Cards that are pairwise distinct hold a rank at most four times. -/
theorem count_le_four {cards : List Nat} (hd : cards.Nodup) (r : Nat) :
    (rankList cards).count r ≤ 4 := by
  unfold rankList
  rw [List.count_eq_countP, List.countP_map, List.countP_eq_length_filter]
  have hF : (cards.filter ((fun x => x == r) ∘ fun card => card >>> 2)).Nodup := hd.filter _
  have hsub : cards.filter ((fun x => x == r) ∘ fun card => card >>> 2) ⊆
      [4 * r, 4 * r + 1, 4 * r + 2, 4 * r + 3] := by
    intro c hc
    rw [List.mem_filter] at hc
    have h2 : c >>> 2 = r := by simpa using hc.2
    rw [Nat.shiftRight_eq_div_pow] at h2
    simp only [List.mem_cons, List.mem_singleton, List.not_mem_nil, or_false]
    omega
  exact (List.subperm_of_subset hF hsub).length_le

theorem flushRaw_iff_shareSuit {cards : List Nat} (hne : cards ≠ []) :
    flushRaw cards = true ↔ HandSpec.shareSuit cards := by
  rw [flushRaw_iff]
  unfold HandSpec.shareSuit
  constructor
  · intro h
    cases cards with
    | nil => exact absurd rfl hne
    | cons c0 cs =>
      refine ⟨c0 &&& 0x3, ?_, fun c hc => h c hc c0 (List.mem_cons_self _ _)⟩
      rw [suit_eq_mod]; omega
  · rintro ⟨s, _, hs⟩ c hc c1 hc1
    rw [hs c hc, hs c1 hc1]

theorem mem_iff_ranksAre {cards : List Nat} (T : List Nat) (hT : T.Nodup)
    (hlen : cards.length = T.length) :
    (∀ t ∈ T, t ∈ rankList cards) ↔ HandSpec.ranksAre cards T := by
  unfold HandSpec.ranksAre
  constructor
  · intro h
    exact perm_of_mem_of_length hT (by rw [rankList_length, hlen]) h
  · intro h t ht
    exact h.symm.subset ht

theorem royal_iff {cards : List Nat} (h5 : cards.length = 5) :
    (8 ∈ rankList cards ∧ 9 ∈ rankList cards ∧ 10 ∈ rankList cards ∧
      11 ∈ rankList cards ∧ 12 ∈ rankList cards) ↔
    HandSpec.ranksAre cards [8, 9, 10, 11, 12] := by
  rw [← mem_iff_ranksAre [8, 9, 10, 11, 12] (by decide) (by rw [h5]; rfl)]
  simp

theorem straightRaw_iff_ranksRun {cards : List Nat} (h5 : cards.length = 5)
    (hr : ∀ c ∈ cards, c ≤ 51) :
    straightRaw cards = true ↔ HandSpec.ranksRun cards := by
  rw [straightRaw_iff cards (fun c hc => rank_lt_of_le (hr c hc))]
  unfold HandSpec.ranksRun
  have hw : (12 ∈ rankList cards ∧ 0 ∈ rankList cards ∧ 1 ∈ rankList cards ∧
      2 ∈ rankList cards ∧ 3 ∈ rankList cards) ↔ HandSpec.ranksAre cards [12, 0, 1, 2, 3] := by
    rw [← mem_iff_ranksAre [12, 0, 1, 2, 3] (by decide) (by rw [h5]; rfl)]
    simp
  rw [hw, or_comm]
  apply or_congr_left
  constructor
  · rintro ⟨lo, hlo⟩
    have h4 : lo + 4 ∈ rankList cards := (hlo (lo + 4)).2 (by omega)
    have := rankList_lt hr _ h4
    refine ⟨lo, by omega, ?_⟩
    rw [← mem_iff_ranksAre _ (by simp) (by rw [h5]; rfl)]
    intro t ht
    simp only [List.mem_cons, List.mem_singleton, List.not_mem_nil, or_false] at ht
    exact (hlo t).2 (by omega)
  · rintro ⟨lo, _, hlo⟩
    refine ⟨lo, fun r => ?_⟩
    unfold HandSpec.ranksAre at hlo
    rw [hlo.mem_iff]
    simp only [List.mem_cons, List.mem_singleton, List.not_mem_nil, or_false]
    omega

/-- A hand of five cards that is a raw straight holds five different ranks. -/
theorem count_le_one_of_ranksRun {cards : List Nat} (h : HandSpec.ranksRun cards) (r : Nat) :
    (rankList cards).count r ≤ 1 := by
  have key : ∀ T : List Nat, T.Nodup → HandSpec.ranksAre cards T → (rankList cards).count r ≤ 1 := by
    intro T hT hp
    unfold HandSpec.ranksAre at hp
    rw [hp.count_eq]
    exact List.nodup_iff_count_le_one.1 hT r
  rcases h with ⟨lo, _, h⟩ | h
  · exact key _ (by simp) h
  · exact key _ (by decide) h


theorem one_le_numRanks_iff (rs : List Nat) (n : Nat) :
    1 ≤ numRanks rs n ↔ ∃ r, r < 13 ∧ rs.count r = n := by
  unfold numRanks
  rw [Nat.succ_le_iff, List.countP_pos_iff]
  simp [List.mem_range]

theorem two_le_numRanks_iff (rs : List Nat) (n : Nat) :
    2 ≤ numRanks rs n ↔
      ∃ r1, r1 < 13 ∧ ∃ r2, r2 < 13 ∧ r1 ≠ r2 ∧ rs.count r1 = n ∧ rs.count r2 = n := by
  unfold numRanks
  rw [two_le_countP_iff _ _ (List.nodup_range 13)]
  simp [List.mem_range]

theorem numRanks_lt_three (rs : List Nat) (n : Nat) (hn : rs.length < 3 * n) :
    numRanks rs n < 3 := by
  by_contra hge
  have h3 : 3 ≤ numRanks rs n := Nat.le_of_not_lt hge
  unfold numRanks at h3
  obtain ⟨x, _, y, _, z, _, hxy, hxz, hyz, hx, hy, hz⟩ :=
    three_le_countP _ _ (List.nodup_range 13) h3
  simp only [decide_eq_true_eq] at hx hy hz
  have := count_add_count_add_count_le rs x y z hxy hxz hyz
  omega

theorem hasFourOfAKind_iff_spec {cards : List Nat} (hd : cards.Nodup)
    (hr : ∀ c ∈ cards, c ≤ 51) :
    hasFourOfAKindLoop zeroRanks cards = true ↔ HandSpec.rankOccurs cards 4 := by
  rw [hasFourOfAKindLoop_iff cards zeroRanks (fun r => by simp [zeroRanks])]
  simp only [zeroRanks, Nat.zero_add]
  unfold HandSpec.rankOccurs
  constructor
  · rintro ⟨r, h⟩
    have := count_le_four hd r
    exact ⟨r, rank_lt_of_count_pos hr (by omega), by omega⟩
  · rintro ⟨r, _, h⟩
    exact ⟨r, by omega⟩

theorem hasThreeOfAKind_iff_spec {cards : List Nat} (hd : cards.Nodup)
    (hr : ∀ c ∈ cards, c ≤ 51) :
    hasThreeOfAKindLoop zeroRanks cards = true ↔
      (HandSpec.rankOccurs cards 4 ∨ HandSpec.rankOccurs cards 3) := by
  rw [hasThreeOfAKindLoop_iff cards zeroRanks (fun r => by simp [zeroRanks])]
  simp only [zeroRanks, Nat.zero_add]
  unfold HandSpec.rankOccurs
  constructor
  · rintro ⟨r, h⟩
    have h4 := count_le_four hd r
    have hlt : r < 13 := rank_lt_of_count_pos hr (by omega)
    by_cases h3 : (rankList cards).count r = 3
    · exact Or.inr ⟨r, hlt, h3⟩
    · exact Or.inl ⟨r, hlt, by omega⟩
  · rintro (⟨r, _, h⟩ | ⟨r, _, h⟩)
    · exact ⟨r, by omega⟩
    · exact ⟨r, by omega⟩

theorem all_le_two_iff {cards : List Nat} (hd : cards.Nodup) (hr : ∀ c ∈ cards, c ≤ 51) :
    (∀ r, (rankList cards).count r ≤ 2) ↔
      ¬ (HandSpec.rankOccurs cards 4 ∨ HandSpec.rankOccurs cards 3) := by
  rw [← hasThreeOfAKind_iff_spec hd hr,
    hasThreeOfAKindLoop_iff cards zeroRanks (fun r => by simp [zeroRanks])]
  simp only [zeroRanks, Nat.zero_add, not_exists, not_le]
  constructor
  · intro h r; have := h r; omega
  · intro h r; have := h r; omega

theorem hasTwoPair_iff_spec {cards : List Nat} (h5 : cards.length = 5) (hd : cards.Nodup)
    (hr : ∀ c ∈ cards, c ≤ 51) :
    hasTwoPair ⟨cards⟩ = true ↔
      ¬ (HandSpec.rankOccurs cards 4 ∨ HandSpec.rankOccurs cards 3) ∧
        HandSpec.twoRanksTwice cards := by
  rw [hasTwoPair_iff cards (fun c hc => rank_lt_of_le (hr c hc)), all_le_two_iff hd hr]
  apply and_congr_right
  intro _
  unfold HandSpec.twoRanksTwice
  rw [← two_le_numRanks_iff]
  have := numRanks_lt_three (rankList cards) 2 (by rw [rankList_length, h5]; decide)
  omega

theorem hasOnePair_iff_spec {cards : List Nat} (hd : cards.Nodup)
    (hr : ∀ c ∈ cards, c ≤ 51) :
    hasOnePair ⟨cards⟩ = true ↔
      ¬ (HandSpec.rankOccurs cards 4 ∨ HandSpec.rankOccurs cards 3) ∧
        ¬ HandSpec.twoRanksTwice cards ∧ HandSpec.rankOccurs cards 2 := by
  rw [hasOnePair_iff cards (fun c hc => rank_lt_of_le (hr c hc)), all_le_two_iff hd hr]
  apply and_congr_right
  intro _
  unfold HandSpec.twoRanksTwice HandSpec.rankOccurs
  rw [← two_le_numRanks_iff, ← one_le_numRanks_iff]
  omega

theorem hasFullHouse_iff_spec {cards : List Nat} (h5 : cards.length = 5) :
    hasFullHouse ⟨cards⟩ = true ↔ HandSpec.countsThreeTwo cards := by
  rw [hasFullHouse_iff]
  unfold HandSpec.countsThreeTwo
  have hlen : (rankList cards).length = 5 := by rw [rankList_length, h5]
  constructor
  · rintro ⟨_, h3, h2⟩
    obtain ⟨r3, hr3, hc3⟩ := (one_le_numRanks_iff (rankList cards) 3).1 (by omega)
    obtain ⟨r2, hr2, hc2⟩ := (one_le_numRanks_iff (rankList cards) 2).1 (by omega)
    exact ⟨r3, hr3, r2, hr2, hc3, hc2⟩
  · rintro ⟨r3, hr3, r2, hr2, hc3, hc2⟩
    have h32 : r3 ≠ r2 := by
      intro h; rw [h] at hc3; omega
    have hother : ∀ r, r ≠ r3 → r ≠ r2 → (rankList cards).count r = 0 := by
      intro r h1 h2
      have := count_add_count_add_count_le (rankList cards) r r3 r2 h1 h2 h32
      omega
    refine ⟨?_, ?_, ?_⟩
    · intro r _
      by_cases h1 : r = r3
      · rw [h1]; omega
      · by_cases h2 : r = r2
        · rw [h2]; omega
        · rw [hother r h1 h2]; omega
    · have h1 : 1 ≤ numRanks (rankList cards) 3 := (one_le_numRanks_iff _ 3).2 ⟨r3, hr3, hc3⟩
      have h2 : ¬ 2 ≤ numRanks (rankList cards) 3 := by
        rw [two_le_numRanks_iff]
        rintro ⟨x, _, y, _, hxy, hx, hy⟩
        have := count_add_count_le (rankList cards) x y hxy
        omega
      omega
    · have h1 : 1 ≤ numRanks (rankList cards) 2 := (one_le_numRanks_iff _ 2).2 ⟨r2, hr2, hc2⟩
      have h2 : ¬ 2 ≤ numRanks (rankList cards) 2 := by
        rw [two_le_numRanks_iff]
        rintro ⟨x, _, y, _, hxy, hx, hy⟩
        have hx3 : x ≠ r3 := by intro h; rw [h] at hx; omega
        have hy3 : y ≠ r3 := by intro h; rw [h] at hy; omega
        have := count_add_count_add_count_le (rankList cards) x y r3 hxy hx3 hy3
        omega
      omega


theorem bool_eq_decide {b : Bool} {p : Prop} [Decidable p] (h : b = true ↔ p) : b = decide p := by
  cases b <;> simp_all

theorem hasRoyalFlush_eq (h : Hand) (e : Bool) :
    h.hasRoyalFlush e = (flushRaw h.cards &&
      decide (8 ∈ rankList h.cards ∧ 9 ∈ rankList h.cards ∧ 10 ∈ rankList h.cards ∧
        11 ∈ rankList h.cards ∧ 12 ∈ rankList h.cards)) := by
  unfold hasRoyalFlush
  rw [hasFlush_false]
  simp only [markRanks_zero]
  cases flushRaw h.cards <;> simp

theorem hasStraightFlush_eq (h : Hand) (e : Bool) :
    h.hasStraightFlush e = (flushRaw h.cards && straightRaw h.cards) := by
  unfold hasStraightFlush
  rw [hasFlush_false, hasStraight_false]

/-- The cascade of `getHandType` with the mutual calls of `hasFlush` and `hasStraight`
unfolded. -/
theorem getHandType_unfold (h : Hand) :
    h.getHandType =
      if (flushRaw h.cards &&
          decide (8 ∈ rankList h.cards ∧ 9 ∈ rankList h.cards ∧ 10 ∈ rankList h.cards ∧
            11 ∈ rankList h.cards ∧ 12 ∈ rankList h.cards)) = true then HandType.RoyalFlush
      else if (flushRaw h.cards && straightRaw h.cards) = true then HandType.StraightFlush
      else if hasFourOfAKindLoop zeroRanks h.cards = true then HandType.FourOfAKind
      else if h.hasFullHouse = true then HandType.FullHouse
      else if (flushRaw h.cards && !straightRaw h.cards) = true then HandType.Flush
      else if (straightRaw h.cards && !flushRaw h.cards) = true then HandType.Straight
      else if hasThreeOfAKindLoop zeroRanks h.cards = true then HandType.ThreeOfAKind
      else if h.hasTwoPair = true then HandType.TwoPair
      else if h.hasOnePair = true then HandType.OnePair
      else HandType.HighCard := by
  unfold getHandType
  rw [hasRoyalFlush_eq, hasStraightFlush_eq, hasFlush_true, hasStraight_true]
  rfl

theorem getHandType_eq_cascade (cards : List Nat) (h5 : cards.length = 5) (hd : cards.Nodup)
    (hr : ∀ c ∈ cards, c ≤ 51) :
    (Hand.mk cards).getHandType = HandSpec.cascade cards := by
  have hne : cards ≠ [] := by
    intro h; rw [h] at h5; cases h5
  have eFl := bool_eq_decide (flushRaw_iff_shareSuit hne)
  have eSt := bool_eq_decide (straightRaw_iff_ranksRun h5 hr)
  have eFo := bool_eq_decide (hasFourOfAKind_iff_spec hd hr)
  have eFH := bool_eq_decide (hasFullHouse_iff_spec h5)
  have eTh := bool_eq_decide (hasThreeOfAKind_iff_spec hd hr)
  have eTP := bool_eq_decide (hasTwoPair_iff_spec h5 hd hr)
  have eOP := bool_eq_decide (hasOnePair_iff_spec hd hr)
  rw [getHandType_unfold]
  simp only [royal_iff h5]
  rw [eFl, eSt, eFo, eFH, eTh, eTP, eOP]
  unfold HandSpec.cascade
  by_cases p1 : HandSpec.shareSuit cards <;>
  by_cases p2 : HandSpec.ranksRun cards <;>
  by_cases p3 : HandSpec.rankOccurs cards 4 <;>
  by_cases p4 : HandSpec.rankOccurs cards 3 <;>
  by_cases p5 : HandSpec.countsThreeTwo cards <;>
  by_cases p6 : HandSpec.twoRanksTwice cards <;>
  by_cases p7 : HandSpec.rankOccurs cards 2 <;>
  by_cases p8 : HandSpec.ranksAre cards [8, 9, 10, 11, 12] <;>
  simp [p1, p2, p3, p4, p5, p6, p7, p8]


/-! ### The classifier does not depend on the order of the cards -/

theorem rankList_perm {cards cards1 : List Nat} (hp : cards.Perm cards1) :
    (rankList cards).Perm (rankList cards1) :=
  hp.map _

theorem numRanks_perm {rs rs1 : List Nat} (hp : rs.Perm rs1) (n : Nat) :
    numRanks rs n = numRanks rs1 n := by
  unfold numRanks
  simp only [hp.count_eq]

theorem flushRaw_perm {cards cards1 : List Nat} (hp : cards.Perm cards1) :
    flushRaw cards = flushRaw cards1 := by
  rw [Bool.eq_iff_iff, flushRaw_iff, flushRaw_iff]
  simp only [hp.mem_iff]

theorem straightRaw_perm {cards cards1 : List Nat} (hp : cards.Perm cards1)
    (hr : ∀ c ∈ cards, c ≤ 51) : straightRaw cards = straightRaw cards1 := by
  have hr1 : ∀ c ∈ cards1, c ≤ 51 := fun c hc => hr c (hp.mem_iff.2 hc)
  rw [Bool.eq_iff_iff, straightRaw_iff cards (fun c hc => rank_lt_of_le (hr c hc)),
    straightRaw_iff cards1 (fun c hc => rank_lt_of_le (hr1 c hc))]
  simp only [(rankList_perm hp).mem_iff]

theorem hasFourOfAKindLoop_perm {cards cards1 : List Nat} (hp : cards.Perm cards1) :
    hasFourOfAKindLoop zeroRanks cards = hasFourOfAKindLoop zeroRanks cards1 := by
  rw [Bool.eq_iff_iff, hasFourOfAKindLoop_iff cards zeroRanks (fun r => by simp [zeroRanks]),
    hasFourOfAKindLoop_iff cards1 zeroRanks (fun r => by simp [zeroRanks])]
  simp only [(rankList_perm hp).count_eq]

theorem hasThreeOfAKindLoop_perm {cards cards1 : List Nat} (hp : cards.Perm cards1) :
    hasThreeOfAKindLoop zeroRanks cards = hasThreeOfAKindLoop zeroRanks cards1 := by
  rw [Bool.eq_iff_iff, hasThreeOfAKindLoop_iff cards zeroRanks (fun r => by simp [zeroRanks]),
    hasThreeOfAKindLoop_iff cards1 zeroRanks (fun r => by simp [zeroRanks])]
  simp only [(rankList_perm hp).count_eq]

theorem hasFullHouse_perm {cards cards1 : List Nat} (hp : cards.Perm cards1) :
    hasFullHouse ⟨cards⟩ = hasFullHouse ⟨cards1⟩ := by
  rw [Bool.eq_iff_iff, hasFullHouse_iff, hasFullHouse_iff]
  simp only [(rankList_perm hp).count_eq, numRanks_perm (rankList_perm hp)]

theorem hasTwoPair_perm {cards cards1 : List Nat} (hp : cards.Perm cards1)
    (hr : ∀ c ∈ cards, c ≤ 51) : hasTwoPair ⟨cards⟩ = hasTwoPair ⟨cards1⟩ := by
  have hr1 : ∀ c ∈ cards1, c ≤ 51 := fun c hc => hr c (hp.mem_iff.2 hc)
  rw [Bool.eq_iff_iff, hasTwoPair_iff cards (fun c hc => rank_lt_of_le (hr c hc)),
    hasTwoPair_iff cards1 (fun c hc => rank_lt_of_le (hr1 c hc))]
  simp only [(rankList_perm hp).count_eq, numRanks_perm (rankList_perm hp)]

theorem hasOnePair_perm {cards cards1 : List Nat} (hp : cards.Perm cards1)
    (hr : ∀ c ∈ cards, c ≤ 51) : hasOnePair ⟨cards⟩ = hasOnePair ⟨cards1⟩ := by
  have hr1 : ∀ c ∈ cards1, c ≤ 51 := fun c hc => hr c (hp.mem_iff.2 hc)
  rw [Bool.eq_iff_iff, hasOnePair_iff cards (fun c hc => rank_lt_of_le (hr c hc)),
    hasOnePair_iff cards1 (fun c hc => rank_lt_of_le (hr1 c hc))]
  simp only [(rankList_perm hp).count_eq, numRanks_perm (rankList_perm hp)]

theorem getHandType_perm_eq {cards cards1 : List Nat} (hp : cards.Perm cards1)
    (hr : ∀ c ∈ cards, c ≤ 51) :
    (Hand.mk cards).getHandType = (Hand.mk cards1).getHandType := by
  rw [getHandType_unfold, getHandType_unfold]
  simp only [flushRaw_perm hp, straightRaw_perm hp hr, hasFourOfAKindLoop_perm hp,
    hasThreeOfAKindLoop_perm hp, hasFullHouse_perm hp, hasTwoPair_perm hp hr,
    hasOnePair_perm hp hr, (rankList_perm hp).mem_iff]

theorem sortHand_perm (h : Hand) : h.sortHand.cards.Perm h.cards :=
  List.perm_insertionSort _ _

theorem ofCards_cards (cards : List Card) :
    (ofCards cards).cards = cards.map Card.getValue := by
  unfold ofCards
  have key : ∀ (l : List Card) (acc : List Nat),
      l.foldl (fun acc card => acc ++ [card.getValue]) acc = acc ++ l.map Card.getValue := by
    intro l
    induction l with
    | nil => intro acc; simp
    | cons c cs ih => intro acc; simp [ih]
  rw [key]; rfl


theorem count_le_one_of_royal {cards : List Nat} (h5 : cards.length = 5)
    (h : 8 ∈ rankList cards ∧ 9 ∈ rankList cards ∧ 10 ∈ rankList cards ∧
      11 ∈ rankList cards ∧ 12 ∈ rankList cards) (r : Nat) :
    (rankList cards).count r ≤ 1 := by
  have hp := (royal_iff h5).1 h
  unfold HandSpec.ranksAre at hp
  rw [hp.count_eq]
  exact List.nodup_iff_count_le_one.1 (by decide) r

theorem getHandType_four_iff (cards : List Nat) (h5 : cards.length = 5)
    (hr : ∀ c ∈ cards, c ≤ 51) :
    (Hand.mk cards).getHandType = HandType.FourOfAKind ↔
      ∃ r, r < 13 ∧ 4 ≤ (rankList cards).count r := by
  have hfour := hasFourOfAKindLoop_iff cards zeroRanks (fun r => by simp [zeroRanks])
  simp only [zeroRanks, Nat.zero_add] at hfour
  have hiff : (∃ r, r < 13 ∧ 4 ≤ (rankList cards).count r) ↔
      hasFourOfAKindLoop zeroRanks cards = true := by
    rw [hfour]
    constructor
    · rintro ⟨r, _, h⟩; exact ⟨r, h⟩
    · rintro ⟨r, h⟩; exact ⟨r, rank_lt_of_count_pos hr (by omega), h⟩
  rw [hiff, getHandType_unfold]
  by_cases h4 : hasFourOfAKindLoop zeroRanks cards = true
  · obtain ⟨r, hr4⟩ := hfour.1 h4
    have hS : straightRaw cards = false := by
      cases hs : straightRaw cards
      · rfl
      · have := count_le_one_of_ranksRun ((straightRaw_iff_ranksRun h5 hr).1 hs) r
        omega
    have hR : ¬ (8 ∈ rankList cards ∧ 9 ∈ rankList cards ∧ 10 ∈ rankList cards ∧
        11 ∈ rankList cards ∧ 12 ∈ rankList cards) := by
      intro h
      have := count_le_one_of_royal h5 h r
      omega
    simp [h4, hS, hR]
  · have h4f : hasFourOfAKindLoop zeroRanks cards = false := by simpa using h4
    rw [h4f]
    split_ifs <;> simp_all

end Hand


/-! ## Card and deck -/

theorem Card.mk_small : ∀ r : Nat, r < 13 → ∀ s : Nat, s < 4 →
    (Card.mk r s).value = 4 * r + s ∧ (Card.mk r s).getRank = r ∧ (Card.mk r s).getSuit = s := by
  decide

namespace Deck

theorem dealCard_concat (init : List Card) (last : Card) :
    dealCard ⟨init ++ [last]⟩ = some (last, ⟨init⟩) := by
  simp [dealCard]

theorem dealCard_nil : dealCard ⟨[]⟩ = none := rfl

theorem dealHandLoop_ok (k : Nat) :
    ∀ (d : Deck) (hand : List Card), k ≤ d.cards.length →
      dealHandLoop k d hand =
        some (hand ++ (d.cards.drop (d.cards.length - k)).reverse,
          ⟨d.cards.take (d.cards.length - k)⟩) := by
  induction k with
  | zero =>
    intro d hand _
    simp [dealHandLoop]
  | succ k ih =>
    intro d hand hk
    obtain ⟨cards⟩ := d
    rcases List.eq_nil_or_concat cards with h | ⟨init, last, h⟩
    · subst h; simp at hk
    · rw [List.concat_eq_append] at h
      subst h
      simp only [List.length_append, List.length_singleton] at hk ⊢
      have hk1 : k ≤ init.length := by omega
      rw [dealHandLoop, dealCard_concat]
      simp only
      rw [ih ⟨init⟩ (hand ++ [last]) hk1]
      have e1 : init.length + 1 - (k + 1) = init.length - k := by omega
      have hle : init.length - k ≤ init.length := Nat.sub_le _ _
      rw [e1, List.drop_append_of_le_length hle, List.take_append_of_le_length hle]
      simp

theorem dealHandLoop_fail (k : Nat) :
    ∀ (d : Deck) (hand : List Card), d.cards.length < k → dealHandLoop k d hand = none := by
  induction k with
  | zero => intro d hand h; cases h
  | succ k ih =>
    intro d hand hk
    obtain ⟨cards⟩ := d
    rcases List.eq_nil_or_concat cards with h | ⟨init, last, h⟩
    · subst h; rfl
    · rw [List.concat_eq_append] at h
      subst h
      simp only [List.length_append, List.length_singleton] at hk
      rw [dealHandLoop, dealCard_concat]
      simp only
      exact ih ⟨init⟩ _ (by simpa using (by omega : init.length < k))

end Deck


/-! ## Lemmas on the deck and the sampler -/

namespace Deck

theorem new_nodup : Deck.new.cards.Nodup := by decide

theorem reset_nodup (d : Deck) : d.reset.cards.Nodup := by
  have hd : d.reset = Deck.reset ⟨[]⟩ := rfl
  rw [hd]
  decide

theorem reset_length (d : Deck) : d.reset.cards.length = 52 := by
  have hd : d.reset = Deck.reset ⟨[]⟩ := rfl
  rw [hd]
  decide

theorem shuffle_perm (d : Deck) {outcome : List Card → List Card} (h : IsShuffle outcome) :
    (d.shuffle outcome).cards.Perm d.cards :=
  h d.cards

theorem dealCard_cards {d d1 : Deck} {c : Card} (h : d.dealCard = some (c, d1)) :
    d1.cards = d.cards.dropLast ∧ d.cards = d1.cards ++ [c] := by
  obtain ⟨cards⟩ := d
  rcases List.eq_nil_or_concat cards with hnil | ⟨init, last, hc⟩
  · subst hnil
    rw [dealCard_nil] at h
    cases h
  · rw [List.concat_eq_append] at hc
    subst hc
    rw [dealCard_concat] at h
    simp only [Option.some.injEq, Prod.mk.injEq] at h
    obtain ⟨h1, h2⟩ := h
    subst h1 h2
    simp

theorem dealHand_cards {d d1 : Deck} {handSize : Int} {hand : List Card}
    (h : d.dealHand handSize = some (hand, d1)) :
    handSize.toNat ≤ d.cards.length ∧
      d1.cards = d.cards.take (d.cards.length - handSize.toNat) ∧
      hand = (d.cards.drop (d.cards.length - handSize.toNat)).reverse := by
  unfold dealHand at h
  by_cases hle : handSize.toNat ≤ d.cards.length
  · rw [dealHandLoop_ok _ d [] hle] at h
    simp only [List.nil_append, Option.some.injEq, Prod.mk.injEq] at h
    obtain ⟨h1, h2⟩ := h
    subst h1 h2
    exact ⟨hle, rfl, rfl⟩
  · rw [dealHandLoop_fail _ d [] (Nat.lt_of_not_le hle)] at h
    cases h

theorem reachable_nodup {d : Deck} (h : Reachable d) : d.cards.Nodup := by
  induction h with
  | new => exact new_nodup
  | reset _ _ => exact reset_nodup _
  | shuffle outcome hs _ ih => exact (shuffle_perm _ hs).nodup_iff.2 ih
  | dealCard _ hd ih =>
    rw [(dealCard_cards hd).1]
    exact ih.sublist (List.dropLast_sublist _)
  | dealHand n _ hd ih =>
    rw [(dealHand_cards hd).2.1]
    exact ih.sublist (List.take_sublist _ _)

theorem card_eq_of_rank_suit {c : Card} {r s : Nat} (hr : c.getRank = r) (hs : c.getSuit = s) :
    c = Card.ofPacked (4 * r + s) := by
  obtain ⟨v⟩ := c
  have hr2 : v / 2 ^ 2 = r := by
    rw [← Nat.shiftRight_eq_div_pow]; exact hr
  have hs2 : v % 4 = s := by
    rw [← Hand.suit_eq_mod]; exact hs
  congr 1
  omega

end Deck

theorem sum_map_arrSet (f : Nat → Nat) (j v : Nat) (L : List Nat) (hL : L.Nodup) (hj : j ∈ L) :
    (L.map (arrSet f j v)).sum + f j = (L.map f).sum + v := by
  induction L with
  | nil => cases hj
  | cons x xs ih =>
    rw [List.nodup_cons] at hL
    simp only [List.map_cons, List.sum_cons]
    by_cases hx : x = j
    · subst hx
      have hrest : xs.map (arrSet f x v) = xs.map f := by
        apply List.map_congr_left
        intro y hy
        have hyx : y ≠ x := fun h => hL.1 (h ▸ hy)
        simp [arrSet, hyx]
      rw [hrest]
      simp only [arrSet, if_true]
      omega
    · have hj2 : j ∈ xs := by
        rcases List.mem_cons.1 hj with h | h
        · exact absurd h.symm hx
        · exact h
      have := ih hL.2 hj2
      simp only [arrSet, if_neg hx]
      simp only [arrSet] at this
      omega

theorem HandType.toNat_lt (t : HandType) : t.toNat < HandType.count := by
  cases t <;> decide

theorem HandType.toNat_injective {t u : HandType} (h : t.toNat = u.toNat) : t = u := by
  cases t <;> cases u <;> first | rfl | (exact absurd h (by decide))

namespace HandTypeCounts

theorem counts_le_total (c : HandTypeCounts) (j : Nat) (hj : j < HandType.count) :
    c.counts j ≤ c.total := by
  have := sum_map_arrSet c.counts j 0 (List.range HandType.count) (List.nodup_range _)
    (List.mem_range.2 hj)
  unfold total
  omega

theorem zero_total : HandTypeCounts.zero.total = 0 := by decide

theorem addHand_total (c : HandTypeCounts) (t : HandType)
    (h : c.total + 1 < 18446744073709551616) : (c.addHand t).total = c.total + 1 := by
  have hle := counts_le_total c t.toNat t.toNat_lt
  have key := sum_map_arrSet c.counts t.toNat (toUInt64 (c.counts t.toNat + 1))
    (List.range HandType.count) (List.nodup_range _) (List.mem_range.2 t.toNat_lt)
  have hmod : toUInt64 (c.counts t.toNat + 1) = c.counts t.toNat + 1 := by
    unfold toUInt64
    exact Nat.mod_eq_of_lt (by omega)
  rw [hmod] at key
  unfold total at *
  unfold addHand
  simp only
  rw [hmod]
  omega

theorem addHand_counts (c : HandTypeCounts) (t u : HandType) :
    (c.addHand t).counts u.toNat =
      if t = u then toUInt64 (c.counts u.toNat + 1) else c.counts u.toNat := by
  unfold addHand arrSet
  by_cases h : t = u
  · subst h; simp
  · have hne : u.toNat ≠ t.toNat := fun e => h (HandType.toNat_injective e.symm)
    simp [h, hne]

end HandTypeCounts

theorem refreshDeck_length (outcome : Nat → List Card → List Card) (i : Nat) (deck : Deck)
    (hs : Deck.IsShuffle (outcome i))
    (hd : i % 10 ≠ 0 → deck.cards.length = 52 - 5 * (i % 10)) :
    (refreshDeck outcome i deck).cards.length = 52 - 5 * (i % 10) := by
  unfold refreshDeck
  by_cases h0 : i % 10 = 0
  · rw [if_pos h0, (Deck.shuffle_perm _ hs).length_eq, Deck.reset_length, h0]
  · rw [if_neg h0]; exact hd h0

theorem dealHand_five (d : Deck) (h5 : 5 ≤ d.cards.length) :
    ∃ hand d1, d.dealHand 5 = some (hand, d1) ∧ d1.cards.length = d.cards.length - 5 ∧
      hand.length = 5 := by
  have h := Deck.dealHandLoop_ok 5 d [] h5
  refine ⟨_, _, h, ?_, ?_⟩
  · simp
  · simp; omega

theorem simulateHandsAllTypesLoop_ok (outcome : Nat → List Card → List Card)
    (hs : ∀ i, Deck.IsShuffle (outcome i)) (k : Nat) :
    ∀ (i : Nat) (deck : Deck) (counts : HandTypeCounts),
      (i % 10 ≠ 0 → deck.cards.length = 52 - 5 * (i % 10)) →
      ∃ d c, simulateHandsAllTypesLoop outcome k i deck counts = some (d, c) ∧
        ((i + k) % 10 ≠ 0 → d.cards.length = 52 - 5 * ((i + k) % 10)) ∧
        (counts.total + k < 18446744073709551616 → c.total = counts.total + k) := by
  induction k with
  | zero =>
    intro i deck counts hd
    exact ⟨deck, counts, rfl, hd, fun _ => rfl⟩
  | succ k ih =>
    intro i deck counts hd
    have hlen := refreshDeck_length outcome i deck (hs i) hd
    have hmod : i % 10 < 10 := Nat.mod_lt _ (by decide)
    obtain ⟨hand, d1, hdeal, hlen1, _⟩ :=
      dealHand_five (refreshDeck outcome i deck) (by omega)
    have hinv : (i + 1) % 10 ≠ 0 → d1.cards.length = 52 - 5 * ((i + 1) % 10) := by
      intro hne
      rw [hlen1, hlen]
      omega
    obtain ⟨d, c, hloop, hdl, htot⟩ :=
      ih (i + 1) d1 (counts.addHand (Hand.ofCards hand).getHandType) hinv
    refine ⟨d, c, ?_, ?_, ?_⟩
    · rw [simulateHandsAllTypesLoop, hdeal]
      exact hloop
    · have e : i + (k + 1) = i + 1 + k := by omega
      rw [e]; exact hdl
    · intro hb
      rw [htot (by rw [HandTypeCounts.addHand_total _ _ (by omega)]; omega),
        HandTypeCounts.addHand_total _ _ (by omega)]
      omega

theorem simulateHandsLoop_eq (targetType : HandType) (outcome : Nat → List Card → List Card)
    (k : Nat) :
    ∀ (i : Nat) (deck : Deck) (counts : HandTypeCounts),
      simulateHandsLoop targetType outcome k i deck (counts.counts targetType.toNat) =
        (simulateHandsAllTypesLoop outcome k i deck counts).map
          (fun s => (s.1, s.2.counts targetType.toNat)) := by
  induction k with
  | zero => intro i deck counts; rfl
  | succ k ih =>
    intro i deck counts
    rw [simulateHandsLoop, simulateHandsAllTypesLoop]
    cases hdeal : (refreshDeck outcome i deck).dealHand 5 with
    | none => rfl
    | some p =>
      obtain ⟨cards, deck1⟩ := p
      simp only
      rw [← ih, HandTypeCounts.addHand_counts]

theorem foldl_arrSet_apply (F : Nat → Nat → Nat) (L : List Nat) (hL : L.Nodup) :
    ∀ (f : Nat → Nat) (j : Nat),
      L.foldl (fun updated i => arrSet updated i (F (updated i) i)) f j =
        if j ∈ L then F (f j) j else f j := by
  induction L with
  | nil => intro f j; simp
  | cons x xs ih =>
    intro f j
    rw [List.nodup_cons] at hL
    rw [List.foldl_cons, ih hL.2]
    by_cases hj : j = x
    · subst hj
      simp [hL.1, arrSet]
    · by_cases hjx : j ∈ xs
      · simp [hjx, arrSet, hj]
      · simp [hjx, arrSet, hj]

theorem foldl_mod_add (M : Nat) (f : Nat → Nat) (L : List Nat) :
    ∀ t0 : Nat, t0 + (L.map f).sum < M →
      L.foldl (fun total i => (total + f i) % M) t0 = t0 + (L.map f).sum := by
  induction L with
  | nil => intro t0 _; simp
  | cons x xs ih =>
    intro t0 h
    simp only [List.map_cons, List.sum_cons] at h
    rw [List.foldl_cons, Nat.mod_eq_of_lt (by omega), ih (t0 + f x) (by omega)]
    simp only [List.map_cons, List.sum_cons]
    omega

theorem mergeCounts_counts (a b : HandTypeCounts) (j : Nat) :
    (mergeCounts a b).counts j =
      if j < HandType.count then toUInt64 (a.counts j + b.counts j) else a.counts j := by
  unfold mergeCounts
  simp only
  rw [foldl_arrSet_apply (fun v i => toUInt64 (v + b.counts i)) _ (List.nodup_range _)]
  simp only [List.mem_range]

theorem mergeCounts_total (a b : HandTypeCounts)
    (h : a.total + b.total < 18446744073709551616) :
    (mergeCounts a b).total = a.total + b.total := by
  have hmap : (List.range HandType.count).map (mergeCounts a b).counts =
      (List.range HandType.count).map (fun i => a.counts i + b.counts i) := by
    apply List.map_congr_left
    intro i hi
    rw [List.mem_range] at hi
    rw [mergeCounts_counts, if_pos hi]
    have h1 := a.counts_le_total i hi
    have h2 := b.counts_le_total i hi
    unfold toUInt64
    exact Nat.mod_eq_of_lt (by omega)
  unfold HandTypeCounts.total at *
  rw [hmap, List.sum_map_add]

theorem mergeCounts_zero_zero :
    mergeCounts HandTypeCounts.zero HandTypeCounts.zero = HandTypeCounts.zero := by
  have h : (mergeCounts HandTypeCounts.zero HandTypeCounts.zero).counts =
      HandTypeCounts.zero.counts := by
    funext j
    rw [mergeCounts_counts]
    simp [HandTypeCounts.zero, toUInt64]
  cases hm : mergeCounts HandTypeCounts.zero HandTypeCounts.zero with
  | mk c =>
    rw [hm] at h
    simp only at h
    rw [h]

theorem sumCounts_eq_total (c : HandTypeCounts) (h : c.total < 18446744073709551616) :
    c.sumCounts = c.total := by
  unfold HandTypeCounts.sumCounts HandTypeCounts.total toUInt64
  unfold HandTypeCounts.total at h
  rw [foldl_mod_add _ _ _ 0 (by omega)]
  omega

theorem simulateHandsAllTypes_total (outcome : Nat → List Card → List Card)
    (hs : ∀ i, Deck.IsShuffle (outcome i)) (numHands : Int) (current : HandTypeCounts)
    (h : current.total + numHands.toNat < 18446744073709551616) :
    ∃ updated, simulateHandsAllTypes outcome numHands current = some updated ∧
      updated.total = current.total + numHands.toNat := by
  obtain ⟨d, c, hloop, _, htot⟩ := simulateHandsAllTypesLoop_ok outcome hs numHands.toNat 0
    Deck.new HandTypeCounts.zero (fun h0 => absurd rfl h0)
  rw [HandTypeCounts.zero_total] at htot
  have hc : c.total = numHands.toNat := by
    rw [htot (by omega)]; omega
  refine ⟨mergeCounts current c, ?_, ?_⟩
  · unfold simulateHandsAllTypes
    rw [hloop]
  · rw [mergeCounts_total _ _ (by omega), hc]

theorem threads_total (outcome : Nat → Nat → List Card → List Card)
    (hs : ∀ w i, Deck.IsShuffle (outcome w i)) (handsPerThread : Int) (ws : List Nat) :
    ∀ current : HandTypeCounts,
      current.total + ws.length * handsPerThread.toNat < 18446744073709551616 →
      ∃ updated,
        ws.foldl (runThread outcome handsPerThread) (some current) = some updated ∧
        updated.total = current.total + ws.length * handsPerThread.toNat := by
  induction ws with
  | nil => intro current _; exact ⟨current, rfl, by simp⟩
  | cons w ws ih =>
    intro current h
    simp only [List.length_cons] at h
    have hexp : (ws.length + 1) * handsPerThread.toNat =
        ws.length * handsPerThread.toNat + handsPerThread.toNat := by ring
    rw [hexp] at h
    obtain ⟨u1, h1, t1⟩ := simulateHandsAllTypes_total (outcome w) (hs w) handsPerThread
      current (by omega)
    obtain ⟨u2, h2, t2⟩ := ih u1 (by omega)
    refine ⟨u2, ?_, ?_⟩
    · rw [List.foldl_cons]
      simp only [runThread, h1]
      exact h2
    · rw [t2, t1, List.length_cons, hexp]
      omega

theorem toUInt32_ofNat (n : Nat) (h : n < 4294967296) : toUInt32 (n : Int) = n := by
  unfold toUInt32
  omega

theorem toInt32_small (n : Nat) (h : n < 2147483648) : toInt32 n = (n : Int) := by
  unfold toInt32
  have e : n % 4294967296 = n := Nat.mod_eq_of_lt (by omega)
  rw [e, if_pos h]

theorem div_mul_pred_le (n W : Nat) : n / W * (W - 1) ≤ n :=
  le_trans (Nat.mul_le_mul_left _ (Nat.sub_le W 1)) (Nat.div_mul_le_self n W)

theorem div_mul_pred_add (n W : Nat) (hW : 1 ≤ W) :
    n / W * (W - 1) + (n / W + n % W) = n := by
  have h1 : n / W * W = n / W * (W - 1) + n / W := by
    obtain ⟨m, rfl⟩ : ∃ m, W = m + 1 := ⟨W - 1, by omega⟩
    simp [Nat.mul_succ]
  have h2 := Nat.div_add_mod n W
  have h3 : W * (n / W) = n / W * W := Nat.mul_comm _ _
  omega

theorem handsPerThreadOf_pos (n W : Nat) (hn : n < 2147483648) :
    handsPerThreadOf (n : Int) W = ((n / W : Nat) : Int) := by
  unfold handsPerThreadOf
  rw [toUInt32_ofNat n (by omega)]
  exact toInt32_small _ (lt_of_le_of_lt (Nat.div_le_self n W) hn)

theorem lastHandsOf_pos (n W : Nat) (hn : n < 2147483648) (hW : 1 ≤ W) :
    lastHandsOf (n : Int) W = ((n / W + n % W : Nat) : Int) := by
  unfold lastHandsOf
  rw [handsPerThreadOf_pos n W hn, toUInt32_ofNat n (by omega),
    toUInt32_ofNat (n / W) (lt_of_le_of_lt (Nat.div_le_self n W) (by omega))]
  have h1 := div_mul_pred_le n W
  have h2 := div_mul_pred_add n W hW
  have e1 : n / W * (W - 1) % 4294967296 = n / W * (W - 1) := Nat.mod_eq_of_lt (by omega)
  rw [e1]
  have e2 : (n + 4294967296 - n / W * (W - 1)) % 4294967296 = n / W + n % W := by
    have e3 : n + 4294967296 - n / W * (W - 1) = (n / W + n % W) + 4294967296 := by omega
    rw [e3, Nat.add_mod_right]
    exact Nat.mod_eq_of_lt (by omega)
  rw [e2]
  exact toInt32_small _ (by omega)

theorem numThreadsOf_pos (hw : Nat) : 1 ≤ numThreadsOf hw := by
  unfold numThreadsOf
  split <;> omega

theorem calculateAllProbabilities_total (hw : Nat)
    (outcome : Nat → Nat → List Card → List Card)
    (hs : ∀ w i, Deck.IsShuffle (outcome w i)) (n : Nat) (hn : n < 2147483648) :
    ∃ result, calculateAllProbabilities hw outcome (n : Int) = some result ∧
      result.total = n := by
  have hW := numThreadsOf_pos hw
  have h1 := div_mul_pred_le n (numThreadsOf hw)
  have h2 := div_mul_pred_add n (numThreadsOf hw) hW
  have hmul : (numThreadsOf hw - 1) * (n / numThreadsOf hw) =
      n / numThreadsOf hw * (numThreadsOf hw - 1) := Nat.mul_comm _ _
  unfold calculateAllProbabilities
  simp only
  rw [handsPerThreadOf_pos n _ hn, lastHandsOf_pos n _ hn hW]
  obtain ⟨u1, hu1, t1⟩ := threads_total outcome hs ((n / numThreadsOf hw : Nat) : Int)
    (List.range (numThreadsOf hw - 1)) HandTypeCounts.zero (by
      rw [HandTypeCounts.zero_total, List.length_range, Int.toNat_ofNat]; omega)
  rw [HandTypeCounts.zero_total, List.length_range, Int.toNat_ofNat] at t1
  rw [hu1]
  simp only [runThread]
  obtain ⟨u2, hu2, t2⟩ := simulateHandsAllTypes_total (outcome (numThreadsOf hw - 1))
    (hs _) ((n / numThreadsOf hw + n % numThreadsOf hw : Nat) : Int) u1 (by
      rw [t1, Int.toNat_ofNat]; omega)
  refine ⟨u2, hu2, ?_⟩
  rw [t2, t1, Int.toNat_ofNat]
  omega

namespace Hand

theorem count_two_lt_13 {cards : List Nat} (hr : ∀ c ∈ cards, c ≤ 51) {r : Nat}
    (h : (rankList cards).count r = 2) : r < 13 :=
  rank_lt_of_count_pos hr (by omega)

theorem numRanks_two_eq_two_iff {cards : List Nat} (h5 : cards.length = 5)
    (hr : ∀ c ∈ cards, c ≤ 51) :
    numRanks (rankList cards) 2 = 2 ↔
      ∃ r1 r2, r1 ≠ r2 ∧ (rankList cards).count r1 = 2 ∧ (rankList cards).count r2 = 2 ∧
        ∀ r, (rankList cards).count r = 2 → r = r1 ∨ r = r2 := by
  have hlen : (rankList cards).length = 5 := by rw [rankList_length, h5]
  have hlt := numRanks_lt_three (rankList cards) 2 (by rw [hlen]; decide)
  constructor
  · intro h
    obtain ⟨r1, _, r2, _, h12, c1, c2⟩ := (two_le_numRanks_iff (rankList cards) 2).1 (by omega)
    refine ⟨r1, r2, h12, c1, c2, fun r hc => ?_⟩
    by_contra hne
    rw [not_or] at hne
    have := count_add_count_add_count_le (rankList cards) r r1 r2 hne.1 hne.2 h12
    omega
  · rintro ⟨r1, r2, h12, c1, c2, _⟩
    have := (two_le_numRanks_iff (rankList cards) 2).2
      ⟨r1, count_two_lt_13 hr c1, r2, count_two_lt_13 hr c2, h12, c1, c2⟩
    omega

theorem numRanks_two_eq_one_iff {cards : List Nat} (hr : ∀ c ∈ cards, c ≤ 51) :
    numRanks (rankList cards) 2 = 1 ↔
      ∃ r1, (rankList cards).count r1 = 2 ∧ ∀ r, (rankList cards).count r = 2 → r = r1 := by
  constructor
  · intro h
    obtain ⟨r1, _, c1⟩ := (one_le_numRanks_iff (rankList cards) 2).1 (by omega)
    refine ⟨r1, c1, fun r hc => ?_⟩
    by_contra hne
    have := (two_le_numRanks_iff (rankList cards) 2).2
      ⟨r, count_two_lt_13 hr hc, r1, count_two_lt_13 hr c1, hne, hc, c1⟩
    omega
  · rintro ⟨r1, c1, huniq⟩
    have h1 := (one_le_numRanks_iff (rankList cards) 2).2 ⟨r1, count_two_lt_13 hr c1, c1⟩
    have h2 : ¬ 2 ≤ numRanks (rankList cards) 2 := by
      rw [two_le_numRanks_iff]
      rintro ⟨x, _, y, _, hxy, hx, hy⟩
      exact hxy ((huniq x hx).trans (huniq y hy).symm)
    omega

theorem all_le_two_iff_lt_three (rs : List Nat) :
    (∀ r, rs.count r ≤ 2) ↔ ∀ r, rs.count r < 3 := by
  constructor
  · intro h r; have := h r; omega
  · intro h r; have := h r; omega

end Hand

namespace Hand

theorem hasFlushFuel_false (fuel : Nat) (h : Hand) :
    hasFlushFuel (fuel + 1) h false = some (h.hasFlush false) := by
  rw [hasFlushFuel]
  unfold hasFlush
  dsimp only
  generalize sameSuitLoop _ h.cards = b
  cases b <;> simp

theorem hasStraightFuel_false (fuel : Nat) (h : Hand) :
    hasStraightFuel (fuel + 1) h false = some (h.hasStraight false) := by
  rw [hasStraightFuel]
  unfold hasStraight
  simp only [Bool.false_eq_true, dite_false, if_false]
  split
  · rfl
  · split
    · cases runPresent _ _ <;> simp
    · rfl

theorem hasFlushFuel_true (fuel : Nat) (h : Hand) :
    hasFlushFuel (fuel + 2) h true = some (h.hasFlush true) := by
  rw [hasFlushFuel, hasStraightFuel_false]
  unfold hasFlush
  dsimp only
  generalize sameSuitLoop _ h.cards = b
  cases b <;> simp

theorem hasStraightFuel_true (fuel : Nat) (h : Hand) :
    hasStraightFuel (fuel + 2) h true = some (h.hasStraight true) := by
  rw [hasStraightFuel, hasFlushFuel_false]
  unfold hasStraight
  simp only [dite_true, if_true]
  split
  · simp
  · split
    · cases runPresent _ _ <;> simp
    · rfl

end Hand

theorem total_eq_ten (c : HandTypeCounts) :
    c.total = c.counts 0 + c.counts 1 + c.counts 2 + c.counts 3 + c.counts 4 + c.counts 5 +
      c.counts 6 + c.counts 7 + c.counts 8 + c.counts 9 := by
  have h : List.range HandType.count = [0, 1, 2, 3, 4, 5, 6, 7, 8, 9] := by decide
  unfold HandTypeCounts.total
  rw [h]
  simp only [List.map_cons, List.map_nil, List.sum_cons, List.sum_nil]
  omega

theorem getProbability_of_total (c : HandTypeCounts) (h : c.total < 18446744073709551616)
    (type : HandType) :
    c.getProbability type =
      if 0 < c.total then (c.counts type.toNat : Rat) / (c.total : Rat) else 0 := by
  unfold HandTypeCounts.getProbability
  simp only [sumCounts_eq_total c h]

theorem simulateHandsAllTypes_zero (outcome : Nat → List Card → List Card)
    (numHands : Int) (hn : numHands ≤ 0) (current : HandTypeCounts) :
    simulateHandsAllTypes outcome numHands current =
      some (mergeCounts current HandTypeCounts.zero) := by
  have h0 : numHands.toNat = 0 := by omega
  unfold simulateHandsAllTypes
  rw [h0]
  rfl

theorem threads_zero (outcome : Nat → Nat → List Card → List Card) (handsPerThread : Int)
    (hn : handsPerThread ≤ 0) (ws : List Nat) :
    ws.foldl (runThread outcome handsPerThread) (some HandTypeCounts.zero) =
      some HandTypeCounts.zero := by
  induction ws with
  | nil => rfl
  | cons w ws ih =>
    rw [List.foldl_cons]
    have : runThread outcome handsPerThread (some HandTypeCounts.zero) w =
        some HandTypeCounts.zero := by
      unfold runThread
      simp only
      rw [simulateHandsAllTypes_zero _ _ hn, mergeCounts_zero_zero]
    rw [this, ih]

theorem calculateAllProbabilities_of_nonpos (hw : Nat)
    (outcome : Nat → Nat → List Card → List Card) (T : Int)
    (h1 : numThreadsOf hw = 1 ∨ handsPerThreadOf T (numThreadsOf hw) ≤ 0)
    (h2 : lastHandsOf T (numThreadsOf hw) ≤ 0) :
    calculateAllProbabilities hw outcome T = some HandTypeCounts.zero := by
  unfold calculateAllProbabilities
  simp only
  have hthreads : (List.range (numThreadsOf hw - 1)).foldl
      (runThread outcome (handsPerThreadOf T (numThreadsOf hw))) (some HandTypeCounts.zero) =
      some HandTypeCounts.zero := by
    rcases h1 with h | h
    · rw [h]; rfl
    · exact threads_zero outcome _ h _
  rw [hthreads]
  unfold runThread
  simp only
  rw [simulateHandsAllTypes_zero _ _ h2, mergeCounts_zero_zero]

theorem toUInt32_neg (T : Int) (hT : T < 0) (hT2 : -2147483648 ≤ T) :
    (toUInt32 T : Int) = T + 4294967296 := by
  unfold toUInt32
  omega

theorem toInt32_large (n : Nat) (h1 : 2147483648 ≤ n) (h2 : n < 4294967296) :
    toInt32 n = (n : Int) - 4294967296 := by
  unfold toInt32
  have e : n % 4294967296 = n := Nat.mod_eq_of_lt h2
  rw [e, if_neg (by omega)]


/-! ## Lemmas on suits, dealt hands and the five-card subsets -/

namespace Hand

theorem mapSuit_spec (p : Nat → Nat) (hp : ∀ s : Nat, s < 4 → p s < 4) (c : Nat)
    (hc : c ≤ 51) :
    mapSuit p c >>> 2 = c >>> 2 ∧ mapSuit p c &&& 0x3 = p (c &&& 0x3) ∧ mapSuit p c ≤ 51 := by
  have hrk : c >>> 2 < 13 := rank_lt_of_le hc
  have hst : c &&& 0x3 < 4 := by rw [suit_eq_mod]; omega
  have hps := hp _ hst
  obtain ⟨h1, h2, h3⟩ := Card.mk_small (c >>> 2) hrk (p (c &&& 0x3)) hps
  have hv : mapSuit p c = 4 * (c >>> 2) + p (c &&& 0x3) := h1
  refine ⟨?_, ?_, ?_⟩
  · exact h2
  · exact h3
  · rw [hv]; omega

theorem rankList_mapSuits (p : Nat → Nat) (hp : ∀ s : Nat, s < 4 → p s < 4) (cards : List Nat)
    (hr : ∀ c ∈ cards, c ≤ 51) :
    rankList (cards.map (mapSuit p)) = rankList cards := by
  unfold rankList
  rw [List.map_map]
  apply List.map_congr_left
  intro c hc
  exact (mapSuit_spec p hp c (hr c hc)).1

theorem flushRaw_mapSuits (p : Nat → Nat) (hp : ∀ s : Nat, s < 4 → p s < 4)
    (hinj : ∀ s : Nat, s < 4 → ∀ t : Nat, t < 4 → p s = p t → s = t) (cards : List Nat)
    (hr : ∀ c ∈ cards, c ≤ 51) :
    flushRaw (cards.map (mapSuit p)) = flushRaw cards := by
  have hst : ∀ c : Nat, c &&& 0x3 < 4 := fun c => by rw [suit_eq_mod]; omega
  rw [Bool.eq_iff_iff, flushRaw_iff, flushRaw_iff]
  constructor
  · intro h c hc c1 hc1
    have := h _ (List.mem_map_of_mem _ hc) _ (List.mem_map_of_mem _ hc1)
    rw [(mapSuit_spec p hp c (hr c hc)).2.1, (mapSuit_spec p hp c1 (hr c1 hc1)).2.1] at this
    exact hinj _ (hst c) _ (hst c1) this
  · intro h d hd d1 hd1
    obtain ⟨c, hc, rfl⟩ := List.mem_map.1 hd
    obtain ⟨c1, hc1, rfl⟩ := List.mem_map.1 hd1
    rw [(mapSuit_spec p hp c (hr c hc)).2.1, (mapSuit_spec p hp c1 (hr c1 hc1)).2.1,
      h c hc c1 hc1]

/-- The classifier is a function of the ranks in hand order and of the raw flush check. -/
theorem getHandType_congr {cards cards1 : List Nat} (hrl : rankList cards = rankList cards1)
    (hfl : flushRaw cards = flushRaw cards1) (hr : ∀ c ∈ cards, c ≤ 51)
    (hr1 : ∀ c ∈ cards1, c ≤ 51) :
    (Hand.mk cards).getHandType = (Hand.mk cards1).getHandType := by
  have hk : ∀ c ∈ cards, c >>> 2 < 13 := fun c hc => rank_lt_of_le (hr c hc)
  have hk1 : ∀ c ∈ cards1, c >>> 2 < 13 := fun c hc => rank_lt_of_le (hr1 c hc)
  have e1 : straightRaw cards = straightRaw cards1 := by
    rw [Bool.eq_iff_iff, straightRaw_iff cards hk, straightRaw_iff cards1 hk1, hrl]
  have e2 : hasFourOfAKindLoop zeroRanks cards = hasFourOfAKindLoop zeroRanks cards1 := by
    rw [Bool.eq_iff_iff, hasFourOfAKindLoop_iff cards zeroRanks (fun r => by simp [zeroRanks]),
      hasFourOfAKindLoop_iff cards1 zeroRanks (fun r => by simp [zeroRanks]), hrl]
  have e3 : hasThreeOfAKindLoop zeroRanks cards = hasThreeOfAKindLoop zeroRanks cards1 := by
    rw [Bool.eq_iff_iff, hasThreeOfAKindLoop_iff cards zeroRanks (fun r => by simp [zeroRanks]),
      hasThreeOfAKindLoop_iff cards1 zeroRanks (fun r => by simp [zeroRanks]), hrl]
  have e4 : hasFullHouse ⟨cards⟩ = hasFullHouse ⟨cards1⟩ := by
    rw [Bool.eq_iff_iff, hasFullHouse_iff, hasFullHouse_iff, hrl]
  have e5 : hasTwoPair ⟨cards⟩ = hasTwoPair ⟨cards1⟩ := by
    rw [Bool.eq_iff_iff, hasTwoPair_iff cards hk, hasTwoPair_iff cards1 hk1, hrl]
  have e6 : hasOnePair ⟨cards⟩ = hasOnePair ⟨cards1⟩ := by
    rw [Bool.eq_iff_iff, hasOnePair_iff cards hk, hasOnePair_iff cards1 hk1, hrl]
  rw [getHandType_unfold, getHandType_unfold]
  simp only [hfl, e1, e2, e3, e4, e5, e6, hrl]

end Hand

theorem Deck.reset_le (d : Deck) : ∀ c ∈ d.reset.cards, c.value ≤ 51 := by
  have hd : d.reset = Deck.reset ⟨[]⟩ := rfl
  rw [hd]
  decide

theorem Deck.dealHand_split {d d1 : Deck} {hand : List Card}
    (h : d.dealHand 5 = some (hand, d1)) : d.cards = d1.cards ++ hand.reverse := by
  obtain ⟨_, h1, h2⟩ := Deck.dealHand_cards h
  rw [h1, h2, List.reverse_reverse, List.take_append_drop]

theorem refreshDeck_valid (outcome : Nat → List Card → List Card) (i : Nat) (deck : Deck)
    (hs : Deck.IsShuffle (outcome i)) (hd : DeckInv i deck) :
    (refreshDeck outcome i deck).cards.length = 52 - 5 * (i % 10) ∧
      (refreshDeck outcome i deck).cards.Nodup ∧
      ∀ c ∈ (refreshDeck outcome i deck).cards, c.value ≤ 51 := by
  unfold refreshDeck
  by_cases h0 : i % 10 = 0
  · rw [if_pos h0]
    have hp := Deck.shuffle_perm deck.reset hs
    refine ⟨by rw [hp.length_eq, Deck.reset_length, h0], hp.nodup_iff.2 (Deck.reset_nodup _),
      fun c hc => Deck.reset_le deck c (hp.mem_iff.1 hc)⟩
  · rw [if_neg h0]; exact hd h0

theorem deal_step (outcome : Nat → List Card → List Card) (i : Nat) (deck : Deck)
    (hs : Deck.IsShuffle (outcome i)) (hd : DeckInv i deck) :
    ∃ hand d1, (refreshDeck outcome i deck).dealHand 5 = some (hand, d1) ∧
      (refreshDeck outcome i deck).cards = d1.cards ++ hand.reverse ∧ hand.length = 5 ∧
      DeckInv (i + 1) d1 := by
  obtain ⟨hlen, hnd, hle⟩ := refreshDeck_valid outcome i deck hs hd
  have hmod : i % 10 < 10 := Nat.mod_lt _ (by decide)
  obtain ⟨hand, d1, hdeal, hlen1, hh5⟩ := dealHand_five (refreshDeck outcome i deck) (by omega)
  have hsplit := Deck.dealHand_split hdeal
  refine ⟨hand, d1, hdeal, hsplit, hh5, fun hne => ⟨?_, ?_, ?_⟩⟩
  · rw [hlen1, hlen]; omega
  · rw [hsplit] at hnd
    exact (List.nodup_append.1 hnd).1
  · intro c hc
    exact hle c (by rw [hsplit]; exact List.mem_append_left _ hc)

theorem simulateHandsAllTypesLoop_valid (outcome : Nat → List Card → List Card)
    (hs : ∀ i, Deck.IsShuffle (outcome i)) (k : Nat) :
    ∀ (i : Nat) (deck : Deck) (counts : HandTypeCounts), DeckInv i deck →
      ∃ d c, simulateHandsAllTypesLoop outcome k i deck counts = some (d, c) ∧
        DeckInv (i + k) d := by
  induction k with
  | zero => intro i deck counts hd; exact ⟨deck, counts, rfl, hd⟩
  | succ k ih =>
    intro i deck counts hd
    obtain ⟨hand, d1, hdeal, _, _, hinv⟩ := deal_step outcome i deck (hs i) hd
    obtain ⟨d, c, hloop, hdl⟩ :=
      ih (i + 1) d1 (counts.addHand (Hand.ofCards hand).getHandType) hinv
    refine ⟨d, c, ?_, ?_⟩
    · rw [simulateHandsAllTypesLoop, hdeal]
      exact hloop
    · have e : i + (k + 1) = i + 1 + k := by omega
      rw [e]; exact hdl

theorem simulateHandsAllTypesLoop_split (outcome : Nat → List Card → List Card) (a b : Nat) :
    ∀ (i : Nat) (deck : Deck) (counts : HandTypeCounts),
      simulateHandsAllTypesLoop outcome (a + b) i deck counts =
        (simulateHandsAllTypesLoop outcome a i deck counts).bind
          (fun s => simulateHandsAllTypesLoop outcome b (i + a) s.1 s.2) := by
  induction a with
  | zero => intro i deck counts; simp [simulateHandsAllTypesLoop]
  | succ a ih =>
    intro i deck counts
    have e : a + 1 + b = (a + b) + 1 := by omega
    rw [e, simulateHandsAllTypesLoop, simulateHandsAllTypesLoop]
    cases hdeal : (refreshDeck outcome i deck).dealHand 5 with
    | none => rfl
    | some p =>
      obtain ⟨cards, deck1⟩ := p
      simp only
      rw [ih]
      have e2 : i + 1 + a = i + (a + 1) := by omega
      rw [e2]

theorem simulateHandsAllTypesLoop_shrinks (outcome : Nat → List Card → List Card) (k : Nat) :
    ∀ (i : Nat) (deck : Deck) (counts : HandTypeCounts) (d : Deck) (c : HandTypeCounts),
      (∀ m, i ≤ m → m < i + k → m % 10 ≠ 0) →
      simulateHandsAllTypesLoop outcome k i deck counts = some (d, c) →
      ∀ x ∈ d.cards, x ∈ deck.cards := by
  induction k with
  | zero =>
    intro i deck counts d c _ h x hx
    rw [simulateHandsAllTypesLoop] at h
    simp only [Option.some.injEq, Prod.mk.injEq] at h
    rw [h.1]; exact hx
  | succ k ih =>
    intro i deck counts d c hm h x hx
    have hi : i % 10 ≠ 0 := hm i (le_refl _) (by omega)
    have hre : refreshDeck outcome i deck = deck := by
      unfold refreshDeck; rw [if_neg hi]
    rw [simulateHandsAllTypesLoop, hre] at h
    cases hdeal : deck.dealHand 5 with
    | none => rw [hdeal] at h; cases h
    | some p =>
      obtain ⟨cards, deck1⟩ := p
      rw [hdeal] at h
      simp only at h
      have h1 := ih (i + 1) deck1 _ d c (fun m h1 h2 => hm m (by omega) (by omega)) h x hx
      rw [Deck.dealHand_split hdeal]
      exact List.mem_append_left _ h1

theorem deckInv_new : DeckInv 0 Deck.new := fun h => absurd rfl h

theorem Card.getValue_injective : Function.Injective Card.getValue := by
  intro a b h
  cases a; cases b
  simp only [Card.getValue] at h
  rw [h]

theorem dealtAt_spec (outcome : Nat → List Card → List Card)
    (hs : ∀ i, Deck.IsShuffle (outcome i)) (i : Nat) :
    ∃ deck counts hand d1,
      simulateHandsAllTypesLoop outcome i 0 Deck.new HandTypeCounts.zero =
        some (deck, counts) ∧
      (refreshDeck outcome i deck).dealHand 5 = some (hand, d1) ∧
      dealtAt outcome i = some hand ∧
      (refreshDeck outcome i deck).cards = d1.cards ++ hand.reverse ∧ hand.length = 5 ∧
      (refreshDeck outcome i deck).cards.Nodup ∧
      (∀ c ∈ (refreshDeck outcome i deck).cards, c.value ≤ 51) ∧
      simulateHandsAllTypesLoop outcome (i + 1) 0 Deck.new HandTypeCounts.zero =
        some (d1, counts.addHand (Hand.ofCards hand).getHandType) := by
  obtain ⟨deck, counts, hloop, hinv⟩ := simulateHandsAllTypesLoop_valid outcome hs i 0 Deck.new
    HandTypeCounts.zero deckInv_new
  rw [Nat.zero_add] at hinv
  obtain ⟨hand, d1, hdeal, hsplit, h5, _⟩ := deal_step outcome i deck (hs i) hinv
  obtain ⟨_, hnd, hle⟩ := refreshDeck_valid outcome i deck (hs i) hinv
  refine ⟨deck, counts, hand, d1, hloop, hdeal, ?_, hsplit, h5, hnd, hle, ?_⟩
  · unfold dealtAt
    rw [hloop]
    simp only
    rw [hdeal]
  · rw [simulateHandsAllTypesLoop_split outcome i 1 0, hloop]
    simp only [simulateHandsAllTypesLoop, Option.some_bind, Nat.zero_add, hdeal]

theorem fiveCardSubsets_length : fiveCardSubsets.length = 2598960 := by
  unfold fiveCardSubsets
  rw [List.length_sublistsLen, List.length_range]
  rfl

theorem fiveCardSubsets_nodup : fiveCardSubsets.Nodup :=
  List.nodup_sublistsLen 5 (List.nodup_range 52)

theorem mem_fiveCardSubsets (l : List Nat) :
    l ∈ fiveCardSubsets ↔ l.Pairwise (· < ·) ∧ l.length = 5 ∧ ∀ c ∈ l, c < 52 := by
  unfold fiveCardSubsets
  rw [List.mem_sublistsLen]
  constructor
  · rintro ⟨hsub, hlen⟩
    exact ⟨List.Pairwise.sublist hsub (List.pairwise_lt_range 52), hlen,
      fun c hc => List.mem_range.1 (hsub.subset hc)⟩
  · rintro ⟨hp, hlen, hlt⟩
    refine ⟨?_, hlen⟩
    have hnd : l.Nodup := hp.imp (fun h => Nat.ne_of_lt h)
    have hsubset : l ⊆ List.range 52 := fun c hc => List.mem_range.2 (hlt c hc)
    exact List.sublist_of_subperm_of_sorted (List.subperm_of_subset hnd hsubset) hp
      (List.pairwise_lt_range 52)

theorem countP_fiveCardSubsets (p : List Nat → Bool) (E : List (List Nat)) (hE : E.Nodup)
    (h : ∀ l, (l ∈ fiveCardSubsets ∧ p l = true) ↔ l ∈ E) :
    fiveCardSubsets.countP p = E.length := by
  rw [List.countP_eq_length_filter]
  apply List.Perm.length_eq
  rw [List.perm_ext_iff_of_nodup (fiveCardSubsets_nodup.filter p) hE]
  intro l
  rw [List.mem_filter]
  exact h l

theorem HandSpec.cascade_eq_royal_iff (cards : List Nat) :
    HandSpec.cascade cards = HandType.RoyalFlush ↔
      HandSpec.shareSuit cards ∧ HandSpec.ranksAre cards [8, 9, 10, 11, 12] := by
  unfold HandSpec.cascade
  split_ifs <;> simp_all

theorem HandSpec.cascade_eq_straightFlush_iff (cards : List Nat) :
    HandSpec.cascade cards = HandType.StraightFlush ↔
      ¬ (HandSpec.shareSuit cards ∧ HandSpec.ranksAre cards [8, 9, 10, 11, 12]) ∧
        HandSpec.shareSuit cards ∧ HandSpec.ranksRun cards := by
  unfold HandSpec.cascade
  split_ifs <;> simp_all

theorem suitedHand_rank (r s : Nat) (hs : s < 4) :
    (4 * r + s) >>> 2 = r ∧ (4 * r + s) &&& 0x3 = s := by
  rw [Nat.shiftRight_eq_div_pow, Hand.suit_eq_mod]
  constructor <;> omega

theorem rankList_suitedHand (ranks : List Nat) (s : Nat) (hs : s < 4) :
    Hand.rankList (suitedHand ranks s) = ranks := by
  unfold Hand.rankList suitedHand
  rw [List.map_map]
  conv_rhs => rw [← List.map_id ranks]
  apply List.map_congr_left
  intro r _
  exact (suitedHand_rank r s hs).1

theorem suit_suitedHand (ranks : List Nat) (s : Nat) (hs : s < 4) :
    ∀ c ∈ suitedHand ranks s, c &&& 0x3 = s := by
  intro c hc
  unfold suitedHand at hc
  obtain ⟨r, _, rfl⟩ := List.mem_map.1 hc
  exact (suitedHand_rank r s hs).2

/-- A hand whose cards all have suit `s` is rebuilt from its ranks. -/
theorem eq_suitedHand (l : List Nat) (s : Nat) (h : ∀ c ∈ l, c &&& 0x3 = s) :
    l = suitedHand (Hand.rankList l) s := by
  unfold Hand.rankList suitedHand
  rw [List.map_map]
  conv_lhs => rw [← List.map_id l]
  apply List.map_congr_left
  intro c hc
  have h1 := h c hc
  rw [Hand.suit_eq_mod] at h1
  simp only [Function.comp_apply, id_eq]
  rw [Nat.shiftRight_eq_div_pow]
  omega

theorem rankList_sorted (l : List Nat) (h : l.Pairwise (· < ·)) :
    (Hand.rankList l).Pairwise (· ≤ ·) := by
  unfold Hand.rankList
  apply List.Pairwise.map _ _ h
  intro a b hab
  rw [Nat.shiftRight_eq_div_pow, Nat.shiftRight_eq_div_pow]
  omega

theorem suitedHand_mem_fiveCardSubsets (ranks : List Nat) (s : Nat) (hs : s < 4)
    (hp : ranks.Pairwise (· < ·)) (hlen : ranks.length = 5) (hle : ∀ r ∈ ranks, r ≤ 12) :
    suitedHand ranks s ∈ fiveCardSubsets := by
  rw [mem_fiveCardSubsets]
  refine ⟨?_, ?_, ?_⟩
  · unfold suitedHand
    apply List.Pairwise.map _ _ hp
    intro a b hab
    omega
  · unfold suitedHand
    rw [List.length_map, hlen]
  · intro c hc
    unfold suitedHand at hc
    obtain ⟨r, hr, rfl⟩ := List.mem_map.1 hc
    have := hle r hr
    omega

/-- The classification of a member of `fiveCardSubsets` by the cascade of the
specification. -/
theorem getHandType_of_subset (l : List Nat) (hl : l ∈ fiveCardSubsets) :
    (Hand.mk l).getHandType = HandSpec.cascade l := by
  obtain ⟨hp, hlen, hlt⟩ := (mem_fiveCardSubsets l).1 hl
  exact Hand.getHandType_eq_cascade l hlen (hp.imp (fun h => Nat.ne_of_lt h))
    (fun c hc => Nat.le_of_lt_succ (hlt c hc))

theorem shareSuit_suitedHand (ranks : List Nat) (s : Nat) (hs : s < 4) :
    HandSpec.shareSuit (suitedHand ranks s) :=
  ⟨s, hs, suit_suitedHand ranks s hs⟩

theorem royal_subsets (l : List Nat) :
    (l ∈ fiveCardSubsets ∧ decide ((Hand.mk l).getHandType = HandType.RoyalFlush) = true) ↔
      l ∈ royalFlushHands := by
  unfold royalFlushHands
  rw [List.mem_map]
  constructor
  · rintro ⟨hl, hroyal⟩
    rw [decide_eq_true_eq, getHandType_of_subset l hl, HandSpec.cascade_eq_royal_iff] at hroyal
    obtain ⟨⟨s, hs, hsuit⟩, hranks⟩ := hroyal
    obtain ⟨hp, _, _⟩ := (mem_fiveCardSubsets l).1 hl
    have heq : Hand.rankList l = [8, 9, 10, 11, 12] :=
      List.eq_of_perm_of_sorted hranks (rankList_sorted l hp) (by decide)
    refine ⟨s, List.mem_range.2 hs, ?_⟩
    rw [← heq]
    exact (eq_suitedHand l s hsuit).symm
  · rintro ⟨s, hs, rfl⟩
    rw [List.mem_range] at hs
    have hl := suitedHand_mem_fiveCardSubsets [8, 9, 10, 11, 12] s hs (by decide) rfl
      (by decide)
    refine ⟨hl, ?_⟩
    rw [decide_eq_true_eq, getHandType_of_subset _ hl, HandSpec.cascade_eq_royal_iff]
    refine ⟨shareSuit_suitedHand _ s hs, ?_⟩
    unfold HandSpec.ranksAre
    rw [rankList_suitedHand _ s hs]

theorem straightFlushRanks_spec (ranks : List Nat) (h : ranks ∈ straightFlushRanks) :
    ranks.Pairwise (· < ·) ∧ ranks.length = 5 ∧ (∀ r ∈ ranks, r ≤ 12) ∧
      ((∃ lo, lo < 8 ∧ ranks = [lo, lo + 1, lo + 2, lo + 3, lo + 4]) ∨
        ranks = [0, 1, 2, 3, 12]) := by
  unfold straightFlushRanks at h
  rw [List.mem_append, List.mem_map, List.mem_singleton] at h
  rcases h with ⟨lo, hlo, rfl⟩ | rfl
  · rw [List.mem_range] at hlo
    refine ⟨by simp, rfl, ?_, Or.inl ⟨lo, hlo, rfl⟩⟩
    intro r hr
    simp only [List.mem_cons, List.mem_singleton, List.not_mem_nil, or_false] at hr
    omega
  · exact ⟨by decide, rfl, by decide, Or.inr rfl⟩

theorem straightFlush_subsets (l : List Nat) :
    (l ∈ fiveCardSubsets ∧
        decide ((Hand.mk l).getHandType = HandType.StraightFlush) = true) ↔
      l ∈ straightFlushHands := by
  unfold straightFlushHands
  simp only [List.mem_flatMap, List.mem_map, List.mem_range]
  constructor
  · rintro ⟨hl, hsf⟩
    rw [decide_eq_true_eq, getHandType_of_subset l hl,
      HandSpec.cascade_eq_straightFlush_iff] at hsf
    obtain ⟨hnot, ⟨s, hs, hsuit⟩, hrun⟩ := hsf
    obtain ⟨hp, _, _⟩ := (mem_fiveCardSubsets l).1 hl
    have hsorted := rankList_sorted l hp
    refine ⟨s, hs, Hand.rankList l, ?_, (eq_suitedHand l s hsuit).symm⟩
    unfold straightFlushRanks
    rw [List.mem_append, List.mem_map, List.mem_singleton]
    rcases hrun with ⟨lo, hlo, hperm⟩ | hperm
    · have heq : Hand.rankList l = [lo, lo + 1, lo + 2, lo + 3, lo + 4] :=
        List.eq_of_perm_of_sorted hperm hsorted (by simp)
      left
      refine ⟨lo, ?_, heq.symm⟩
      rw [List.mem_range]
      by_contra h8
      have h88 : lo = 8 := by omega
      subst h88
      exact hnot ⟨⟨s, hs, hsuit⟩, hperm⟩
    · right
      exact List.eq_of_perm_of_sorted (hperm.trans (by decide)) hsorted (by decide)
  · rintro ⟨s, hs, ranks, hranks, rfl⟩
    obtain ⟨hp, hlen, hle, hshape⟩ := straightFlushRanks_spec ranks hranks
    have hl := suitedHand_mem_fiveCardSubsets ranks s hs hp hlen hle
    refine ⟨hl, ?_⟩
    rw [decide_eq_true_eq, getHandType_of_subset _ hl, HandSpec.cascade_eq_straightFlush_iff]
    have hrl := rankList_suitedHand ranks s hs
    refine ⟨?_, shareSuit_suitedHand _ s hs, ?_⟩
    · rintro ⟨_, hroyal⟩
      unfold HandSpec.ranksAre at hroyal
      rw [hrl] at hroyal
      rcases hshape with ⟨lo, hlo, rfl⟩ | rfl
      · have : lo ∈ [8, 9, 10, 11, 12] := hroyal.subset (by simp)
        simp only [List.mem_cons, List.mem_singleton, List.not_mem_nil, or_false] at this
        omega
      · exact absurd hroyal (by decide)
    · unfold HandSpec.ranksRun HandSpec.ranksAre
      rw [hrl]
      rcases hshape with ⟨lo, hlo, rfl⟩ | rfl
      · exact Or.inl ⟨lo, by omega, List.Perm.refl _⟩
      · exact Or.inr (by decide)

theorem royalFlushHands_nodup : royalFlushHands.Nodup := by decide

theorem straightFlushHands_nodup : straightFlushHands.Nodup := by decide

/-! ## The claims -/

/-- C1: on five pairwise distinct cards with packed values `0..51`, `getHandType` returns the
first category that matches in the cascade of the specification (royal flush, straight
flush, four of a kind, full house, flush, straight, three of a kind, two pair, one pair,
high card). -/
theorem Hand.getHandType_first_match (h : Hand) (h5 : h.cards.length = 5)
    (hd : h.cards.Nodup) (hr : ∀ c ∈ h.cards, c ≤ 51) :
    h.getHandType = HandSpec.cascade h.cards :=
  Hand.getHandType_eq_cascade h.cards h5 hd hr

theorem Hand.getHandType_first_match_witness :
    (Hand.mk [0, 1, 2, 12, 13]).getHandType = HandSpec.cascade [0, 1, 2, 12, 13] ∧
      HandSpec.cascade [0, 1, 2, 12, 13] = HandType.FullHouse :=
  ⟨Hand.getHandType_first_match (Hand.mk [0, 1, 2, 12, 13]) (by decide) (by decide) (by decide),
    by decide⟩

/-- C2, evaluated at hands that match two predicates: the full house 2♥ 2♦ 2♣ 5♥ 5♦
satisfies `hasFullHouse()` and `hasThreeOfAKind()` although a rank appears twice; four
twos satisfy `hasFourOfAKind()` and `hasThreeOfAKind()`; the royal flush in hearts
satisfies `hasRoyalFlush()` and `hasStraightFlush()`. -/
theorem Hand.predicates_overlap :
    ((Hand.mk [0, 1, 2, 12, 13]).hasFullHouse = true ∧
      (Hand.mk [0, 1, 2, 12, 13]).hasThreeOfAKind = true ∧
      (Hand.rankList [0, 1, 2, 12, 13]).count 3 = 2) ∧
    ((Hand.mk [0, 1, 2, 3, 12]).hasFourOfAKind = true ∧
      (Hand.mk [0, 1, 2, 3, 12]).hasThreeOfAKind = true) ∧
    ((Hand.mk [32, 36, 40, 44, 48]).hasRoyalFlush true = true ∧
      (Hand.mk [32, 36, 40, 44, 48]).hasStraightFlush true = true) := by
  refine ⟨by decide, by decide, ?_, ?_⟩
  · rw [Hand.hasRoyalFlush_eq]; decide
  · rw [Hand.hasStraightFlush_eq]; decide

/-- C3: in every suit and every order of the cards, A-2-3-4-5 of one suit is a straight
flush and 10-J-Q-K-A of one suit is a royal flush. -/
theorem Hand.wheel_and_royal (s : Card.Suit) (hs : s ≤ Card.Suit.Spades) :
    (∀ cards : List Card,
      cards.Perm [Card.mk Card.Rank.Ace s, Card.mk Card.Rank.Two s, Card.mk Card.Rank.Three s,
        Card.mk Card.Rank.Four s, Card.mk Card.Rank.Five s] →
      (Hand.ofCards cards).getHandType = HandType.StraightFlush) ∧
    (∀ cards : List Card,
      cards.Perm [Card.mk Card.Rank.Ten s, Card.mk Card.Rank.Jack s, Card.mk Card.Rank.Queen s,
        Card.mk Card.Rank.King s, Card.mk Card.Rank.Ace s] →
      (Hand.ofCards cards).getHandType = HandType.RoyalFlush) := by
  have hs4 : s < 4 := Nat.lt_succ_of_le hs
  have base : ∀ t : Nat, t < 4 →
      ((∀ c ∈ [Card.mk Card.Rank.Ace t, Card.mk Card.Rank.Two t, Card.mk Card.Rank.Three t,
          Card.mk Card.Rank.Four t, Card.mk Card.Rank.Five t].map Card.getValue, c ≤ 51) ∧
        (Hand.mk ([Card.mk Card.Rank.Ace t, Card.mk Card.Rank.Two t, Card.mk Card.Rank.Three t,
          Card.mk Card.Rank.Four t, Card.mk Card.Rank.Five t].map Card.getValue)).getHandType =
          HandType.StraightFlush) ∧
      ((∀ c ∈ [Card.mk Card.Rank.Ten t, Card.mk Card.Rank.Jack t, Card.mk Card.Rank.Queen t,
          Card.mk Card.Rank.King t, Card.mk Card.Rank.Ace t].map Card.getValue, c ≤ 51) ∧
        (Hand.mk ([Card.mk Card.Rank.Ten t, Card.mk Card.Rank.Jack t, Card.mk Card.Rank.Queen t,
          Card.mk Card.Rank.King t, Card.mk Card.Rank.Ace t].map Card.getValue)).getHandType =
          HandType.RoyalFlush) := by
    simp only [Hand.getHandType_unfold]
    decide
  obtain ⟨⟨b1, b2⟩, b3, b4⟩ := base s hs4
  constructor
  · intro cards hp
    have hp1 := hp.map Card.getValue
    have e : Hand.ofCards cards = Hand.mk (cards.map Card.getValue) := by
      rw [← Hand.ofCards_cards]
    rw [e, ← b2]
    exact (Hand.getHandType_perm_eq hp1.symm b1).symm
  · intro cards hp
    have hp1 := hp.map Card.getValue
    have e : Hand.ofCards cards = Hand.mk (cards.map Card.getValue) := by
      rw [← Hand.ofCards_cards]
    rw [e, ← b4]
    exact (Hand.getHandType_perm_eq hp1.symm b3).symm

theorem Hand.wheel_and_royal_witness :
    (Hand.ofCards [Card.mk Card.Rank.Three Card.Suit.Clubs, Card.mk Card.Rank.Ace Card.Suit.Clubs,
        Card.mk Card.Rank.Five Card.Suit.Clubs, Card.mk Card.Rank.Two Card.Suit.Clubs,
        Card.mk Card.Rank.Four Card.Suit.Clubs]).getHandType = HandType.StraightFlush ∧
    (Hand.ofCards [Card.mk Card.Rank.King Card.Suit.Clubs, Card.mk Card.Rank.Ace Card.Suit.Clubs,
        Card.mk Card.Rank.Ten Card.Suit.Clubs, Card.mk Card.Rank.Queen Card.Suit.Clubs,
        Card.mk Card.Rank.Jack Card.Suit.Clubs]).getHandType = HandType.RoyalFlush :=
  ⟨(Hand.wheel_and_royal Card.Suit.Clubs (by decide)).1 _ (by decide),
    (Hand.wheel_and_royal Card.Suit.Clubs (by decide)).2 _ (by decide)⟩
/-- C4 (as amended): on five arbitrary cards with packed values `0..51`, repeated cards
allowed, `getHandType` returns `FourOfAKind` exactly when some rank appears at least 4 times;
when the cards are pairwise distinct that is exactly 4 times; and a hand in which a rank
appears exactly 4 times is `FourOfAKind`, not `FullHouse` or `ThreeOfAKind`. -/
theorem Hand.fourOfAKind_iff_at_least_four (h : Hand) (h5 : h.cards.length = 5)
    (hr : ∀ c ∈ h.cards, c ≤ 51) :
    (h.getHandType = HandType.FourOfAKind ↔
      ∃ r, r < 13 ∧ 4 ≤ (Hand.rankList h.cards).count r) ∧
    (h.cards.Nodup → (h.getHandType = HandType.FourOfAKind ↔ HandSpec.rankOccurs h.cards 4)) ∧
    (HandSpec.rankOccurs h.cards 4 →
      h.getHandType = HandType.FourOfAKind ∧ h.getHandType ≠ HandType.FullHouse ∧
        h.getHandType ≠ HandType.ThreeOfAKind) := by
  have key := Hand.getHandType_four_iff h.cards h5 hr
  refine ⟨key, fun hd => ?_, fun ho => ?_⟩
  · rw [key]
    unfold HandSpec.rankOccurs
    constructor
    · rintro ⟨r, hlt, h4⟩
      have := Hand.count_le_four hd r
      exact ⟨r, hlt, by omega⟩
    · rintro ⟨r, hlt, h4⟩
      exact ⟨r, hlt, by omega⟩
  · have h4 : h.getHandType = HandType.FourOfAKind := by
      obtain ⟨r, hlt, hc⟩ := ho
      exact key.2 ⟨r, hlt, by omega⟩
    rw [h4]
    exact ⟨rfl, by decide, by decide⟩

theorem Hand.fourOfAKind_iff_at_least_four_witness :
    ((Hand.mk [0, 1, 2, 3, 0]).getHandType = HandType.FourOfAKind ↔
      ∃ r, r < 13 ∧ 4 ≤ (Hand.rankList [0, 1, 2, 3, 0]).count r) ∧
    (Hand.mk [4, 5, 6, 7, 50]).getHandType = HandType.FourOfAKind :=
  ⟨(Hand.fourOfAKind_iff_at_least_four (Hand.mk [0, 1, 2, 3, 0]) (by decide) (by decide)).1,
    ((Hand.fourOfAKind_iff_at_least_four (Hand.mk [4, 5, 6, 7, 50]) (by decide)
      (by decide)).2.2 (by decide)).1⟩

/-- C4 as stated fails on the hand 2♥ 2♦ 2♣ 2♠ 2♥ (the two of hearts repeated): it is
classified `FourOfAKind` although no rank appears exactly 4 times (rank Two appears 5
times). -/
theorem Hand.fourOfAKind_not_exactly_four :
    (Hand.mk [0, 1, 2, 3, 0]).getHandType = HandType.FourOfAKind ∧
      (Hand.rankList [0, 1, 2, 3, 0]).count 0 = 5 ∧
      ¬ ∃ r, (Hand.rankList [0, 1, 2, 3, 0]).count r = 4 := by
  refine ⟨?_, by decide, ?_⟩
  · rw [Hand.getHandType_unfold]; decide
  · rintro ⟨r, hr⟩
    by_cases h0 : r = 0
    · subst h0; revert hr; decide
    · have hne : (0 : Nat) ≠ r := fun h => h0 h.symm
      have e : Hand.rankList [0, 1, 2, 3, 0] = [0, 0, 0, 0, 0] := by decide
      rw [e] at hr
      simp [List.count_cons, hne] at hr

/-- C5: on five cards with packed values `0..51`, `getHandType` gives the same category for
every reordering of the cards, the order left by `sortHand()` included. -/
theorem Hand.getHandType_perm (h h1 : Hand) (_h5 : h.cards.length = 5)
    (hr : ∀ c ∈ h.cards, c ≤ 51) (hp : h1.cards.Perm h.cards) :
    h1.getHandType = h.getHandType ∧ h.sortHand.cards.Perm h.cards ∧
      h.sortHand.getHandType = h.getHandType :=
  ⟨(Hand.getHandType_perm_eq hp.symm hr).symm, Hand.sortHand_perm h,
    (Hand.getHandType_perm_eq (Hand.sortHand_perm h).symm hr).symm⟩

theorem Hand.getHandType_perm_witness :
    (Hand.mk [13, 0, 12, 2, 1]).getHandType = (Hand.mk [0, 1, 2, 12, 13]).getHandType ∧
      (Hand.mk [0, 1, 2, 12, 13]).sortHand.cards.Perm [0, 1, 2, 12, 13] ∧
      (Hand.mk [0, 1, 2, 12, 13]).sortHand.getHandType =
        (Hand.mk [0, 1, 2, 12, 13]).getHandType :=
  Hand.getHandType_perm (Hand.mk [0, 1, 2, 12, 13]) (Hand.mk [13, 0, 12, 2, 1]) (by decide)
    (by decide) (by decide)

/-- C6: for each of the 13 ranks and 4 suits, decoding the encoded card gives back the rank
and the suit. -/
theorem Card.roundtrip (r : Card.Rank) (s : Card.Suit)
    (hr : r ≤ Card.Rank.Ace) (hs : s ≤ Card.Suit.Spades) :
    (Card.mk r s).getRank = r ∧ (Card.mk r s).getSuit = s := by
  have h := Card.mk_small r (Nat.lt_succ_of_le hr) s (Nat.lt_succ_of_le hs)
  exact h.2

theorem Card.roundtrip_witness :
    (Card.mk Card.Rank.Queen Card.Suit.Clubs).getRank = Card.Rank.Queen ∧
    (Card.mk Card.Rank.Queen Card.Suit.Clubs).getSuit = Card.Suit.Clubs :=
  Card.roundtrip Card.Rank.Queen Card.Suit.Clubs (by decide) (by decide)

/-- C7: for rank index `r` in `0..12` and suit index `s` in `0..3` the packed value
`(r << 2) | s` equals `4 * r + s`, needs no truncation to 8 bits and is at most 51; the
map from the 52 pairs to the packed values is injective and onto `0..51`. -/
theorem Card.packed_bijection :
    (∀ r : Nat, r < 13 → ∀ s : Nat, s < 4 →
      (r <<< 2) ||| s = 4 * r + s ∧ (r <<< 2) ||| s < 256 ∧
      (Card.mk r s).getValue = 4 * r + s ∧ (Card.mk r s).getValue ≤ 51) ∧
    (∀ r : Nat, r < 13 → ∀ s : Nat, s < 4 → ∀ r1 : Nat, r1 < 13 → ∀ s1 : Nat, s1 < 4 →
      (Card.mk r s).getValue = (Card.mk r1 s1).getValue → r = r1 ∧ s = s1) ∧
    (∀ v : Nat, v < 52 → ∃ r : Nat, r < 13 ∧ ∃ s : Nat, s < 4 ∧ (Card.mk r s).getValue = v) := by
  refine ⟨by decide, ?_, by decide⟩
  intro r hr s hs r1 hr1 s1 hs1 h
  have h1 := (Card.mk_small r hr s hs).1
  have h2 := (Card.mk_small r1 hr1 s1 hs1).1
  unfold Card.getValue at h
  rw [h1, h2] at h
  omega

/-- C8: from every deck state `reset()` gives the same deck of exactly 52 cards, the card at
position `13 * s + r` being (rank `r`, suit `s`); every pair occurs exactly once, and a
second `reset()` changes nothing. -/
theorem Deck.reset_spec (d : Deck) :
    (d.reset).cards.length = 52 ∧
    (∀ s : Nat, s < 4 → ∀ r : Nat, r < 13 →
      (d.reset).cards[13 * s + r]? = some (Card.mk r s) ∧
      (Card.mk r s).getRank = r ∧ (Card.mk r s).getSuit = s ∧
      (d.reset).cards.count (Card.mk r s) = 1) ∧
    (∀ d1 : Deck, d1.reset = d.reset) ∧
    (d.reset).reset = d.reset := by
  have hd : d.reset = Deck.reset ⟨[]⟩ := rfl
  rw [hd]
  refine ⟨by decide, by decide, fun _ => rfl, rfl⟩

/-- C9, evaluated on the constructor: `Deck::Deck()` builds 52 cards with the integers
`2..14` cast to `Rank`, so the deck differs from the one `reset()` builds: it holds no card
of rank Two or Three in any suit, and it holds the packed values `52..59`, whose rank
indices 13 and 14 lie beyond `Ace`. -/
theorem Deck.new_not_standard :
    Deck.new.cards.length = 52 ∧
    Deck.new.cards.map Card.getValue ≠ (Deck.reset Deck.new).cards.map Card.getValue ∧
    (∀ s : Nat, s < 4 →
      Card.mk Card.Rank.Two s ∉ Deck.new.cards ∧ Card.mk Card.Rank.Three s ∉ Deck.new.cards) ∧
    (∀ s : Nat, s < 4 →
      Card.ofPacked (52 + s) ∈ Deck.new.cards ∧ Card.ofPacked (56 + s) ∈ Deck.new.cards) ∧
    Deck.new.cards.getLast? = some (Card.ofPacked 59) ∧
    (Card.ofPacked 59).getRank = 14 ∧ Card.Rank.Ace = 12 := by
  decide

/-- C10: `dealHand(n)` with `0 <= n <= m` on a deck of `m` cards returns `n` cards, the last
`n` cards of the deck in reverse order, and leaves the first `m - n` cards in place;
`dealHand(n)` with `n > m` and `dealCard()` on an empty deck fail (the undefined
`back()`/`pop_back()` on an empty vector). -/
theorem Deck.dealHand_spec (d : Deck) (n : Nat) :
    (n ≤ d.cards.length →
      ∃ hand rest, d.dealHand (n : Int) = some (hand, rest) ∧ hand.length = n ∧
        hand = (d.cards.drop (d.cards.length - n)).reverse ∧
        rest.cards = d.cards.take (d.cards.length - n)) ∧
    (d.cards.length < n → d.dealHand (n : Int) = none) ∧
    (d.cards = [] → d.dealCard = none) := by
  refine ⟨fun hn => ?_, fun hn => ?_, fun he => ?_⟩
  · refine ⟨_, _, ?_, ?_, rfl, rfl⟩
    · unfold Deck.dealHand
      rw [Int.toNat_ofNat, Deck.dealHandLoop_ok n d [] hn]
      simp
    · simp; omega
  · unfold Deck.dealHand
    rw [Int.toNat_ofNat]
    exact Deck.dealHandLoop_fail n d [] hn
  · obtain ⟨cards⟩ := d
    simp only at he
    subst he
    rfl

theorem Deck.dealHand_spec_witness :
    (∃ hand rest,
      (Deck.mk [Card.ofPacked 0, Card.ofPacked 4, Card.ofPacked 8]).dealHand ((2 : Nat) : Int) =
        some (hand, rest) ∧ hand.length = 2 ∧
      hand = [Card.ofPacked 8, Card.ofPacked 4] ∧ rest.cards = [Card.ofPacked 0]) ∧
    (Deck.mk [Card.ofPacked 0, Card.ofPacked 4, Card.ofPacked 8]).dealHand ((4 : Nat) : Int) =
      none ∧
    (Deck.mk []).dealCard = none :=
  ⟨(Deck.dealHand_spec (Deck.mk [Card.ofPacked 0, Card.ofPacked 4, Card.ofPacked 8]) 2).1
      (by decide),
    (Deck.dealHand_spec (Deck.mk [Card.ofPacked 0, Card.ofPacked 4, Card.ofPacked 8]) 4).2.1
      (by decide),
    (Deck.dealHand_spec (Deck.mk []) 0).2.2 rfl⟩

/-- C11: every deck state reachable from a newly constructed deck by `reset()`, `shuffle()`
(any permutation of the cards held), `dealCard()` and `dealHand(n)` holds no card twice: at
most one card of each (rank, suit) pair. -/
theorem Deck.reachable_no_duplicate (d : Deck) (h : Deck.Reachable d) :
    d.cards.Nodup ∧
      ∀ r s : Nat, d.cards.countP (fun c => c.getRank = r ∧ c.getSuit = s) ≤ 1 := by
  have hnd := Deck.reachable_nodup h
  refine ⟨hnd, fun r s => ?_⟩
  rw [List.countP_eq_length_filter]
  have hF : (d.cards.filter (fun c => decide (c.getRank = r ∧ c.getSuit = s))).Nodup :=
    hnd.filter _
  have hsub : d.cards.filter (fun c => decide (c.getRank = r ∧ c.getSuit = s)) ⊆
      [Card.ofPacked (4 * r + s)] := by
    intro c hc
    rw [List.mem_filter] at hc
    have h2 : c.getRank = r ∧ c.getSuit = s := by simpa using hc.2
    rw [List.mem_singleton]
    exact Deck.card_eq_of_rank_suit h2.1 h2.2
  exact (List.subperm_of_subset hF hsub).length_le

theorem Deck.reachable_no_duplicate_witness :
    ((Deck.new.reset).shuffle List.reverse).cards.Nodup ∧
      ∀ r s : Nat, ((Deck.new.reset).shuffle List.reverse).cards.countP
        (fun c => c.getRank = r ∧ c.getSuit = s) ≤ 1 :=
  Deck.reachable_no_duplicate _
    (Deck.Reachable.shuffle List.reverse (fun cards => List.reverse_perm cards)
      (Deck.Reachable.reset Deck.Reachable.new))

/-- C12: for every chunk size `numHands >= 0` and all shuffle outcomes, `simulateHandsAllTypes`
and `simulateHands` run to their end, and in every iteration `i < numHands` the deck on which
`dealHand(5)` is called holds exactly `52 - 5 * (i mod 10)` cards, at least 7, so the deal
succeeds: none of its five `dealCard` calls meets an empty deck. -/
theorem sampling_never_exhausts (outcome : Nat → List Card → List Card)
    (hs : ∀ i, Deck.IsShuffle (outcome i)) (targetType : HandType) (numHands : Int)
    (_hn : 0 ≤ numHands) :
    (∀ current, ∃ updated, simulateHandsAllTypes outcome numHands current = some updated) ∧
    (∀ handTypeCount, ∃ updated,
      simulateHands targetType outcome numHands handTypeCount = some updated) ∧
    (∀ i : Nat, (i : Int) < numHands →
      (∃ deck localCounts,
        simulateHandsAllTypesLoop outcome i 0 Deck.new HandTypeCounts.zero =
          some (deck, localCounts) ∧
        (refreshDeck outcome i deck).cards.length = 52 - 5 * (i % 10) ∧
        7 ≤ (refreshDeck outcome i deck).cards.length ∧
        ∃ hand deck1, (refreshDeck outcome i deck).dealHand 5 = some (hand, deck1)) ∧
      (∃ deck localCount,
        simulateHandsLoop targetType outcome i 0 Deck.new 0 = some (deck, localCount) ∧
        (refreshDeck outcome i deck).cards.length = 52 - 5 * (i % 10) ∧
        7 ≤ (refreshDeck outcome i deck).cards.length ∧
        ∃ hand deck1, (refreshDeck outcome i deck).dealHand 5 = some (hand, deck1))) := by
  have run : ∀ k : Nat, ∃ d c,
      simulateHandsAllTypesLoop outcome k 0 Deck.new HandTypeCounts.zero = some (d, c) ∧
      (k % 10 ≠ 0 → d.cards.length = 52 - 5 * (k % 10)) := by
    intro k
    obtain ⟨d, c, h1, h2, _⟩ := simulateHandsAllTypesLoop_ok outcome hs k 0 Deck.new
      HandTypeCounts.zero (fun h0 => absurd rfl h0)
    rw [Nat.zero_add] at h2
    exact ⟨d, c, h1, h2⟩
  have runOne : ∀ k : Nat,
      simulateHandsLoop targetType outcome k 0 Deck.new 0 =
        (simulateHandsAllTypesLoop outcome k 0 Deck.new HandTypeCounts.zero).map
          (fun s => (s.1, s.2.counts targetType.toNat)) :=
    fun k => simulateHandsLoop_eq targetType outcome k 0 Deck.new HandTypeCounts.zero
  refine ⟨fun current => ?_, fun handTypeCount => ?_, fun i _ => ?_⟩
  · obtain ⟨d, c, h1, _⟩ := run numHands.toNat
    exact ⟨mergeCounts current c, by unfold simulateHandsAllTypes; rw [h1]⟩
  · obtain ⟨d, c, h1, _⟩ := run numHands.toNat
    refine ⟨toUInt64 (handTypeCount + c.counts targetType.toNat), ?_⟩
    unfold simulateHands
    rw [runOne, h1]
    rfl
  · obtain ⟨d, c, h1, h2⟩ := run i
    have hlen := refreshDeck_length outcome i d (hs i) h2
    have hmod : i % 10 < 10 := Nat.mod_lt _ (by decide)
    obtain ⟨hand, d1, hdeal, _, _⟩ := dealHand_five (refreshDeck outcome i d) (by omega)
    refine ⟨⟨d, c, h1, hlen, by omega, hand, d1, hdeal⟩,
      ⟨d, c.counts targetType.toNat, ?_, hlen, by omega, hand, d1, hdeal⟩⟩
    rw [runOne, h1]
    rfl

theorem sampling_never_exhausts_witness :
    ∃ deck localCounts,
      simulateHandsAllTypesLoop (fun _ cards => cards.reverse) 9 0 Deck.new
          HandTypeCounts.zero = some (deck, localCounts) ∧
        (refreshDeck (fun _ cards => cards.reverse) 9 deck).cards.length = 52 - 5 * (9 % 10) ∧
        7 ≤ (refreshDeck (fun _ cards => cards.reverse) 9 deck).cards.length ∧
        ∃ hand deck1,
          (refreshDeck (fun _ cards => cards.reverse) 9 deck).dealHand 5 = some (hand, deck1) :=
  ((sampling_never_exhausts (fun _ cards => cards.reverse)
    (fun _ cards => List.reverse_perm cards) HandType.Flush 10 (by decide)).2.2 9
      (by decide)).1

/-- C13: for every sample count `0 < T` in the range of `int`, every value of
`hardware_concurrency` (hence every worker count `W >= 1`) and all shuffle outcomes,
`calculateAllProbabilities(T)` returns a table whose ten counts sum to exactly `T`, both as
natural numbers and as summed by the code in 64 bits. -/
theorem calculateAllProbabilities_sum (hardware_concurrency : Nat)
    (outcome : Nat → Nat → List Card → List Card)
    (hs : ∀ w i, Deck.IsShuffle (outcome w i)) (T : Int) (hT : 0 < T)
    (hT2 : T < 2147483648) :
    (1 ≤ hardware_concurrency → numThreadsOf hardware_concurrency = hardware_concurrency) ∧
    ∃ result, calculateAllProbabilities hardware_concurrency outcome T = some result ∧
      (result.total : Int) = T ∧ (result.sumCounts : Int) = T := by
  refine ⟨fun h => by unfold numThreadsOf; rw [if_neg (by omega)], ?_⟩
  obtain ⟨n, rfl⟩ : ∃ n : Nat, T = (n : Int) := ⟨T.toNat, by omega⟩
  have hn : n < 2147483648 := by omega
  obtain ⟨result, h1, h2⟩ := calculateAllProbabilities_total hardware_concurrency outcome hs n hn
  refine ⟨result, h1, by rw [h2], ?_⟩
  rw [sumCounts_eq_total result (by omega), h2]

theorem calculateAllProbabilities_sum_witness :
    ∃ result, calculateAllProbabilities 4 (fun _ _ cards => cards.reverse) 1000 = some result ∧
      (result.total : Int) = 1000 ∧ (result.sumCounts : Int) = 1000 :=
  (calculateAllProbabilities_sum 4 (fun _ _ cards => cards.reverse)
    (fun _ _ cards => List.reverse_perm cards) 1000 (by decide) (by decide)).2

/-- C14: for `0 < T` in the range of `int` and `1 <= W` workers, the first `W - 1` workers get
`floor(T / W)` hands each and the last gets `T - (W - 1) * floor(T / W)`, that is
`floor(T / W) + T mod W`; the 32-bit arithmetic of the code does not wrap (the quotient fits
`int`, the product stays at most `T`); the chunks are non-negative, sum to `T`, and the last
exceeds the others by less than `W`. -/
theorem chunk_sizes (T : Int) (hT : 0 < T) (hT2 : T < 2147483648) (W : Nat) (hW : 1 ≤ W)
    (_hW2 : W < 4294967296) :
    handsPerThreadOf T W = T / (W : Int) ∧
    lastHandsOf T W = T - ((W - 1 : Nat) : Int) * (T / (W : Int)) ∧
    lastHandsOf T W = T / (W : Int) + T % (W : Int) ∧
    ((toUInt32 T : Nat) : Int) = T ∧ toUInt32 T / W < 2147483648 ∧
    toUInt32 (handsPerThreadOf T W) * (W - 1) ≤ toUInt32 T ∧
    0 ≤ handsPerThreadOf T W ∧ 0 ≤ lastHandsOf T W ∧
    ((W - 1 : Nat) : Int) * handsPerThreadOf T W + lastHandsOf T W = T ∧
    lastHandsOf T W - handsPerThreadOf T W < (W : Int) := by
  obtain ⟨n, rfl⟩ : ∃ n : Nat, T = (n : Int) := ⟨T.toNat, by omega⟩
  have hn : n < 2147483648 := by omega
  have hq := handsPerThreadOf_pos n W hn
  have hl := lastHandsOf_pos n W hn hW
  have h1 := div_mul_pred_le n W
  have h2 := div_mul_pred_add n W hW
  have hu : toUInt32 (n : Int) = n := toUInt32_ofNat n (by omega)
  have hu2 : toUInt32 ((n / W : Nat) : Int) = n / W :=
    toUInt32_ofNat _ (lt_of_le_of_lt (Nat.div_le_self n W) (by omega))
  have hdiv : ((n / W : Nat) : Int) = (n : Int) / (W : Int) := Int.ofNat_ediv n W
  have hmod : ((n % W : Nat) : Int) = (n : Int) % (W : Int) := Int.ofNat_emod n W
  have hlt : n % W < W := Nat.mod_lt _ (by omega)
  have hprod : ((W - 1 : Nat) : Int) * ((n / W : Nat) : Int) =
      ((n / W * (W - 1) : Nat) : Int) := by
    push_cast; ring
  rw [hq, hl, hu, hu2, ← hdiv, ← hmod, hprod]
  refine ⟨rfl, ?_, ?_, rfl, lt_of_le_of_lt (Nat.div_le_self n W) hn, h1, ?_, ?_, ?_, ?_⟩
  · omega
  · push_cast; rfl
  · omega
  · omega
  · omega
  · push_cast; omega

theorem chunk_sizes_witness :
    handsPerThreadOf 1000003 8 = 125000 ∧ lastHandsOf 1000003 8 = 125003 := by
  have h := chunk_sizes 1000003 (by decide) (by decide) 8 (by decide) (by decide)
  refine ⟨h.1.trans (by decide), h.2.2.1.trans (by decide)⟩


/-- C15 (as amended): for every tally table whose ten counts sum to less than `2^64`, the
total computed by `getProbability` is that sum, and `getProbability(type)`, read as an exact
rational, is `counts[type]` divided by the sum when the sum is positive and 0 when it is
zero; it lies between 0 and 1, and over the ten categories the values add up to 1 when the
sum is positive. -/
theorem HandTypeCounts.getProbability_spec (c : HandTypeCounts)
    (hsum : c.total < 18446744073709551616) (type : HandType) :
    c.sumCounts = c.total ∧
    (0 < c.total → c.getProbability type = (c.counts type.toNat : Rat) / (c.total : Rat)) ∧
    (c.total = 0 → c.getProbability type = 0) ∧
    0 ≤ c.getProbability type ∧ c.getProbability type ≤ 1 ∧
    (0 < c.total →
      ([HandType.RoyalFlush, HandType.StraightFlush, HandType.FourOfAKind, HandType.FullHouse,
        HandType.Flush, HandType.Straight, HandType.ThreeOfAKind, HandType.TwoPair,
        HandType.OnePair, HandType.HighCard].map c.getProbability).sum = 1) := by
  have hp := getProbability_of_total c hsum
  have hle := c.counts_le_total type.toNat type.toNat_lt
  refine ⟨sumCounts_eq_total c hsum, fun h => ?_, fun h => ?_, ?_, ?_, fun h => ?_⟩
  · rw [hp, if_pos h]
  · rw [hp, if_neg (by omega)]
  · rw [hp]
    split
    · exact div_nonneg (Nat.cast_nonneg _) (Nat.cast_nonneg _)
    · exact le_refl _
  · rw [hp]
    split
    · rename_i h
      have hpos : (0 : Rat) < (c.total : Rat) := by exact_mod_cast h
      rw [div_le_one hpos]
      exact_mod_cast hle
    · exact zero_le_one
  · have hpos : (c.total : Rat) ≠ 0 := by
      have : (0 : Rat) < (c.total : Rat) := by exact_mod_cast h
      exact ne_of_gt this
    simp only [List.map_cons, List.map_nil, List.sum_cons, List.sum_nil, hp, if_pos h,
      HandType.toNat]
    have ht := total_eq_ten c
    have htq : (c.total : Rat) = c.counts 0 + c.counts 1 + c.counts 2 + c.counts 3 +
        c.counts 4 + c.counts 5 + c.counts 6 + c.counts 7 + c.counts 8 + c.counts 9 := by
      rw [ht]; push_cast; ring
    field_simp
    rw [htq]
    ring

theorem HandTypeCounts.getProbability_spec_witness :
    (HandTypeCounts.zero.addHand HandType.Flush).sumCounts =
        (HandTypeCounts.zero.addHand HandType.Flush).total ∧
      (HandTypeCounts.zero.addHand HandType.Flush).getProbability HandType.Flush ≤ 1 := by
  have h := HandTypeCounts.getProbability_spec (HandTypeCounts.zero.addHand HandType.Flush)
    (by decide) HandType.Flush
  exact ⟨h.1, h.2.2.2.2.1⟩

/-- C15 as stated fails on the table with counts `2^64 - 1, 2, 0, ..., 0`: each count is a
64-bit value, the sum of the ten counts is `2^64 + 1`, the 64-bit total of the code wraps to
1, and `getProbability(RoyalFlush)` is `2^64 - 1`, which is neither at most 1 nor
`counts[0]` divided by the sum. -/
theorem HandTypeCounts.getProbability_wraps :
    (∀ i, (HandTypeCounts.mk
      (fun i => if i = 0 then 18446744073709551615 else if i = 1 then 2 else 0)).counts i <
        18446744073709551616) ∧
    (HandTypeCounts.mk
      (fun i => if i = 0 then 18446744073709551615 else if i = 1 then 2 else 0)).total =
        18446744073709551617 ∧
    (HandTypeCounts.mk
      (fun i => if i = 0 then 18446744073709551615 else if i = 1 then 2 else 0)).sumCounts = 1 ∧
    (HandTypeCounts.mk
      (fun i => if i = 0 then 18446744073709551615 else if i = 1 then 2 else 0)).getProbability
        HandType.RoyalFlush = 18446744073709551615 ∧
    ¬ ((HandTypeCounts.mk
      (fun i => if i = 0 then 18446744073709551615 else if i = 1 then 2 else 0)).getProbability
        HandType.RoyalFlush ≤ 1) ∧
    (HandTypeCounts.mk
      (fun i => if i = 0 then 18446744073709551615 else if i = 1 then 2 else 0)).getProbability
        HandType.RoyalFlush ≠ (18446744073709551615 : Rat) / 18446744073709551617 := by
  have hs : (HandTypeCounts.mk
      (fun i => if i = 0 then 18446744073709551615 else if i = 1 then 2 else 0)).sumCounts = 1 := by
    decide
  have hg : (HandTypeCounts.mk
      (fun i => if i = 0 then 18446744073709551615 else if i = 1 then 2 else 0)).getProbability
        HandType.RoyalFlush = 18446744073709551615 := by
    unfold HandTypeCounts.getProbability
    simp only [hs]
    norm_num [HandType.toNat]
  refine ⟨fun i => ?_, by decide, hs, hg, ?_, ?_⟩
  · simp only
    split
    · decide
    · split <;> decide
  · rw [hg]; norm_num
  · rw [hg]; norm_num

/-- C16 (as amended): `calculateAllProbabilities` has no check of its own; a non-positive
count given with `-n` is rejected by `main` before any sampling. Called with `T = 0` it deals
no hand for every `W >= 1` (all chunks are 0, the table returned is zero); called with
`-2^31 <= T < 0` it deals no hand when `W = 1` or `W > 2^32 + T`. -/
theorem nonpositive_sample_count (T : Int) (hT : T ≤ 0) (hT2 : -2147483648 ≤ T) (W : Nat)
    (hW : 1 ≤ W) (_hW2 : W < 4294967296) (outcome : Nat → Nat → List Card → List Card) :
    mainTotalHands T = none ∧
    (T = 0 → handsPerThreadOf T W = 0 ∧ lastHandsOf T W = 0 ∧
      calculateAllProbabilities W outcome T = some HandTypeCounts.zero) ∧
    (T < 0 → W = 1 → handsPerThreadOf T W = T ∧ lastHandsOf T W = T ∧
      calculateAllProbabilities W outcome T = some HandTypeCounts.zero) ∧
    (T < 0 → toUInt32 T < W → handsPerThreadOf T W = 0 ∧ lastHandsOf T W = T ∧
      calculateAllProbabilities W outcome T = some HandTypeCounts.zero) := by
  have hWW : numThreadsOf W = W := by
    unfold numThreadsOf; rw [if_neg (by omega)]
  refine ⟨by unfold mainTotalHands; rw [if_pos hT], ?_, ?_, ?_⟩
  · intro h0
    subst h0
    have e1 : handsPerThreadOf 0 W = 0 := by
      have := handsPerThreadOf_pos 0 W (by decide)
      simpa using this
    have e2 : lastHandsOf 0 W = 0 := by
      have := lastHandsOf_pos 0 W (by decide) hW
      simpa using this
    refine ⟨e1, e2, calculateAllProbabilities_of_nonpos W outcome 0 ?_ ?_⟩
    · right; rw [hWW, e1]
    · rw [hWW, e2]
  · intro hneg h1
    subst h1
    have hu := toUInt32_neg T hneg hT2
    have e1 : handsPerThreadOf T 1 = T := by
      unfold handsPerThreadOf
      rw [Nat.div_one, toInt32_large _ (by omega) (by omega)]
      omega
    have e2 : lastHandsOf T 1 = T := by
      unfold lastHandsOf
      simp only [Nat.sub_self, Nat.mul_zero, Nat.zero_mod, Nat.sub_zero, Nat.add_mod_right]
      rw [Nat.mod_eq_of_lt (by omega), toInt32_large _ (by omega) (by omega)]
      omega
    refine ⟨e1, e2, calculateAllProbabilities_of_nonpos 1 outcome T (Or.inl rfl) ?_⟩
    rw [show numThreadsOf 1 = 1 from rfl, e2]
    exact hT
  · intro hneg hlt
    have hu := toUInt32_neg T hneg hT2
    have e1 : handsPerThreadOf T W = 0 := by
      unfold handsPerThreadOf
      rw [Nat.div_eq_of_lt hlt]
      rfl
    have e2 : lastHandsOf T W = T := by
      unfold lastHandsOf
      rw [e1]
      have z : toUInt32 0 = 0 := rfl
      rw [z]
      simp only [Nat.zero_mul, Nat.zero_mod, Nat.sub_zero, Nat.add_mod_right]
      rw [Nat.mod_eq_of_lt (by omega), toInt32_large _ (by omega) (by omega)]
      omega
    refine ⟨e1, e2, calculateAllProbabilities_of_nonpos W outcome T ?_ ?_⟩
    · right; rw [hWW, e1]
    · rw [hWW, e2]; exact hT

theorem nonpositive_sample_count_witness :
    mainTotalHands 0 = none ∧
      calculateAllProbabilities 8 (fun _ _ cards => cards.reverse) 0 =
        some HandTypeCounts.zero :=
  ⟨(nonpositive_sample_count 0 (by decide) (by decide) 8 (by decide) (by decide)
      (fun _ _ cards => cards.reverse)).1,
    ((nonpositive_sample_count 0 (by decide) (by decide) 8 (by decide) (by decide)
      (fun _ _ cards => cards.reverse)).2.1 rfl).2.2⟩

/-- C16 as stated fails at `T = -1` with 4 workers: `handsPerThread` is
`(2^32 - 1) / 4 = 1073741823` and the last chunk is `1073741826`, both positive, so every
worker deals hands. -/
theorem negative_sample_count_deals :
    handsPerThreadOf (-1) (numThreadsOf 4) = 1073741823 ∧
      lastHandsOf (-1) (numThreadsOf 4) = 1073741826 ∧
      (handsPerThreadOf (-1) (numThreadsOf 4)).toNat = 1073741822 + 1 ∧
      ¬ (handsPerThreadOf (-1) (numThreadsOf 4) ≤ 0) := by
  decide

/-- C17: on a non-empty hand of cards in `0..51` the exclusive call is the raw check minus
the overlap and `hasStraightFlush()` is the conjunction of the two raw checks. The mutual
calls end: a non-exclusive call returns within a budget of one call (it makes no further
call) and an exclusive call within a budget of two. -/
theorem Hand.exclusive_toggle (h : Hand) (_hne : h.cards ≠ []) (_hr : ∀ c ∈ h.cards, c ≤ 51)
    (e : Bool) (fuel : Nat) :
    h.hasStraight true = (h.hasStraight false && !h.hasFlush false) ∧
    h.hasFlush true = (h.hasFlush false && !h.hasStraight false) ∧
    h.hasStraightFlush e = (h.hasFlush false && h.hasStraight false) ∧
    Hand.hasStraightFuel (fuel + 1) h false = some (h.hasStraight false) ∧
    Hand.hasFlushFuel (fuel + 1) h false = some (h.hasFlush false) ∧
    Hand.hasStraightFuel (fuel + 2) h true = some (h.hasStraight true) ∧
    Hand.hasFlushFuel (fuel + 2) h true = some (h.hasFlush true) := by
  refine ⟨?_, ?_, rfl, Hand.hasStraightFuel_false fuel h, Hand.hasFlushFuel_false fuel h,
    Hand.hasStraightFuel_true fuel h, Hand.hasFlushFuel_true fuel h⟩
  · rw [Hand.hasStraight_true, Hand.hasStraight_false, Hand.hasFlush_false]
  · rw [Hand.hasFlush_true, Hand.hasStraight_false, Hand.hasFlush_false]

theorem Hand.exclusive_toggle_witness :
    (Hand.mk [1, 5, 9, 13, 17]).hasStraight true =
        ((Hand.mk [1, 5, 9, 13, 17]).hasStraight false &&
          !(Hand.mk [1, 5, 9, 13, 17]).hasFlush false) ∧
      Hand.hasStraightFuel 2 (Hand.mk [1, 5, 9, 13, 17]) true =
        some ((Hand.mk [1, 5, 9, 13, 17]).hasStraight true) := by
  have h := Hand.exclusive_toggle (Hand.mk [1, 5, 9, 13, 17]) (by decide) (by decide) true 0
  exact ⟨h.1, h.2.2.2.2.2.1⟩

/-- C18: on five cards in `0..51` the raw check `hasStraight(false)` holds exactly when the
ranks are A,2,3,4,5 or five different ranks `r .. r+4` with `r` from Two to Ten; so a hand
with a repeated rank, the gapped A,K,Q,J,9 and the wrap-around Q,K,A,2,3 are no
straights. -/
theorem Hand.hasStraight_raw_iff (h : Hand) (h5 : h.cards.length = 5)
    (hr : ∀ c ∈ h.cards, c ≤ 51) :
    (h.hasStraight false = true ↔
      ((∃ lo, lo < 9 ∧
          (Hand.rankList h.cards).Perm [lo, lo + 1, lo + 2, lo + 3, lo + 4]) ∨
        (Hand.rankList h.cards).Perm [12, 0, 1, 2, 3])) ∧
    ((∃ r, 2 ≤ (Hand.rankList h.cards).count r) → h.hasStraight false = false) ∧
    ((Hand.rankList h.cards).Perm [12, 11, 10, 9, 7] → h.hasStraight false = false) ∧
    ((Hand.rankList h.cards).Perm [10, 11, 12, 0, 1] → h.hasStraight false = false) := by
  have key : h.hasStraight false = true ↔ HandSpec.ranksRun h.cards := by
    rw [Hand.hasStraight_false]
    exact Hand.straightRaw_iff_ranksRun h5 hr
  have notrun : ∀ T : List Nat, (Hand.rankList h.cards).Perm T →
      (¬ ∃ lo, lo < 9 ∧ T.Perm [lo, lo + 1, lo + 2, lo + 3, lo + 4]) →
      ¬ T.Perm [12, 0, 1, 2, 3] → h.hasStraight false = false := by
    intro T hT h1 h2
    cases hs : h.hasStraight false
    · rfl
    · exfalso
      rcases key.1 hs with ⟨lo, hlo, hp⟩ | hp
      · exact h1 ⟨lo, hlo, hT.symm.trans hp⟩
      · exact h2 (hT.symm.trans hp)
  refine ⟨key, ?_, fun hp => notrun _ hp (by decide) (by decide),
    fun hp => notrun _ hp (by decide) (by decide)⟩
  rintro ⟨r, hrep⟩
  cases hs : h.hasStraight false
  · rfl
  · have := Hand.count_le_one_of_ranksRun (key.1 hs) r
    omega

theorem Hand.hasStraight_raw_iff_witness :
    (Hand.mk [48, 44, 40, 36, 28]).hasStraight false = false ∧
      (Hand.mk [40, 44, 48, 0, 4]).hasStraight false = false ∧
      (Hand.mk [0, 1, 8, 12, 16]).hasStraight false = false :=
  ⟨(Hand.hasStraight_raw_iff (Hand.mk [48, 44, 40, 36, 28]) (by decide) (by decide)).2.2.1
      (by decide),
    (Hand.hasStraight_raw_iff (Hand.mk [40, 44, 48, 0, 4]) (by decide) (by decide)).2.2.2
      (by decide),
    (Hand.hasStraight_raw_iff (Hand.mk [0, 1, 8, 12, 16]) (by decide) (by decide)).2.1
      ⟨0, by decide⟩⟩

/-- C19: on five cards in `0..51`, in any order, `hasTwoPair()` holds exactly when exactly two
different ranks appear exactly twice each and no rank appears 3 or more times, and
`hasOnePair()` holds exactly when exactly one rank appears exactly twice and no rank appears
3 or more times. -/
theorem Hand.pair_predicates_iff (h : Hand) (h5 : h.cards.length = 5)
    (hr : ∀ c ∈ h.cards, c ≤ 51) :
    (h.hasTwoPair = true ↔
      ((∃ r1 r2, r1 ≠ r2 ∧ (Hand.rankList h.cards).count r1 = 2 ∧
          (Hand.rankList h.cards).count r2 = 2 ∧
          ∀ r, (Hand.rankList h.cards).count r = 2 → r = r1 ∨ r = r2) ∧
        ∀ r, (Hand.rankList h.cards).count r < 3)) ∧
    (h.hasOnePair = true ↔
      ((∃ r1, (Hand.rankList h.cards).count r1 = 2 ∧
          ∀ r, (Hand.rankList h.cards).count r = 2 → r = r1) ∧
        ∀ r, (Hand.rankList h.cards).count r < 3)) ∧
    (∀ h1 : Hand, h1.cards.Perm h.cards →
      h1.hasTwoPair = h.hasTwoPair ∧ h1.hasOnePair = h.hasOnePair) := by
  have hrk : ∀ c ∈ h.cards, c >>> 2 < 13 := fun c hc => Hand.rank_lt_of_le (hr c hc)
  refine ⟨?_, ?_, fun h1 hp => ⟨?_, ?_⟩⟩
  · rw [Hand.hasTwoPair_iff h.cards hrk, Hand.all_le_two_iff_lt_three,
      Hand.numRanks_two_eq_two_iff h5 hr, and_comm]
  · rw [Hand.hasOnePair_iff h.cards hrk, Hand.all_le_two_iff_lt_three,
      Hand.numRanks_two_eq_one_iff hr, and_comm]
  · exact (Hand.hasTwoPair_perm hp.symm hr).symm
  · exact (Hand.hasOnePair_perm hp.symm hr).symm

theorem Hand.pair_predicates_iff_witness :
    ((Hand.mk [28, 29, 2, 3, 20]).hasTwoPair = true ↔
      ((∃ r1 r2, r1 ≠ r2 ∧ (Hand.rankList [28, 29, 2, 3, 20]).count r1 = 2 ∧
          (Hand.rankList [28, 29, 2, 3, 20]).count r2 = 2 ∧
          ∀ r, (Hand.rankList [28, 29, 2, 3, 20]).count r = 2 → r = r1 ∨ r = r2) ∧
        ∀ r, (Hand.rankList [28, 29, 2, 3, 20]).count r < 3)) ∧
      (Hand.mk [28, 29, 2, 3, 20]).hasTwoPair = true :=
  ⟨(Hand.pair_predicates_iff (Hand.mk [28, 29, 2, 3, 20]) (by decide) (by decide)).1,
    by decide⟩
/-- C20: for every target category, every chunk size `numHands >= 0` and all shuffle
outcomes, both loops end on the same deck, and the local count of `simulateHands` equals the
entry of the target category in the local tally of `simulateHandsAllTypes`. -/
theorem single_type_matches_all_types (targetType : HandType)
    (outcome : Nat → List Card → List Card) (hs : ∀ i, Deck.IsShuffle (outcome i))
    (numHands : Int) (_hn : 0 ≤ numHands) :
    ∃ deck localCount localCounts,
      simulateHandsLoop targetType outcome numHands.toNat 0 Deck.new 0 =
        some (deck, localCount) ∧
      simulateHandsAllTypesLoop outcome numHands.toNat 0 Deck.new HandTypeCounts.zero =
        some (deck, localCounts) ∧
      localCount = localCounts.counts targetType.toNat := by
  obtain ⟨d, c, h1, _⟩ := simulateHandsAllTypesLoop_ok outcome hs numHands.toNat 0 Deck.new
    HandTypeCounts.zero (fun h0 => absurd rfl h0)
  refine ⟨d, c.counts targetType.toNat, c, ?_, h1, rfl⟩
  have := simulateHandsLoop_eq targetType outcome numHands.toNat 0 Deck.new HandTypeCounts.zero
  rw [h1] at this
  exact this

theorem single_type_matches_all_types_witness :
    ∃ deck localCount localCounts,
      simulateHandsLoop HandType.OnePair (fun _ cards => cards.reverse) (25 : Int).toNat 0
          Deck.new 0 = some (deck, localCount) ∧
      simulateHandsAllTypesLoop (fun _ cards => cards.reverse) (25 : Int).toNat 0 Deck.new
          HandTypeCounts.zero = some (deck, localCounts) ∧
      localCount = localCounts.counts HandType.OnePair.toNat :=
  single_type_matches_all_types HandType.OnePair (fun _ cards => cards.reverse)
    (fun _ cards => List.reverse_perm cards) 25 (by decide)

/-- C21: the list `fiveCardSubsets` holds each of the 2,598,960 five-card subsets of the
packed cards 0..51 once (as its increasing list); `getHandType` classifies exactly 4 of
them as RoyalFlush and exactly 36 as StraightFlush; and the percentages 100*4/2598960 and
100*36/2598960 are within half a unit of the last decimal place of the constants 0.000154
and 0.00139 of `getTheoreticalProbability`. -/
theorem classifier_matches_table :
    (fiveCardSubsets.length = 2598960 ∧ fiveCardSubsets.Nodup ∧
      ∀ l : List Nat, l ∈ fiveCardSubsets ↔
        l.Pairwise (· < ·) ∧ l.length = 5 ∧ ∀ c ∈ l, c < 52) ∧
    fiveCardSubsets.countP
        (fun l => decide ((Hand.mk l).getHandType = HandType.RoyalFlush)) = 4 ∧
    fiveCardSubsets.countP
        (fun l => decide ((Hand.mk l).getHandType = HandType.StraightFlush)) = 36 ∧
    |(100 * 4 / 2598960 : Rat) - getTheoreticalProbability HandType.RoyalFlush|
      ≤ 0.0000005 ∧
    |(100 * 36 / 2598960 : Rat) - getTheoreticalProbability HandType.StraightFlush|
      ≤ 0.000005 := by
  refine ⟨⟨fiveCardSubsets_length, fiveCardSubsets_nodup, mem_fiveCardSubsets⟩, ?_, ?_, ?_, ?_⟩
  · exact countP_fiveCardSubsets _ royalFlushHands royalFlushHands_nodup royal_subsets
  · exact countP_fiveCardSubsets _ straightFlushHands straightFlushHands_nodup
      straightFlush_subsets
  · unfold getTheoreticalProbability
    rw [abs_le]
    constructor <;> norm_num
  · unfold getTheoreticalProbability
    rw [abs_le]
    constructor <;> norm_num

/-- C22: three workers with the tallies one HighCard, one OnePair and one TwoPair hand.
Run one after the other, their merge loops leave the sum of the three tallies. Under
the schedule `reuseSchedule`, in which every step is defined and no compare-and-swap
fails spuriously, all three workers return and the aggregate read afterwards holds the
tally of worker 0 alone: the hands of workers 1 and 2 are lost. With two workers, after
`freedReadSchedule` the next step of worker 0 copies from an object that worker 1 has
deleted, so the step is not defined. -/
theorem Merge.reuse_loses_tallies :
    (∃ agg : HandTypeCounts,
      (Merge.run (Merge.init [Merge.oneHand HandType.HighCard,
          Merge.oneHand HandType.OnePair, Merge.oneHand HandType.TwoPair])
        Merge.sequentialSchedule).bind Merge.aggregate = some agg ∧
      ∀ i : Nat, i < HandType.count → agg.counts i =
        (Merge.sumTallies [Merge.oneHand HandType.HighCard,
          Merge.oneHand HandType.OnePair, Merge.oneHand HandType.TwoPair]).counts i) ∧
    (∃ agg : HandTypeCounts,
      (Merge.run (Merge.init [Merge.oneHand HandType.HighCard,
          Merge.oneHand HandType.OnePair, Merge.oneHand HandType.TwoPair])
        Merge.reuseSchedule).bind Merge.aggregate = some agg ∧
      (∀ i : Nat, i < HandType.count →
        agg.counts i = (Merge.oneHand HandType.HighCard).counts i) ∧
      agg.counts HandType.OnePair.toNat = 0 ∧
      (Merge.sumTallies [Merge.oneHand HandType.HighCard,
          Merge.oneHand HandType.OnePair, Merge.oneHand HandType.TwoPair]).counts
        HandType.OnePair.toNat = 1 ∧
      agg.counts HandType.TwoPair.toNat = 0 ∧
      (Merge.sumTallies [Merge.oneHand HandType.HighCard,
          Merge.oneHand HandType.OnePair, Merge.oneHand HandType.TwoPair]).counts
        HandType.TwoPair.toNat = 1) ∧
    ∃ (s : Merge.State) (w : Merge.Worker),
      Merge.run (Merge.init [Merge.oneHand HandType.HighCard,
          Merge.oneHand HandType.OnePair]) Merge.freedReadSchedule = some s ∧
      s.workers.get? 0 = some w ∧ w.pc = Merge.Pc.copy ∧
      (s.heap w.current).isNone = true ∧
      Merge.step s ⟨0, 2, false⟩ = none := by
  refine ⟨⟨_, rfl, by decide⟩,
    ⟨_, rfl, by decide, by decide, by decide, by decide, by decide⟩,
    _, _, rfl, rfl, rfl, rfl, rfl⟩

/-- C23: in `simulateHandsAllTypes`, for every chunk size and all shuffle outcomes, the hand
given to `getHandType` in iteration `i` holds exactly 5 pairwise distinct packed cards in
`0..51`, so every rank index `card >> 2` is at most 12; and the cards dealt in two iterations
`i < j` of the same block of ten (no reset in between) are disjoint. -/
theorem dealt_hands_valid (outcome : Nat → List Card → List Card)
    (hs : ∀ i, Deck.IsShuffle (outcome i)) (numHands : Int) (i : Nat)
    (_hi : (i : Int) < numHands) :
    ∃ cards, dealtAt outcome i = some cards ∧
      (Hand.ofCards cards).cards.length = 5 ∧ (Hand.ofCards cards).cards.Nodup ∧
      (∀ c ∈ (Hand.ofCards cards).cards, c ≤ 51 ∧ c >>> 2 ≤ 12) ∧
      ∀ (j : Nat) (cards1 : List Card), i < j → (j : Int) < numHands → j / 10 = i / 10 →
        dealtAt outcome j = some cards1 →
        ∀ c ∈ cards, c ∉ cards1 := by
  obtain ⟨deck, counts, hand, d1, hloop, hdeal, hat, hsplit, h5, hnd, hle, hnext⟩ :=
    dealtAt_spec outcome hs i
  have hsub : ∀ c ∈ hand, c ∈ (refreshDeck outcome i deck).cards := by
    intro c hc
    rw [hsplit]
    exact List.mem_append_right _ (List.mem_reverse.2 hc)
  have hndsplit := hnd
  rw [hsplit] at hndsplit
  obtain ⟨_, hndh, hdisj⟩ := List.nodup_append.1 hndsplit
  refine ⟨hand, hat, ?_, ?_, ?_, ?_⟩
  · rw [Hand.ofCards_cards, List.length_map, h5]
  · rw [Hand.ofCards_cards]
    exact (List.nodup_reverse.1 hndh).map Card.getValue_injective
  · intro v hv
    rw [Hand.ofCards_cards] at hv
    obtain ⟨c, hc, rfl⟩ := List.mem_map.1 hv
    have h51 : c.value ≤ 51 := hle c (hsub c hc)
    have := Hand.rank_lt_of_le h51
    exact ⟨h51, by unfold Card.getValue; omega⟩
  · intro j cards1 hij _ hblock hat1 c hc hc1
    obtain ⟨deckj, countsj, handj, dj1, hloopj, hdealj, hatj, hsplitj, _, _, _, _⟩ :=
      dealtAt_spec outcome hs j
    rw [hatj] at hat1
    simp only [Option.some.injEq] at hat1
    subst hat1
    have hj0 : j % 10 ≠ 0 := by omega
    have hrej : refreshDeck outcome j deckj = deckj := by
      unfold refreshDeck; rw [if_neg hj0]
    rw [hrej] at hsplitj
    have hcj : c ∈ deckj.cards := by
      rw [hsplitj]
      exact List.mem_append_right _ (List.mem_reverse.2 hc1)
    have hj : j = (i + 1) + (j - (i + 1)) := by omega
    rw [hj, simulateHandsAllTypesLoop_split outcome (i + 1) (j - (i + 1)) 0, hnext] at hloopj
    simp only [Option.some_bind, Nat.zero_add] at hloopj
    have hmem := simulateHandsAllTypesLoop_shrinks outcome (j - (i + 1)) (i + 1) d1 _ deckj
      countsj (fun m h1 h2 => by omega) hloopj c hcj
    exact hdisj hmem (List.mem_reverse.2 hc)

theorem dealt_hands_valid_witness :
    ∃ cards, dealtAt (fun _ cards => cards.reverse) 3 = some cards ∧
      (Hand.ofCards cards).cards.length = 5 ∧ (Hand.ofCards cards).cards.Nodup ∧
      (∀ c ∈ (Hand.ofCards cards).cards, c ≤ 51 ∧ c >>> 2 ≤ 12) ∧
      ∀ (j : Nat) (cards1 : List Card), 3 < j → (j : Int) < 20 → j / 10 = 3 / 10 →
        dealtAt (fun _ cards => cards.reverse) j = some cards1 →
        ∀ c ∈ cards, c ∉ cards1 :=
  dealt_hands_valid (fun _ cards => cards.reverse) (fun _ cards => List.reverse_perm cards)
    20 3 (by decide)

/-- C24: on five cards in `0..51`, replacing the suit `s` of every card by `p s` for a
permutation `p` of the four suits keeps every rank, keeps the cards in `0..51`, and leaves
the result of `getHandType` unchanged. -/
theorem Hand.getHandType_mapSuits (h : Hand) (_h5 : h.cards.length = 5)
    (hr : ∀ c ∈ h.cards, c ≤ 51) (p : Nat → Nat) (hp : ∀ s : Nat, s < 4 → p s < 4)
    (hinj : ∀ s : Nat, s < 4 → ∀ t : Nat, t < 4 → p s = p t → s = t) :
    (h.mapSuits p).getHandType = h.getHandType ∧
      (∀ c ∈ h.cards,
        (Card.ofPacked (Hand.mapSuit p c)).getRank = (Card.ofPacked c).getRank ∧
        (Card.ofPacked (Hand.mapSuit p c)).getSuit = p (Card.ofPacked c).getSuit ∧
        Hand.mapSuit p c ≤ 51) := by
  refine ⟨?_, fun c hc => Hand.mapSuit_spec p hp c (hr c hc)⟩
  have hr1 : ∀ c ∈ h.cards.map (Hand.mapSuit p), c ≤ 51 := by
    intro d hd
    obtain ⟨c, hc, rfl⟩ := List.mem_map.1 hd
    exact (Hand.mapSuit_spec p hp c (hr c hc)).2.2
  exact Hand.getHandType_congr (Hand.rankList_mapSuits p hp h.cards hr)
    (Hand.flushRaw_mapSuits p hp hinj h.cards hr) hr1 hr

theorem Hand.getHandType_mapSuits_witness :
    ((Hand.mk [0, 4, 8, 12, 20]).mapSuits (fun s => (s + 1) % 4)).getHandType =
      (Hand.mk [0, 4, 8, 12, 20]).getHandType :=
  (Hand.getHandType_mapSuits (Hand.mk [0, 4, 8, 12, 20]) (by decide) (by decide)
    (fun s => (s + 1) % 4) (by decide) (by decide)).1
